import Mathlib

/-!
# Verification core of the CHC solver: term utilities and bounded model checking

A shallow embedding of `src/TermUtils.h` (junct extraction, time machine, trivial
quantifier elimination), `src/engine/Bmc.cc` (the BMC engine) and
`src/proofs/Term.cpp` (the terms of the proof layer and their visitors), together
with the properties of the specification that concern them.

Conventions of the embedding:
* a term handle `PTRef` is the term itself; hash-consing makes handle equality
  coincide with structural equality, which is Lean equality here;
* C++ exceptions and failed assertions are values of `Exception` carried by `Except`;
* the C++ `int` of the time machine is the type `Int`; signed overflow is undefined
  behaviour in the source and is not modelled, so the statements are about version
  numbers and depths that fit an `int`;
* the SMT backend is a black box: a function from the list of asserted formulas to
  a verdict;
* a term of the proof layer is a tree, a `std::shared_ptr` to a node is the node
  itself, and a visitor that changes its fields is a function of its state;
* the numbers `FastRational` of the SMT library are the rationals `ℚ`;
* a recursion of the source that is not structural is bounded by a parameter
  `fuel`: the result `none` means that the bound was reached.
-/

namespace Golem

/-! ## Term layer -/

/-- Sort references: `Bool`, the numeric sort, and user-declared sorts. -/
inductive SRef where
  | bool
  | num
  | uninterpreted (name : String)
deriving DecidableEq, Repr

/-- Symbol of an application: its name, its result sort, and whether the background
theory interprets it (`+`, `<`, ...) or it is an uninterpreted function or predicate. -/
structure SymRef where
  name : String
  rsort : SRef
  interpreted : Bool
deriving DecidableEq, Repr

/-- Modelled from the spec: the term layer of section 3 and 4.1, which lives in the
SMT library and not in this repository. A term is a constant, a typed variable
(name and sort), or an application of a symbol to an ordered child sequence; the
Boolean connectives and equality, which the utilities test for with `isNot`,
`isAnd`, `isOr` and `isEquality`, have constructors of their own. -/
inductive PTRef where
  | var (name : String) (sort : SRef)
  | const (name : String) (sort : SRef)
  | not (arg : PTRef)
  | and (args : List PTRef)
  | or (args : List PTRef)
  | eq (lhs rhs : PTRef)
  | app (sym : SymRef) (args : List PTRef)
deriving Repr

mutual
/-- Structural equality test on terms. -/
def PTRef.beq : PTRef → PTRef → Bool
  | .var n s, .var m t => decide (n = m) && decide (s = t)
  | .const n s, .const m t => decide (n = m) && decide (s = t)
  | .not a, .not b => a.beq b
  | .and as, .and bs => PTRef.beqList as bs
  | .or as, .or bs => PTRef.beqList as bs
  | .eq l r, .eq l2 r2 => l.beq l2 && r.beq r2
  | .app f as, .app g bs => decide (f = g) && PTRef.beqList as bs
  | _, _ => false
/-- Structural equality test on child sequences. -/
def PTRef.beqList : List PTRef → List PTRef → Bool
  | [], [] => true
  | a :: as, b :: bs => a.beq b && PTRef.beqList as bs
  | _, _ => false
end

mutual
theorem PTRef.beq_iff : ∀ (a b : PTRef), a.beq b = true ↔ a = b
  | .var n s, b => by cases b <;> simp [PTRef.beq]
  | .const n s, b => by cases b <;> simp [PTRef.beq]
  | .not a, b => by
      cases b <;> simp [PTRef.beq]
      exact PTRef.beq_iff a _
  | .and as, b => by
      cases b <;> simp [PTRef.beq]
      exact PTRef.beqList_iff as _
  | .or as, b => by
      cases b <;> simp [PTRef.beq]
      exact PTRef.beqList_iff as _
  | .eq l r, b => by
      cases b <;> simp [PTRef.beq]
      rw [PTRef.beq_iff l, PTRef.beq_iff r]
  | .app f as, b => by
      cases b <;> simp [PTRef.beq, PTRef.beqList_iff as]
theorem PTRef.beqList_iff : ∀ (as bs : List PTRef), PTRef.beqList as bs = true ↔ as = bs
  | [], bs => by cases bs <;> simp [PTRef.beqList]
  | a :: as, bs => by
      cases bs <;> simp [PTRef.beqList]
      rw [PTRef.beq_iff a, PTRef.beqList_iff as]
end

instance : DecidableEq PTRef := fun a b => decidable_of_iff _ (PTRef.beq_iff a b)

mutual
/-- Number of nodes of a term. -/
def PTRef.size : PTRef → Nat
  | .var _ _ => 1
  | .const _ _ => 1
  | .not a => a.size + 1
  | .and as => PTRef.sizeList as + 1
  | .or as => PTRef.sizeList as + 1
  | .eq l r => l.size + r.size + 1
  | .app _ as => PTRef.sizeList as + 1
/-- Number of nodes of a child sequence. -/
def PTRef.sizeList : List PTRef → Nat
  | [] => 0
  | a :: as => a.size + PTRef.sizeList as
end

/-- The query `Logic::isVar`. -/
def isVar : PTRef → Bool
  | .var _ _ => true
  | _ => false

/-- The query `Logic::isNot`. -/
def isNot : PTRef → Bool
  | .not _ => true
  | _ => false

/-- The query `Logic::isAnd`. -/
def isAnd : PTRef → Bool
  | .and _ => true
  | _ => false

/-- The query `Logic::isOr`. -/
def isOr : PTRef → Bool
  | .or _ => true
  | _ => false

/-- The query `Logic::isEquality`. -/
def isEquality : PTRef → Bool
  | .eq _ _ => true
  | _ => false

/-- The ordered child sequence of a term, `Logic::getPterm`. -/
def getPterm : PTRef → List PTRef
  | .var _ _ => []
  | .const _ _ => []
  | .not a => [a]
  | .and as => as
  | .or as => as
  | .eq l r => [l, r]
  | .app _ as => as

/-- The name of the head symbol of a term, `Logic::getSymName`. -/
def getSymName : PTRef → String
  | .var n _ => n
  | .const n _ => n
  | .not _ => "not"
  | .and _ => "and"
  | .or _ => "or"
  | .eq _ _ => "="
  | .app f _ => f.name

/-- The sort of a term, `Logic::getSortRef`. -/
def getSortRef : PTRef → SRef
  | .var _ s => s
  | .const _ s => s
  | .not _ => .bool
  | .and _ => .bool
  | .or _ => .bool
  | .eq _ _ => .bool
  | .app f _ => f.rsort

/-- The variable of the given sort and name, `Logic::mkVar`. -/
def mkVar (sort : SRef) (name : String) : PTRef := .var name sort

/-- The Boolean constant `false`, `Logic::getTerm_false`. -/
def getTerm_false : PTRef := .const "false" .bool

/-- The Boolean constant `true`, `Logic::getTerm_true`. -/
def getTerm_true : PTRef := .const "true" .bool

/-- Modelled from the spec: section 4.4 emits `not(t)` for a junct of negative
polarity; this is the `Logic::mkNot` of the SMT library on a term that is not itself
a negation. -/
def mkNot (t : PTRef) : PTRef := .not t

/-- Failures of the C++ code: a failed `assert`, `std::invalid_argument`, and
`std::out_of_range`. -/
inductive Exception where
  | assertion
  | invalid_argument
  | out_of_range
deriving DecidableEq, Repr

deriving instance DecidableEq for Except

/-! ## Rewriter and substitution -/

/-- Modelled from the spec: the configuration object of the generic rewriter of
section 4.2, with its `rewrite` and its optional test whether to descend into the
children of a term. -/
structure RewriterConfig where
  previsit : PTRef → Bool
  rewrite : PTRef → Except Exception PTRef

mutual
/-- Modelled from the spec: the generic bottom-up rewriter of section 4.2 (it lives in
the SMT library). The children of a term are rewritten first, unless the
configuration declines to descend, the parent is rebuilt from them, and `rewrite`
is applied once to the rebuilt term. -/
def Rewriter.rewrite (cfg : RewriterConfig) : PTRef → Except Exception PTRef
  | .var n s => cfg.rewrite (.var n s)
  | .const n s => cfg.rewrite (.const n s)
  | .not a =>
    if cfg.previsit (.not a) then
      Rewriter.rewrite cfg a >>= fun a2 => cfg.rewrite (.not a2)
    else cfg.rewrite (.not a)
  | .and as =>
    if cfg.previsit (.and as) then
      Rewriter.rewriteArgs cfg as >>= fun as2 => cfg.rewrite (.and as2)
    else cfg.rewrite (.and as)
  | .or as =>
    if cfg.previsit (.or as) then
      Rewriter.rewriteArgs cfg as >>= fun as2 => cfg.rewrite (.or as2)
    else cfg.rewrite (.or as)
  | .eq l r =>
    if cfg.previsit (.eq l r) then
      Rewriter.rewrite cfg l >>= fun l2 =>
      Rewriter.rewrite cfg r >>= fun r2 => cfg.rewrite (.eq l2 r2)
    else cfg.rewrite (.eq l r)
  | .app f as =>
    if cfg.previsit (.app f as) then
      Rewriter.rewriteArgs cfg as >>= fun as2 => cfg.rewrite (.app f as2)
    else cfg.rewrite (.app f as)
/-- The rewriter on a child sequence, left to right. -/
def Rewriter.rewriteArgs (cfg : RewriterConfig) : List PTRef → Except Exception (List PTRef)
  | [] => pure []
  | a :: as =>
    Rewriter.rewrite cfg a >>= fun a2 =>
    Rewriter.rewriteArgs cfg as >>= fun as2 => pure (a2 :: as2)
end

/-- The type `TermUtils::substitutions_map`: a finite map from terms to terms, as its
list of entries (keys are unique in the source). -/
abbrev substitutions_map := List (PTRef × PTRef)

/-- Modelled from the spec: the `Substitutor` of section 4.2, a rewriter whose
`rewrite` looks its input up in the map; absent entries return the input unchanged
and a hit stops the descent into the children. -/
def Substitutor (map : substitutions_map) : RewriterConfig where
  previsit := fun t => (map.lookup t).isNone
  rewrite := fun t =>
    match map.lookup t with
    | some r => pure r
    | none => pure t

/-- The method `TermUtils::varSubstitute`. -/
def varSubstitute (term : PTRef) (subMap : substitutions_map) : Except Exception PTRef :=
  Rewriter.rewrite (Substitutor subMap) term

mutual
/-- The variable occurrences of a term, left to right. -/
def collectVars : PTRef → List PTRef
  | .var n s => [.var n s]
  | .const _ _ => []
  | .not a => collectVars a
  | .and as => collectVarsArgs as
  | .or as => collectVarsArgs as
  | .eq l r => collectVars l ++ collectVars r
  | .app _ as => collectVarsArgs as
/-- The variable occurrences of a child sequence. -/
def collectVarsArgs : List PTRef → List PTRef
  | [] => []
  | a :: as => collectVars a ++ collectVarsArgs as
end

/-- The method `TermUtils::getVars`: the keys of the map filled by the library
traversal `getVars`, that is the variables occurring in the term, each once. -/
def getVars (term : PTRef) : List PTRef := (collectVars term).dedup

/-! ## Top-level junct extraction -/

/-- The three-valued `lbool` of the SMT library. -/
inductive lbool where
  | l_True
  | l_False
  | l_Undef
deriving DecidableEq, Repr

/-- The operator `lbool ^ bool`: flips a defined value when the flag is set. -/
def lbool.xor : lbool → Bool → lbool
  | .l_True, true => .l_False
  | .l_False, true => .l_True
  | s, _ => s

/-- A term with a polarity, `PtAsgn`. -/
structure PtAsgn where
  tr : PTRef
  sgn : lbool
deriving DecidableEq

/-- The loop of `Logic::purify`: strips negations, flipping the sign at each. -/
def purifyLoop : PTRef → lbool → PtAsgn
  | .not a, sgn => purifyLoop a (sgn.xor true)
  | .var n s, sgn => ⟨.var n s, sgn⟩
  | .const n s, sgn => ⟨.const n s, sgn⟩
  | .and as, sgn => ⟨.and as, sgn⟩
  | .or as, sgn => ⟨.or as, sgn⟩
  | .eq l r, sgn => ⟨.eq l r, sgn⟩
  | .app f as, sgn => ⟨.app f as, sgn⟩

/-- The library call `Logic::purify`: the term under its leading negations, with the
resulting polarity. -/
def purify (r : PTRef) : PtAsgn := purifyLoop r .l_True

/-- The two junction kinds `TermUtils::Conjunction` and `TermUtils::Disjunction`. -/
structure Junction where
  isCorrectJunction : PTRef → Bool
  isOtherJunction : PTRef → Bool

/-- The kind `TermUtils::Conjunction`. -/
def Conjunction : Junction := ⟨isAnd, isOr⟩

/-- The kind `TermUtils::Disjunction`. -/
def Disjunction : Junction := ⟨isOr, isAnd⟩

/-- Pushes the purified children `t[0], t[1], ...` in this order onto the worklist;
`flip` is the flag of `c_sign ^ true`. The vector `queue` of the source is used as a
stack: its last element is the head of the list. -/
def pushChildren (flip : Bool) : List PTRef → List PtAsgn → List PtAsgn
  | [], queue => queue
  | c :: cs, queue =>
    pushChildren flip cs (⟨(purify c).tr, (purify c).sgn.xor flip⟩ :: queue)

/-- Total size of the terms waiting on the worklist. -/
def queueSize : List PtAsgn → Nat
  | [] => 0
  | p :: q => p.tr.size + queueSize q

theorem PTRef.size_pos : ∀ t : PTRef, 0 < t.size
  | .var _ _ => by simp [PTRef.size]
  | .const _ _ => by simp [PTRef.size]
  | .not _ => by simp [PTRef.size]
  | .and _ => by simp [PTRef.size]
  | .or _ => by simp [PTRef.size]
  | .eq _ _ => by simp [PTRef.size]
  | .app _ _ => by simp [PTRef.size]

theorem purifyLoop_size : ∀ (t : PTRef) (s : lbool), (purifyLoop t s).tr.size ≤ t.size
  | .not a, s => by
      have := purifyLoop_size a (s.xor true)
      simp only [purifyLoop, PTRef.size]; omega
  | .var _ _, _ => by simp [purifyLoop]
  | .const _ _, _ => by simp [purifyLoop]
  | .and _, _ => by simp [purifyLoop]
  | .or _, _ => by simp [purifyLoop]
  | .eq _ _, _ => by simp [purifyLoop]
  | .app _ _, _ => by simp [purifyLoop]

theorem queueSize_pushChildren (flip : Bool) :
    ∀ (cs : List PTRef) (q : List PtAsgn),
      queueSize (pushChildren flip cs q) ≤ PTRef.sizeList cs + queueSize q
  | [], q => by simp [pushChildren, PTRef.sizeList]
  | c :: cs, q => by
      have h1 := queueSize_pushChildren flip cs (⟨(purify c).tr, (purify c).sgn.xor flip⟩ :: q)
      have h2 := purifyLoop_size c .l_True
      simp only [pushChildren, PTRef.sizeList, queueSize, purify] at *
      omega

theorem sizeList_getPterm_lt (t : PTRef) : PTRef.sizeList (getPterm t) < t.size := by
  cases t <;> simp [getPterm, PTRef.size, PTRef.sizeList]

theorem queueSize_pop_lt (pta : PtAsgn) (queue : List PtAsgn) :
    queueSize queue < queueSize (pta :: queue) := by
  have := PTRef.size_pos pta.tr
  simp only [queueSize]; omega

theorem queueSize_expand_lt (flip : Bool) (pta : PtAsgn) (queue : List PtAsgn) :
    queueSize (pushChildren flip (getPterm pta.tr) queue) < queueSize (pta :: queue) := by
  have h1 := queueSize_pushChildren flip (getPterm pta.tr) queue
  have h2 := sizeList_getPterm_lt pta.tr
  simp only [queueSize]; omega

/-- The `while` loop of `TermUtils::getTopLevelJuncts` on its three local variables:
the worklist `queue`, the set `isdup` of pairs already processed, and the result
vector `res`. -/
def getTopLevelJunctsLoop (J : Junction) (predicate : PTRef → Bool)
    (queue : List PtAsgn) (isdup : List PtAsgn) (res : List PTRef) : List PTRef :=
  match queue with
  | [] => res
  | pta :: queue =>
    if pta ∈ isdup then getTopLevelJunctsLoop J predicate queue isdup res
    else if J.isCorrectJunction pta.tr && decide (pta.sgn = .l_True) then
      getTopLevelJunctsLoop J predicate
        (pushChildren false (getPterm pta.tr) queue) (pta :: isdup) res
    else if J.isOtherJunction pta.tr && decide (pta.sgn = .l_False) then
      getTopLevelJunctsLoop J predicate
        (pushChildren true (getPterm pta.tr) queue) (pta :: isdup) res
    else
      let term := if pta.sgn = .l_False then mkNot pta.tr else pta.tr
      getTopLevelJunctsLoop J predicate queue (pta :: isdup)
        (if predicate term then res ++ [term] else res)
termination_by queueSize queue
decreasing_by
  all_goals simp_wf
  all_goals first
    | exact queueSize_pop_lt _ _
    | exact queueSize_expand_lt _ _ _

/-- The template `TermUtils::getTopLevelJuncts`. -/
def getTopLevelJuncts (J : Junction) (root : PTRef) (predicate : PTRef → Bool) : List PTRef :=
  getTopLevelJunctsLoop J predicate [purify root] [] []

/-- The method `TermUtils::getTopLevelConjuncts` with a filter. -/
def getTopLevelConjuncts (root : PTRef) (predicate : PTRef → Bool) : List PTRef :=
  getTopLevelJuncts Conjunction root predicate

/-- The method `TermUtils::getTopLevelDisjuncts` with a filter. -/
def getTopLevelDisjuncts (root : PTRef) (predicate : PTRef → Bool) : List PTRef :=
  getTopLevelJuncts Disjunction root predicate

/-! ## Time machine -/

/-- The search `std::string::rfind`: the greatest position at which `sep` occurs in
`s`, or nothing (`npos`). -/
def rfind (s sep : List Char) : Option Nat :=
  match s with
  | [] => if sep.isEmpty then some 0 else none
  | c :: cs =>
    match rfind cs sep with
    | some pos => some (pos + 1)
    | none => if sep.isPrefixOf (c :: cs) then some 0 else none

/-- The test `std::isspace` of the C locale. -/
def isspace (c : Char) : Bool :=
  c = ' ' || (9 ≤ c.toNat && c.toNat ≤ 13)

/-- Value of a sequence of decimal digits, most significant first. -/
def digitsValue (ds : List Char) : Nat :=
  ds.foldl (fun acc c => 10 * acc + (c.toNat - 48)) 0

/-- The conversion `std::stoi` in base 10: leading white space is skipped, an optional
sign and the longest run of digits are read, what follows is ignored; without a
digit it throws `std::invalid_argument`, and a value that does not fit an `int`
throws `std::out_of_range`. -/
def stoi (str : List Char) : Except Exception Int :=
  let body := str.dropWhile isspace
  let negative := body.head? = some '-'
  let unsigned := if body.head? = some '-' ∨ body.head? = some '+' then body.tail else body
  let digits := unsigned.takeWhile Char.isDigit
  if digits.isEmpty then throw .invalid_argument
  else
    let value : Int := if negative then - (digitsValue digits : Int) else (digitsValue digits : Int)
    if value < -2147483648 ∨ 2147483647 < value then throw .out_of_range
    else pure value

/-- Decimal digits of a natural number, most significant first; `fuel` bounds the
number of digits. -/
def natDigits : Nat → Nat → List Char
  | 0, _ => []
  | fuel + 1, n =>
    if n < 10 then [Char.ofNat (48 + n)]
    else natDigits fuel (n / 10) ++ [Char.ofNat (48 + n % 10)]

/-- The conversion `std::to_string` on an `int`. -/
def to_string (i : Int) : List Char :=
  if i < 0 then '-' :: natDigits (i.natAbs + 1) i.natAbs
  else natDigits (i.natAbs + 1) i.natAbs

/-- The member `TimeMachine::versionSeparator`. -/
def versionSeparator : List Char := "##".data

/-- The method `TimeMachine::isVersioned`. -/
def isVersioned (var : PTRef) : Except Exception Bool :=
  if isVar var then
    let varName := (getSymName var).data
    pure (rfind varName versionSeparator).isSome
  else throw .assertion

/-- The method `TimeMachine::sendVarThroughTime`: the version of `var` that lies
`steps` steps in the future (or in the past, when negative). -/
def sendVarThroughTime (var : PTRef) (steps : Int) : Except Exception PTRef :=
  if isVar var then
    isVersioned var >>= fun versioned =>
    if versioned then
      let varName := (getSymName var).data
      match rfind varName versionSeparator with
      | none => throw .assertion
      | some pos =>
        let numPos := pos + versionSeparator.length
        let numStr := varName.drop numPos
        stoi numStr >>= fun version =>
        let version := version + steps
        let varName := varName.take numPos ++ to_string version
        pure (mkVar (getSortRef var) (String.mk varName))
    else throw .assertion
  else throw .assertion

/-- The method `TimeMachine::getVarVersionZero`: the zero version of a variable that
has no version. -/
def getVarVersionZero (var : PTRef) : Except Exception PTRef :=
  if isVar var then
    isVersioned var >>= fun versioned =>
    if versioned then throw .assertion
    else
      let newName := (getSymName var).data ++ versionSeparator ++ to_string 0
      pure (mkVar (getSortRef var) (String.mk newName))
  else throw .assertion

/-- The method `TimeMachine::getVersionNumber`. -/
def getVersionNumber (var : PTRef) : Except Exception Int :=
  if isVar var then
    isVersioned var >>= fun versioned =>
    if versioned then
      let varName := (getSymName var).data
      match rfind varName versionSeparator with
      | none => throw .assertion
      | some pos =>
        let numPos := pos + versionSeparator.length
        let numStr := varName.drop numPos
        stoi numStr
    else throw .assertion
  else throw .assertion

/-- The class `TimeMachine::VersioningConfig` with its field `versioningNumber`: every
variable is sent through time, everything else is left as it is. -/
def VersioningConfig (versioningNumber : Int) : RewriterConfig where
  previsit := fun _ => true
  rewrite := fun term =>
    if isVar term then sendVarThroughTime term versioningNumber
    else pure term

/-- The method `TimeMachine::sendFlaThroughTime`. -/
def sendFlaThroughTime (fla : PTRef) (steps : Int) : Except Exception PTRef :=
  if steps = 0 then pure fla
  else Rewriter.rewrite (VersioningConfig steps) fla

/-! ## Trivial quantifier elimination -/

/-- The first lambda of `eliminateVar`: the equality has `var` as its left or right
side. -/
def isDefinitionOf (var : PTRef) : PTRef → Bool
  | .eq lhs rhs => decide (lhs = var) || decide (rhs = var)
  | _ => false

/-- The second lambda of `eliminateVar`: `var` is among the variables of the
equality. -/
def containsVar (var : PTRef) (equality : PTRef) : Bool :=
  decide (var ∈ getVars equality)

/-- The substitution built from a simple definition: `var` is mapped to the other side
of the equality. -/
def definitionSubstitution (var : PTRef) : PTRef → substitutions_map
  | .eq lhs rhs => [(if lhs = var then lhs else rhs, if lhs = var then rhs else lhs)]
  | _ => []

/-- The method `TrivialQuantifierElimination::eliminateVar`. Its private helper
`tryGetSubstitutionFromEquality` is declared in the header and defined elsewhere; it
is a parameter here, with `none` for `PTRef_Undef`. -/
def eliminateVar (tryGetSubstitutionFromEquality : PTRef → PTRef → Option PTRef)
    (var fla : PTRef) : Except Exception PTRef :=
  if isVar var then
    let topLevelEqualities := getTopLevelConjuncts fla isEquality
    match topLevelEqualities.find? (isDefinitionOf var) with
    | some eq => varSubstitute fla (definitionSubstitution var eq)
    | none =>
      match topLevelEqualities.find? (containsVar var) with
      | some eq =>
        match tryGetSubstitutionFromEquality var eq with
        | some subst => varSubstitute fla [(var, subst)]
        | none => pure fla
      | none => pure fla
  else throw .invalid_argument

/-- The method `TrivialQuantifierElimination::eliminateVars`. -/
def eliminateVars (tryGetSubstitutionFromEquality : PTRef → PTRef → Option PTRef) :
    List PTRef → PTRef → Except Exception PTRef
  | [], current => pure current
  | var :: vars, current =>
    eliminateVar tryGetSubstitutionFromEquality var current >>= fun next =>
    eliminateVars tryGetSubstitutionFromEquality vars next

/-! ## SMT session -/

/-- Verdict of a satisfiability check: `s_True` is SAT, `s_False` is UNSAT, `s_Undef`
is UNKNOWN. -/
inductive sstat where
  | s_True
  | s_False
  | s_Undef
deriving DecidableEq, Repr

/-- Modelled from the spec: the SMT session of section 6. Assertions accumulate
conjunctively in LIFO scopes; `frames` lists the scopes, innermost first, each with
its assertions in the order they were made. -/
structure MainSolver where
  frames : List (List PTRef)
deriving DecidableEq, Repr

/-- A fresh session: one scope, nothing asserted. -/
def MainSolver.fresh : MainSolver := ⟨[[]]⟩

/-- The call `insertFormula`: asserts a formula in the innermost scope. -/
def MainSolver.insertFormula (solver : MainSolver) (fla : PTRef) : MainSolver :=
  match solver.frames with
  | [] => ⟨[[fla]]⟩
  | frame :: rest => ⟨(frame ++ [fla]) :: rest⟩

/-- The call `push`: opens a scope. -/
def MainSolver.push (solver : MainSolver) : MainSolver :=
  ⟨[] :: solver.frames⟩

/-- The call `pop`: removes the assertions made since the matching `push`. -/
def MainSolver.pop (solver : MainSolver) : MainSolver :=
  match solver.frames with
  | _ :: outer :: rest => ⟨outer :: rest⟩
  | _ => solver

/-- The formulas currently asserted, in the order they were asserted. -/
def MainSolver.assertions (solver : MainSolver) : List PTRef :=
  solver.frames.reverse.flatten

/-- Number of scopes opened by `push` and not yet closed. -/
def MainSolver.depth (solver : MainSolver) : Nat :=
  solver.frames.length - 1

/-- The call `check`: the backend, a black box `backend`, is asked about the formulas
currently asserted. -/
def MainSolver.check (backend : List PTRef → sstat) (solver : MainSolver) : sstat :=
  backend solver.assertions

/-! ## BMC engine -/

/-- The answers of `VerificationAnswer`. -/
inductive VerificationAnswer where
  | SAFE
  | UNSAFE
  | UNKNOWN
deriving DecidableEq, Repr

/-- The witness of a transition-system result, a `std::variant` of an unrolling depth
and a formula. -/
inductive Witness where
  | depth (k : Nat)
  | formula (fla : PTRef)
deriving DecidableEq, Repr

/-- The result type `TransitionSystemVerificationResult`. -/
structure TransitionSystemVerificationResult where
  answer : VerificationAnswer
  witness : Witness
deriving DecidableEq, Repr

/-- The three formulas of a `TransitionSystem` read by the engine through `getInit`,
`getTransition` and `getQuery`. -/
structure TransitionSystem where
  init : PTRef
  transition : PTRef
  query : PTRef
deriving DecidableEq, Repr

/-- The `for` loop of `BMC::solveTransitionSystemInternal`: `remaining` is
`maxLoopUnrollings - currentUnrolling`, the number of iterations still allowed. The
counter `currentUnrolling` is passed to the time machine as the integer of the same
value. -/
def unrollingLoop (backend : List PTRef → sstat) (query transition : PTRef) :
    Nat → Nat → MainSolver → Except Exception TransitionSystemVerificationResult
  | 0, _, _ => pure ⟨.UNKNOWN, .depth 0⟩
  | remaining + 1, currentUnrolling, solver =>
    sendFlaThroughTime query (currentUnrolling : Int) >>= fun versionedQuery =>
    let pushed := (solver.push).insertFormula versionedQuery
    if pushed.check backend = .s_True then
      pure ⟨.UNSAFE, .depth currentUnrolling⟩
    else
      let popped := pushed.pop
      sendFlaThroughTime transition (currentUnrolling : Int) >>= fun versionedTransition =>
      unrollingLoop backend query transition remaining (currentUnrolling + 1)
        (popped.insertFormula versionedTransition)

/-- The body of `BMC::solveTransitionSystemInternal` with its local constant
`maxLoopUnrollings` as a parameter. -/
def solveTransitionSystemBounded (backend : List PTRef → sstat) (maxLoopUnrollings : Nat)
    (system : TransitionSystem) : Except Exception TransitionSystemVerificationResult :=
  let solver := MainSolver.fresh.insertFormula system.init
  if solver.check backend = .s_False then
    pure ⟨.SAFE, .formula getTerm_false⟩
  else
    unrollingLoop backend system.query system.transition maxLoopUnrollings 0 solver

/-- The method `BMC::solveTransitionSystemInternal`: `maxLoopUnrollings` is the
greatest `std::size_t`. -/
def solveTransitionSystemInternal (backend : List PTRef → sstat)
    (system : TransitionSystem) : Except Exception TransitionSystemVerificationResult :=
  solveTransitionSystemBounded backend (2 ^ 64 - 1) system

/-- The result type `VerificationResult`: an answer and, when there is one, a witness
of the graph level, whose type is not needed here. -/
structure VerificationResult (W : Type) where
  answer : VerificationAnswer
  witness : Option W

/-- The functions of the repository that `BMC::solve` calls and that are defined
outside the engine (graph analysis and the translation of results). -/
structure GraphOperations (Graph W : Type) where
  isTrivial : Graph → Bool
  solveTrivial : Graph → VerificationResult W
  isTransitionSystem : Graph → Bool
  toTransitionSystem : Graph → TransitionSystem
  fromGeneralLinearCHCSystem : Graph → Option TransitionSystem
  translateTransitionSystemResult :
    TransitionSystemVerificationResult → Graph → TransitionSystem → VerificationResult W
  backtranslateSingleLoopTransformation :
    TransitionSystemVerificationResult → Graph → TransitionSystem → VerificationResult W

/-- The method `BMC::solveTransitionSystem`. -/
def solveTransitionSystem {Graph W : Type} (ops : GraphOperations Graph W)
    (backend : List PTRef → sstat) (graph : Graph) : Except Exception (VerificationResult W) :=
  let ts := ops.toTransitionSystem graph
  solveTransitionSystemInternal backend ts >>= fun res =>
  pure (ops.translateTransitionSystemResult res graph ts)

/-- The method `BMC::solve`. -/
def solve {Graph W : Type} (ops : GraphOperations Graph W)
    (backend : List PTRef → sstat) (graph : Graph) : Except Exception (VerificationResult W) :=
  if ops.isTrivial graph then pure (ops.solveTrivial graph)
  else if ops.isTransitionSystem graph then solveTransitionSystem ops backend graph
  else
    match ops.fromGeneralLinearCHCSystem graph with
    | some ts =>
      solveTransitionSystemInternal backend ts >>= fun res =>
      pure (ops.backtranslateSingleLoopTransformation res graph ts)
    | none => pure ⟨.UNKNOWN, none⟩

/-! ## Semantics of terms -/

/-- A structure for the term language over a domain `D`: the truth values are
embedded in `D`, and constants and symbols are interpreted in `D`. -/
structure Interpretation (D : Type) where
  ofBool : Bool → D
  toBool : D → Bool
  toBool_ofBool : ∀ b : Bool, toBool (ofBool b) = b
  const : String → SRef → D
  fn : SymRef → List D → D

/-- An assignment gives a value to every variable, a name with a sort. -/
abbrev Assignment (D : Type) := String → SRef → D

/-- The assignment that differs from `σ` at the variable `name` of sort `sort` only,
where its value is `a`. -/
def Assignment.update {D : Type} (σ : Assignment D) (name : String) (sort : SRef) (a : D) :
    Assignment D :=
  fun m t => if m = name ∧ t = sort then a else σ m t

mutual
/-- Value of a term under an interpretation and an assignment. The connectives,
equality and the constants `true` and `false` have their standard meaning. -/
def eval {D : Type} [DecidableEq D] (M : Interpretation D) (σ : Assignment D) : PTRef → D
  | .var n s => σ n s
  | .const n s =>
    if n = "true" ∧ s = .bool then M.ofBool true
    else if n = "false" ∧ s = .bool then M.ofBool false
    else M.const n s
  | .not a => M.ofBool (!M.toBool (eval M σ a))
  | .and as => M.ofBool (evalAll M σ as)
  | .or as => M.ofBool (evalAny M σ as)
  | .eq l r => M.ofBool (decide (eval M σ l = eval M σ r))
  | .app f as => M.fn f (evalArgs M σ as)
/-- All terms of the sequence are true. -/
def evalAll {D : Type} [DecidableEq D] (M : Interpretation D) (σ : Assignment D) :
    List PTRef → Bool
  | [] => true
  | a :: as => M.toBool (eval M σ a) && evalAll M σ as
/-- Some term of the sequence is true. -/
def evalAny {D : Type} [DecidableEq D] (M : Interpretation D) (σ : Assignment D) :
    List PTRef → Bool
  | [] => false
  | a :: as => M.toBool (eval M σ a) || evalAny M σ as
/-- Values of a child sequence. -/
def evalArgs {D : Type} [DecidableEq D] (M : Interpretation D) (σ : Assignment D) :
    List PTRef → List D
  | [] => []
  | a :: as => eval M σ a :: evalArgs M σ as
end

/-- The formula `fla` is true under the assignment `σ`. -/
def holds {D : Type} [DecidableEq D] (M : Interpretation D) (σ : Assignment D)
    (fla : PTRef) : Prop :=
  M.toBool (eval M σ fla) = true

/-- The conjunction of the formulas is satisfiable: one assignment makes all of them
true. -/
def Sat {D : Type} [DecidableEq D] (M : Interpretation D) (flas : List PTRef) : Prop :=
  ∃ σ : Assignment D, ∀ fla ∈ flas, holds M σ fla

/-- The backend answers SAT exactly on the satisfiable lists of formulas. -/
def SoundAndComplete {D : Type} [DecidableEq D] (M : Interpretation D)
    (backend : List PTRef → sstat) : Prop :=
  ∀ flas : List PTRef, backend flas = .s_True ↔ Sat M flas

/-! ## Unrolled formulas -/

/-- The transition relation shifted by `0, 1, ..., k - 1` time steps. -/
def shiftedTransitions (transition : PTRef) : Nat → Except Exception (List PTRef)
  | 0 => pure []
  | k + 1 =>
    shiftedTransitions transition k >>= fun earlier =>
    sendFlaThroughTime transition (k : Int) >>= fun last =>
    pure (earlier ++ [last])

/-- The unrolled formula of depth `k`, as the list of its conjuncts: `init`, the
transition relation shifted by `0, ..., k - 1`, and the query shifted by `k`. -/
def unrolling (system : TransitionSystem) (k : Nat) : Except Exception (List PTRef) :=
  shiftedTransitions system.transition k >>= fun steps =>
  sendFlaThroughTime system.query (k : Int) >>= fun versionedQuery =>
  pure (system.init :: steps ++ [versionedQuery])


/-! ## Scenarios of the specification -/

/-- Values of the structure of rational arithmetic: truth values and rationals. -/
abbrev Value := Bool ⊕ ℚ

/-- The rational denoted by a value; a truth value counts as 0. -/
def Value.toRat : Value → ℚ
  | .inr q => q
  | .inl _ => 0

/-- The truth value denoted by a value; a number counts as false. -/
def Value.toBool : Value → Bool
  | .inl b => b
  | .inr _ => false

/-- The structure of linear rational arithmetic: a numeral denotes its value, `+` is
the sum of its arguments and `<` the strict order. -/
def arithmetic : Interpretation Value where
  ofBool := Sum.inl
  toBool := Value.toBool
  toBool_ofBool := fun _ => rfl
  const := fun n _ => .inr (digitsValue n.data : ℚ)
  fn := fun f args =>
    if f.name = "+" then .inr ((args.map Value.toRat).sum)
    else if f.name = "<" then
      match args with
      | [a, b] => .inl (decide (a.toRat < b.toRat))
      | _ => .inl false
    else .inr 0

/-- The symbol `+` of the numeric sort. -/
def sym_plus : SymRef := ⟨"+", .num, true⟩

/-- The symbol `<` of the numeric sort. -/
def sym_lt : SymRef := ⟨"<", .bool, true⟩

/-- The state variable `x`, version 0. -/
def x0 : PTRef := .var "x##0" .num

/-- The next-state variable of `x`, version 1. -/
def x1 : PTRef := .var "x##1" .num

/-- Scenario S1, the counter: `init` is `x = 0`, the transition is `x' = x + 1` and
the query is `x < 0`. -/
def counterSystem : TransitionSystem where
  init := .eq x0 (.const "0" .num)
  transition := .eq x1 (.app sym_plus [x0, .const "1" .num])
  query := .app sym_lt [x0, .const "0" .num]

/-- Scenario S5, empty init: `init` is `x = 0 ∧ x ≠ 0`; there is no transition and the
query is `true`. -/
def emptyInitSystem : TransitionSystem where
  init := .and [.eq x0 (.const "0" .num), .not (.eq x0 (.const "0" .num))]
  transition := getTerm_false
  query := getTerm_true

/-- Scenario S6, trivially unsafe: `init` is `x = 0`; there is no transition and the
query is `true`. -/
def triviallyUnsafeSystem : TransitionSystem where
  init := .eq x0 (.const "0" .num)
  transition := getTerm_false
  query := getTerm_true

/-- The variable `x` of version `i`, named `x##i`. -/
def xAt (i : Int) : PTRef := .var (String.mk ('x' :: '#' :: '#' :: to_string i)) .num

/-- Sample graph operations on graphs numbered 0, 1, 2, ...: graph 0 is trivial,
graph 1 is a transition system (scenario S6), and no other graph can be reduced to a
transition system. -/
def exampleOperations : GraphOperations Nat Unit where
  isTrivial := fun g => decide (g = 0)
  solveTrivial := fun _ => ⟨.SAFE, none⟩
  isTransitionSystem := fun g => decide (g = 1)
  toTransitionSystem := fun _ => triviallyUnsafeSystem
  fromGeneralLinearCHCSystem := fun _ => none
  translateTransitionSystemResult := fun r _ _ => ⟨r.answer, none⟩
  backtranslateSingleLoopTransformation := fun r _ _ => ⟨r.answer, none⟩

/-- A sample formula for quantifier elimination: `x = 5 ∧ x < 7`. -/
def sampleFormula : PTRef :=
  .and [.eq x0 (.const "5" .num), .app sym_lt [x0, .const "7" .num]]

/-- A helper for quantifier elimination that never finds a substitution. -/
def noSubstitution : PTRef → PTRef → Option PTRef := fun _ _ => none

/-- A sample equation that contains `x` without defining it: `x + 1 = 5`. -/
def sampleEquation : PTRef :=
  .eq (.app sym_plus [x0, .const "1" .num]) (.const "5" .num)

/-- A term with a polarity is true: the term is false when the polarity is `l_False`
and true otherwise. -/
def holdsSigned {D : Type} [DecidableEq D] (M : Interpretation D) (σ : Assignment D)
    (pta : PtAsgn) : Prop :=
  if pta.sgn = .l_False then ¬ holds M σ pta.tr else holds M σ pta.tr

/-- A sample formula without any equality: `x < 7`. -/
def sampleInequality : PTRef := .app sym_lt [x0, .const "7" .num]

/-- A propositional atom `a`. -/
def atomA : PTRef := .var "a" .bool

/-- A propositional atom `b`. -/
def atomB : PTRef := .var "b" .bool

/-- The values of the C++ type `int`. -/
def inIntRange (i : Int) : Prop := -2147483648 ≤ i ∧ i ≤ 2147483647

instance (i : Int) : Decidable (inIntRange i) := by
  unfold inIntRange
  infer_instance

/-- The term emitted for a pair that is not expanded: `not(t)` when the polarity is
negative, else `t`. -/
def leafTerm (pta : PtAsgn) : PTRef :=
  if pta.sgn = .l_False then mkNot pta.tr else pta.tr

/-- A processed pair is accounted for by a set `visited` of pairs and a list `out` of
emitted terms: the pairs of its children are in `visited` when it is expanded, and
its term is in `out` when it is a leaf. -/
def junctClosed (J : Junction) (pta : PtAsgn) (visited : List PtAsgn) (out : List PTRef) :
    Prop :=
  if (J.isCorrectJunction pta.tr && decide (pta.sgn = .l_True)) = true then
    ∀ q ∈ pushChildren false (getPterm pta.tr) [], q ∈ visited
  else if (J.isOtherJunction pta.tr && decide (pta.sgn = .l_False)) = true then
    ∀ q ∈ pushChildren true (getPterm pta.tr) [], q ∈ visited
  else leafTerm pta ∈ out

/-! ## Definitions for the properties of versioning -/

/-- The base name of a variable: its name up to the last version separator, the whole
name when there is no separator. -/
def baseName (var : PTRef) : List Char :=
  match rfind (getSymName var).data versionSeparator with
  | some pos => (getSymName var).data.take pos
  | none => (getSymName var).data

mutual
/-- Specification of sending a formula through time, in the words of its description:
every variable occurrence is replaced by its image under `sendVarThroughTime`, and
everything else is rebuilt unchanged around the shifted children. -/
def shiftVariables (k : Int) : PTRef → Except Exception PTRef
  | .var n s => sendVarThroughTime (.var n s) k
  | .const n s => pure (.const n s)
  | .not a => shiftVariables k a >>= fun a2 => pure (.not a2)
  | .and as => shiftVariablesArgs k as >>= fun as2 => pure (.and as2)
  | .or as => shiftVariablesArgs k as >>= fun as2 => pure (.or as2)
  | .eq l r =>
    shiftVariables k l >>= fun l2 =>
    shiftVariables k r >>= fun r2 => pure (.eq l2 r2)
  | .app f as => shiftVariablesArgs k as >>= fun as2 => pure (.app f as2)
/-- The specification on a child sequence. -/
def shiftVariablesArgs (k : Int) : List PTRef → Except Exception (List PTRef)
  | [] => pure []
  | a :: as =>
    shiftVariables k a >>= fun a2 =>
    shiftVariablesArgs k as >>= fun as2 => pure (a2 :: as2)
end

/-- A comparison of a variable whose version is written with leading zeros. -/
def paddedInequality : PTRef := .app sym_lt [.var "x##007" .num, .const "7" .num]

/-! ## Predicates in normal form -/

/-- Modelled from the spec: the query `is_up` of section 4.1, which lives in the SMT
library: the term is an application of an uninterpreted predicate, that is of a
symbol without interpretation whose result sort is `Bool`. -/
def isUP : PTRef → Bool
  | .app f _ => !f.interpreted && decide (f.rsort = .bool)
  | _ => false

/-- The query `Logic::hasSortBool`. -/
def hasSortBool (term : PTRef) : Bool := decide (getSortRef term = .bool)

/-- The method `TermUtils::isUPOrConstant`. -/
def isUPOrConstant (term : PTRef) : Bool :=
  isUP term || (hasSortBool term && (getPterm term).length == 0)

/-- Specification of the form called UP-or-constant, in the words of its definition:
the Boolean constant `true` or `false`, or an application of an uninterpreted
predicate whose arguments are all distinct variables. -/
def upOrConstantForm (t : PTRef) : Bool :=
  decide (t = getTerm_true) || decide (t = getTerm_false) ||
    match t with
    | .app f args =>
      !f.interpreted && decide (f.rsort = .bool) && args.all isVar && decide args.Nodup
    | _ => false

/-- An uninterpreted predicate symbol. -/
def sym_P : SymRef := ⟨"P", .bool, false⟩

/-! ## Sessions of the BMC loop -/

/-- The body of the `for` loop of `BMC::solveTransitionSystemInternal` as a step on
the session: the session with which the next iteration starts, or nothing when
this iteration leaves the loop (the backend accepts the query, or the time machine
throws). -/
def loopIteration (backend : List PTRef → sstat) (query transition : PTRef)
    (currentUnrolling : Nat) (solver : MainSolver) : Option MainSolver :=
  match sendFlaThroughTime query (currentUnrolling : Int) with
  | .error _ => none
  | .ok versionedQuery =>
    let pushed := (solver.push).insertFormula versionedQuery
    if pushed.check backend = .s_True then none
    else
      let popped := pushed.pop
      match sendFlaThroughTime transition (currentUnrolling : Int) with
      | .error _ => none
      | .ok versionedTransition => some (popped.insertFormula versionedTransition)

/-- The session at the start of iteration `k` of the loop of
`BMC::solveTransitionSystemInternal`, when the loop gets there. -/
def sessionAtIteration (backend : List PTRef → sstat) (system : TransitionSystem) :
    Nat → Option MainSolver
  | 0 => some (MainSolver.fresh.insertFormula system.init)
  | k + 1 =>
    sessionAtIteration backend system k >>=
      loopIteration backend system.query system.transition k

/-- A backend that never decides. -/
def undecidedBackend : List PTRef → sstat := fun _ => sstat.s_Undef

/-! ## Pairs on the worklist of the junct extraction -/

/-- A pair as `Logic::purify` produces it and a sign flip keeps it: the term is not a
negation and the polarity is defined. -/
def purified (pta : PtAsgn) : Prop :=
  isNot pta.tr = false ∧ pta.sgn ≠ lbool.l_Undef

/-! ## Terms of the proof layer -/

/-- Modelled from the spec: the enumeration `Term::terminalType` of the header
`Term.h`, with the values that the visitors use. -/
inductive terminalType where
  | VAR
  | REAL
  | INT
  | BOOL
  | UNDECLARED
deriving DecidableEq, Repr

/-- Modelled from the spec: the enumeration `Term::termType` of the header `Term.h`,
one value for each class of terms. -/
inductive termType where
  | TERMINAL
  | OP
  | APP
  | QUANT
  | LET
deriving DecidableEq, Repr

/-- Modelled from the spec: the tagged variant `Term = Terminal | Op | App | Quant |
Let` of section 7, with the fields that the constructors and getters of the classes
name. Terms are trees: no node is shared between two parents. -/
inductive Term where
  | Terminal (val : String) (type : terminalType)
  | Op (operation : String) (args : List Term)
  | App (fn : String) (args : List Term)
  | Quant (quant : String) (vars : List Term) (sorts : List Term) (coreTerm : Term)
  | Let (termNames : List String) (declarations : List Term) (application : Term)
deriving Repr

mutual
/-- Structural equality test on proof terms. -/
def Term.beq : Term → Term → Bool
  | .Terminal v t, .Terminal w u => decide (v = w) && decide (t = u)
  | .Op o as, .Op p bs => decide (o = p) && Term.beqList as bs
  | .App f as, .App g bs => decide (f = g) && Term.beqList as bs
  | .Quant q vs ss c, .Quant r ws ts d =>
    decide (q = r) && Term.beqList vs ws && Term.beqList ss ts && c.beq d
  | .Let ns ds a, .Let ms es b => decide (ns = ms) && Term.beqList ds es && a.beq b
  | _, _ => false
/-- Structural equality test on sequences of proof terms. -/
def Term.beqList : List Term → List Term → Bool
  | [], [] => true
  | a :: as, b :: bs => a.beq b && Term.beqList as bs
  | _, _ => false
end

mutual
theorem Term.beq_eq_true_iff : ∀ (a b : Term), a.beq b = true ↔ a = b
  | .Terminal v t, b => by cases b <;> simp [Term.beq]
  | .Op o as, b => by cases b <;> simp [Term.beq, Term.beqList_eq_true_iff as]
  | .App f as, b => by cases b <;> simp [Term.beq, Term.beqList_eq_true_iff as]
  | .Quant q vs ss c, b => by
      cases b <;> simp [Term.beq, Term.beqList_eq_true_iff vs, Term.beqList_eq_true_iff ss, Term.beq_eq_true_iff c]
      tauto
  | .Let ns ds a, b => by
      cases b <;> simp [Term.beq, Term.beqList_eq_true_iff ds, Term.beq_eq_true_iff a]
      tauto
theorem Term.beqList_eq_true_iff : ∀ (as bs : List Term), Term.beqList as bs = true ↔ as = bs
  | [], bs => by cases bs <;> simp [Term.beqList]
  | a :: as, bs => by
      cases bs <;> simp [Term.beqList]
      rw [Term.beq_eq_true_iff a, Term.beqList_eq_true_iff as]
end

instance : DecidableEq Term := fun a b => decidable_of_iff _ (Term.beq_eq_true_iff a b)

/-- The getter `getTermType`: the class of the term. -/
def Term.getTermType : Term → termType
  | .Terminal _ _ => .TERMINAL
  | .Op _ _ => .OP
  | .App _ _ => .APP
  | .Quant _ _ _ _ => .QUANT
  | .Let _ _ _ => .LET

/-- Modelled from the spec: the getter `getTerminalType` of the header `Term.h`: the
type of a terminal; a term of another class has no terminal type, which is
`UNDECLARED`. -/
def Term.getTerminalType : Term → terminalType
  | .Terminal _ type => type
  | _ => .UNDECLARED

/-- The method `Op::nonLinearity` of an `Op` with the fields `operation` and `args`. -/
def Op.nonLinearity (operation : String) (args : List Term) : Bool :=
  if operation = "and" then
    let predicates :=
      args.countP fun arg =>
        decide (arg.getTermType = .APP) || decide (arg.getTerminalType = .VAR)
    if predicates ≥ 2 then true else false
  else false

/-- The loop of `PrintVisitor` over the names of a `Let`, each with the declaration of
the same index, given the printed declarations (nothing is printed for a
declaration that is missing). -/
def printDeclarations : List String → List String → String
  | [], _ => ""
  | name :: names, declarations =>
    "(" ++ name ++ " " ++ declarations.headD "" ++ ")" ++
      (if names.isEmpty then "" else " ") ++ printDeclarations names declarations.tail

mutual
/-- The method `Term::printTerm`, that is the visitor `PrintVisitor`. -/
def printTerm : Term → String
  | .Terminal val _ => val
  | .Op operation args => "(" ++ operation ++ printArgs args ++ ")"
  | .App fn args => "(" ++ fn ++ printArgs args ++ ")"
  | .Quant quant vars sorts coreTerm =>
    "(" ++ quant ++ " (" ++ printBindings vars (printEach sorts) ++ ") " ++
      printTerm coreTerm ++ ")"
  | .Let termNames declarations application =>
    "(let (" ++ printDeclarations termNames (printEach declarations) ++ ") " ++
      printTerm application ++ ")"
/-- The loop of `PrintVisitor` over the arguments, each after a blank. -/
def printArgs : List Term → String
  | [] => ""
  | arg :: args => " " ++ printTerm arg ++ printArgs args
/-- The printed forms of a sequence of terms. -/
def printEach : List Term → List String
  | [] => []
  | t :: ts => printTerm t :: printEach ts
/-- The loop of `PrintVisitor` over the bound variables of a `Quant`, each with the
sort of the same index, given the printed sorts (nothing is printed for a sort that
is missing). -/
def printBindings : List Term → List String → String
  | [], _ => ""
  | var :: vars, sorts =>
    "(" ++ printTerm var ++ " " ++ sorts.headD "" ++ ")" ++
      (if vars.isEmpty then "" else " ") ++ printBindings vars sorts.tail
end

/-! ## Instantiation and evaluation of operations -/

mutual
/-- The visitor `InstantiateVisitor` with its field `instPairs`. -/
def InstantiateVisitor.visit (instPairs : List (String × String)) : Term → Term
  | .Terminal val type =>
    if type ≠ .VAR then .Terminal val type
    else
      match instPairs.find? (fun pair => val = pair.1) with
      | some pair =>
        if pair.2 = "true" ∨ pair.2 = "false" then .Terminal pair.2 .BOOL
        else if '.' ∈ pair.2.data then .Terminal pair.2 .REAL
        else .Terminal pair.2 .INT
      | none => .Terminal val type
  | .Op opcode args => .Op opcode (InstantiateVisitor.visitEach instPairs args)
  | .App fn args => .App fn (InstantiateVisitor.visitEach instPairs args)
  | .Quant _ _ _ coreTerm => InstantiateVisitor.visit instPairs coreTerm
  | .Let termNames declarations application =>
    .Let termNames (InstantiateVisitor.visitEach instPairs declarations) application
/-- The visitor `InstantiateVisitor` on each term of a sequence. -/
def InstantiateVisitor.visitEach (instPairs : List (String × String)) : List Term → List Term
  | [] => []
  | arg :: args =>
    InstantiateVisitor.visit instPairs arg :: InstantiateVisitor.visitEach instPairs args
end

/-- The three calls of `erase(remove(...))` in `OperateVisitor::visit(Op *)`: the
string without its parentheses and blanks. -/
def stripped (str : String) : List Char :=
  ((str.data.filter (fun c => c ≠ '(')).filter (fun c => c ≠ ')')).filter (fun c => c ≠ ' ')

/-- An integer numeral as the library reads it: decimal digits after an optional
minus sign. -/
def readInteger (s : List Char) : Option Int :=
  match s with
  | '-' :: ds =>
    if ds ≠ [] ∧ ds.all Char.isDigit then some (-(digitsValue ds : Int)) else none
  | ds => if ds ≠ [] ∧ ds.all Char.isDigit then some (digitsValue ds : Int) else none

/-- The constructor `FastRational(const char *, int)` of the SMT library in base 10: it
reads an integer numeral, or two of them around a `/`; a string of another form,
which the library does not define, is read as 0 here. -/
def FastRational.ofString (s : List Char) : ℚ :=
  if '/' ∈ s then
    match readInteger (s.takeWhile (fun c => c ≠ '/')),
      readInteger ((s.dropWhile (fun c => c ≠ '/')).drop 1) with
    | some n, some d => (n : ℚ) / (d : ℚ)
    | _, _ => 0
  else
    match readInteger s with
    | some n => (n : ℚ)
    | none => 0

/-- The method `FastRational::get_str` of the SMT library: the numerator, followed by
`/` and the denominator when the number is not an integer. -/
def FastRational.get_str (q : ℚ) : List Char :=
  if q.den = 1 then to_string q.num
  else to_string q.num ++ '/' :: to_string (q.den : Int)

/-- The method `FastRational::floor`. -/
def FastRational.floor (q : ℚ) : ℚ := ((Rat.floor q : Int) : ℚ)

/-- The method `FastRational::ceil`. -/
def FastRational.ceil (q : ℚ) : ℚ := ((-(Rat.floor (-q)) : Int) : ℚ)

/-- The terminal `true` or `false` of type `BOOL`. -/
def boolTerminal (b : Bool) : Term :=
  if b then .Terminal "true" .BOOL else .Terminal "false" .BOOL

/-- The block that ends the arithmetic cases of `OperateVisitor::visit(Op *)`: a
negative result is negated and written between `(- ` and `)`, another one is
written as it is; the terminal has type `INT`. -/
def numberTerminal (result : ℚ) : Term :=
  if result < 0 then
    .Terminal (String.mk ("(- ".data ++ FastRational.get_str (result * -1) ++ ")".data)) .INT
  else .Terminal (String.mk (FastRational.get_str result)) .INT

/-- The loop of the case `or` of `OperateVisitor::visit(Op *)`. -/
def OperateVisitor.orLoop : List Term → Except Exception Term
  | [] => pure (.Terminal "false" .BOOL)
  | arg :: args =>
    if arg.getTerminalType = .VAR then throw .assertion
    else if printTerm arg = "true" then pure (.Terminal "true" .BOOL)
    else OperateVisitor.orLoop args

/-- The loop of the case `+` of `OperateVisitor::visit(Op *)` on its local variable
`result`. -/
def OperateVisitor.sumLoop : List Term → ℚ → Except Exception ℚ
  | [], result => pure result
  | arg :: args, result =>
    if arg.getTerminalType = .VAR then throw .assertion
    else OperateVisitor.sumLoop args (result + FastRational.ofString (stripped (printTerm arg)))

/-- The first block of `OperateVisitor::visit(Op *)`: for the binary operations the
first two arguments, which must not be variables, are printed, stripped and read
as numbers. An access beyond the arguments, which has no defined behaviour, stops
the model like a failed assertion. -/
def OperateVisitor.operands (op : String) (args : List Term) : Except Exception (ℚ × ℚ) :=
  if op = "<" ∨ op = "<=" ∨ op = "-" ∨ op = "*" ∨ op = "/" ∨ op = "mod" ∨ op = "div" then
    match args with
    | first :: second :: _ =>
      if first.getTerminalType = .VAR then throw .assertion
      else if second.getTerminalType = .VAR then throw .assertion
      else
        pure (FastRational.ofString (stripped (printTerm first)),
          FastRational.ofString (stripped (printTerm second)))
    | _ => throw .assertion
  else pure (0, 0)

/-- The method `OperateVisitor::visit(Op *)` on an `Op` with the fields `op` and
`args`. The remainder `%` of the SMT library is the parameter `rem`. What the source
leaves without defined behaviour stops the model like a failed assertion: an access
beyond the arguments and a division by zero. The loop of the case `and` returns
`false` at the first argument printed as `false`; when there is none it has counted
the arguments printed as `true` and collected the others in `predicates`. -/
def OperateVisitor.visit (rem : ℚ → ℚ → ℚ) (op : String) (args : List Term) :
    Except Exception Term :=
  OperateVisitor.operands op args >>= fun operands =>
  let firstTerm := operands.1
  let secondTerm := operands.2
  if op = "=" then
    match args with
    | first :: second :: _ =>
      if first.getTerminalType = .VAR then throw .assertion
      else if second.getTerminalType = .VAR then throw .assertion
      else if printTerm first = printTerm second then pure (.Terminal "true" .BOOL)
      else pure (.Terminal "false" .BOOL)
    | _ => throw .assertion
  else if op = ">" then pure (.Op "not" [.Op "<=" args])
  else if op = "<" then
    if firstTerm < secondTerm then pure (.Terminal "true" .BOOL)
    else pure (.Terminal "false" .BOOL)
  else if op = "<=" then
    if firstTerm ≤ secondTerm then pure (.Terminal "true" .BOOL)
    else pure (.Terminal "false" .BOOL)
  else if op = ">=" then
    match args with
    | first :: second :: _ => pure (.Op "<=" [second, first])
    | _ => throw .assertion
  else if op = "and" then
    if args.any (fun arg => printTerm arg = "false") then pure (.Terminal "false" .BOOL)
    else
      let trues := args.countP (fun arg => printTerm arg = "true")
      let predicates := args.filter (fun arg => printTerm arg ≠ "true")
      if trues = args.length then pure (.Terminal "true" .BOOL)
      else
        match predicates with
        | [predicate] => pure (InstantiateVisitor.visit [] predicate)
        | _ => pure (.Op "and" (InstantiateVisitor.visitEach [] predicates))
  else if op = "or" then OperateVisitor.orLoop args
  else if op = "+" then
    OperateVisitor.sumLoop args 0 >>= fun result => pure (numberTerminal result)
  else if op = "-" then pure (numberTerminal (firstTerm - secondTerm))
  else if op = "/" then
    if secondTerm = 0 then throw .assertion
    else pure (numberTerminal (firstTerm / secondTerm))
  else if op = "*" then pure (numberTerminal (firstTerm * secondTerm))
  else if op = "not" then
    match args with
    | first :: _ =>
      if first.getTerminalType = .VAR then throw .assertion
      else if printTerm first = "false" then pure (.Terminal "true" .BOOL)
      else pure (.Terminal "false" .BOOL)
    | _ => throw .assertion
  else if op = "ite" then
    match args with
    | first :: second :: third :: _ =>
      if first.getTerminalType = .VAR then throw .assertion
      else if second.getTerminalType = .VAR then throw .assertion
      else if third.getTerminalType = .VAR then throw .assertion
      else if printTerm first = "true" then pure (InstantiateVisitor.visit [] second)
      else pure (InstantiateVisitor.visit [] third)
    | _ => throw .assertion
  else if op = "mod" then pure (numberTerminal (rem firstTerm secondTerm))
  else if op = "div" then
    if secondTerm = 0 then throw .assertion
    else
      let result := firstTerm / secondTerm
      if result < 0 then
        pure (.Terminal (String.mk ("(- ".data ++
          FastRational.get_str (FastRational.ceil (result * -1)) ++ ")".data)) .INT)
      else pure (.Terminal (String.mk (FastRational.get_str (FastRational.floor result))) .INT)
  else pure (.Terminal "Error" .UNDECLARED)

/-- The method `Op::simplifyRule` of an `Op` with the fields `operation` and `args`
(an equality with fewer than two arguments has no defined rule; the model gives
`equiv_simplify`). -/
def Op.simplifyRule (operation : String) (args : List Term) : String :=
  if operation = "=" then
    match args with
    | first :: second :: _ =>
      if (printTerm first).data.all (fun c => c ∈ "( )-0123456789".data) ∧
          (printTerm second).data.all (fun c => c ∈ "( )-0123456789".data) then
        "eq_simplify"
      else "equiv_simplify"
    | _ => "equiv_simplify"
  else if operation = ">" ∨ operation = "<" ∨ operation = "<=" ∨ operation = ">=" then
    "comp_simplify"
  else if operation = "and" then "and_simplify"
  else if operation = "or" then "or_simplify"
  else if operation = "+" then "sum_simplify"
  else if operation = "-" then "minus_simplify"
  else if operation = "/" ∨ operation = "div" then "div_simplify"
  else if operation = "*" then "prod_simplify"
  else if operation = "not" then "not_simplify"
  else if operation = "ite" then "ite_simplify"
  else if operation = "mod" then "mod_simplify"
  else "Error"

/-! ## Chains of simplification steps -/

/-- Modelled from the spec: an element of the field `steps` of `CongChainVisitor`, with
the four values it is built from: the number of the step, the equality it states,
the numbers of its premises, and its rule. -/
structure SimplifyStep where
  stepId : Int
  clause : Term
  premises : List Int
  rule : String
deriving DecidableEq

/-- The fields of the visitor `CongChainVisitor` that its visits change. -/
structure CongChainVisitor where
  steps : List SimplifyStep
  currStep : Int
  transCase : Int
deriving DecidableEq

/-- The call `steps.emplace_back(currStep, ...)` followed by `currStep++`. -/
def CongChainVisitor.emit (self : CongChainVisitor) (clause : Term) (premises : List Int)
    (rule : String) : CongChainVisitor :=
  { self with
    steps := self.steps ++ [⟨self.currStep, clause, premises, rule⟩]
    currStep := self.currStep + 1 }

/-- The branch `canSimplify` of `CongChainVisitor::visit(Op *)`, after `transCase` has
been reset: the operation is evaluated and a step records it; `>` and `>=` take
more steps. The copy visitor gives a term equal to its argument. -/
def CongChainVisitor.simplify (rem : ℚ → ℚ → ℚ) (self : CongChainVisitor)
    (op : String) (args : List Term) : Except Exception (Term × CongChainVisitor) :=
  let premises : List Int := []
  OperateVisitor.visit rem op args >>= fun simplification =>
  let self := self.emit (.Op "=" [.Op op args, simplification]) premises
    (Op.simplifyRule op args)
  if op = ">" then
    let originalSimplificaiton := simplification
    match simplification with
    | .Op outer (.Op inner innerArgs :: rest) =>
      let lessOrEq := Term.Op inner innerArgs
      OperateVisitor.visit rem inner innerArgs >>= fun innerWorking =>
      let self := self.emit (.Op "=" [lessOrEq, innerWorking]) premises
        (Op.simplifyRule inner innerArgs)
      let simplification := Term.Op outer (innerWorking :: rest)
      let cong := Term.Op "=" [originalSimplificaiton, simplification]
      let self := self.emit cong [self.currStep - 1] "cong"
      OperateVisitor.visit rem outer (innerWorking :: rest) >>= fun outerWorking =>
      let self := self.emit (.Op "=" [simplification, outerWorking]) premises
        (Op.simplifyRule outer (innerWorking :: rest))
      let trans := Term.Op "=" [originalSimplificaiton, outerWorking]
      let self := self.emit trans [self.currStep - 2, self.currStep - 1] "trans"
      let trans := Term.Op "=" [.Op op args, outerWorking]
      let self := self.emit trans [self.currStep - 5, self.currStep - 1] "trans"
      pure (outerWorking, self)
    | _ => throw .assertion
  else if op = ">=" then
    let self := { self with transCase := 1 }
    let originalSimplificaiton := simplification
    match originalSimplificaiton with
    | .Op lower lowerArgs =>
      OperateVisitor.visit rem lower lowerArgs >>= fun simplification =>
      let self := self.emit (.Op "=" [originalSimplificaiton, simplification]) premises
        (Op.simplifyRule lower lowerArgs)
      let trans := Term.Op "=" [.Op op args, simplification]
      let self := self.emit trans [self.currStep - 2, self.currStep - 1] "trans"
      pure (simplification, self)
    | _ => throw .assertion
  else pure (simplification, self)

/-- The loop over the arguments in the other branch of `CongChainVisitor::visit(Op *)`:
each argument is visited by `visitOne`, the result takes its place, and the number
of the last step is a premise when the argument is an `Op`. -/
def CongChainVisitor.visitArgs
    (visitOne : CongChainVisitor → Term → Option (Except Exception (Term × CongChainVisitor))) :
    List Term → CongChainVisitor → List Term → List Int →
      Option (Except Exception (List Term × List Int × CongChainVisitor))
  | [], self, newArgs, premises => some (.ok (newArgs, premises, self))
  | arg :: args, self, newArgs, premises =>
    match visitOne self arg with
    | none => none
    | some (.error e) => some (.error e)
    | some (.ok (result, self)) =>
      CongChainVisitor.visitArgs visitOne args self (newArgs ++ [result])
        (if arg.getTermType = .OP then premises ++ [self.currStep - 1] else premises)

/-- The visits of `CongChainVisitor` on a `Terminal`, an `Op` and an `App`, as a
function of the state of the visitor. The recursion of the source is not
structural: `fuel` bounds the depth of the calls, and the result is `none` when
the bound is reached. The visits of the other classes are not in the sources at
hand; the model stops there. -/
def CongChainVisitor.visit (rem : ℚ → ℚ → ℚ) :
    Nat → CongChainVisitor → Term → Option (Except Exception (Term × CongChainVisitor))
  | 0, _, _ => none
  | _ + 1, self, .Terminal val type => some (.ok (.Terminal val type, self))
  | _ + 1, self, .App fn args => some (.ok (.App fn args, self))
  | fuel + 1, self, .Op op args =>
    let self := { self with transCase := 0 }
    if args.all (fun arg => arg.getTermType = .TERMINAL ∨ arg.getTermType = .APP) then
      some (CongChainVisitor.simplify rem self op args)
    else
      let originalTerm := Term.Op op args
      match CongChainVisitor.visitArgs (CongChainVisitor.visit rem fuel) args self [] [] with
      | none => none
      | some (.error e) => some (.error e)
      | some (.ok (newArgs, premises, self)) =>
        let cong := Term.Op "=" [originalTerm, .Op op newArgs]
        let self := self.emit cong premises "cong"
        match CongChainVisitor.visit rem fuel self (.Op op newArgs) with
        | none => none
        | some (.error e) => some (.error e)
        | some (.ok (furtherSimplification, self)) =>
          let trans := Term.Op "=" [originalTerm, furtherSimplification]
          let predecessor := if self.transCase = 1 then self.currStep - 4 else self.currStep - 2
          let self := if self.transCase = 1 then { self with transCase := 0 } else self
          let self := self.emit trans [predecessor, self.currStep - 1] "trans"
          some (.ok (furtherSimplification, self))
  | _ + 1, _, .Quant _ _ _ _ => some (.error .invalid_argument)
  | _ + 1, _, .Let _ _ _ => some (.error .invalid_argument)

/-! ## Definitions for the properties of the proof layer -/

/-- The encoding of an integer constant: its decimal numeral, and `(- n)` for the
negative of `n`. -/
def encodeInt (i : Int) : String :=
  if i < 0 then String.mk ("(- ".data ++ to_string (-i) ++ ")".data)
  else String.mk (to_string i)

/-- The terminal of an integer constant. -/
def intTerminal (i : Int) : Term := .Terminal (encodeInt i) .INT

/-- Number of arguments that are applications. -/
def countApplications (args : List Term) : Nat :=
  args.countP fun arg => decide (arg.getTermType = .APP)

/-- The application `(P 1)` of a predicate to a constant. -/
def predicateP : Term := .App "P" [.Terminal "1" .INT]

/-- The application `(Q 2)` of a predicate to a constant. -/
def predicateQ : Term := .App "Q" [.Terminal "2" .INT]

/-- The term `(not (and (P 1) (Q 2)))`. -/
def negatedConjunction : Term := .Op "not" [.Op "and" [predicateP, predicateQ]]

/-- The term `(> (+ 1 2) 2)`. -/
def sumComparison : Term := .Op ">" [.Op "+" [intTerminal 1, intTerminal 2], intTerminal 2]

/-- The state of a visitor that has emitted nothing and numbers its steps from 0. -/
def CongChainVisitor.start : CongChainVisitor := ⟨[], 0, 0⟩

/-- The term `(>= (+ 1 2) 2)`. -/
def sumComparisonEq : Term := .Op ">=" [.Op "+" [intTerminal 1, intTerminal 2], intTerminal 2]

/-- The numbers, premises and rules of the steps that a visitor has emitted. -/
def CongChainVisitor.trace (self : CongChainVisitor) : List (Int × List Int × String) :=
  self.steps.map fun step => (step.stepId, step.premises, step.rule)

/-- The trace of the steps emitted by a visit that returns. -/
def traceOf (r : Option (Except Exception (Term × CongChainVisitor))) :
    Option (List (Int × List Int × String)) :=
  match r with
  | some (.ok (_, self)) => some self.trace
  | _ => none

/-! ## Removal of unused bound variables -/

mutual
/-- The visits of `RemoveUnusedVisitor` on a `Terminal`, an `Op` and an `App`, as a
function of the field `varsInUse`: the printed form of a terminal is appended unless
it is there already. A `Quant` met on the way passes the visit on to its core term;
the visit of a `Let` is not in the sources at hand and leaves the field as it is. -/
def RemoveUnusedVisitor.visit : Term → List String → List String
  | .Terminal val type, varsInUse =>
    if varsInUse.any (fun var => printTerm (.Terminal val type) = var) then varsInUse
    else varsInUse ++ [printTerm (.Terminal val type)]
  | .Op _ args, varsInUse => RemoveUnusedVisitor.visitEach args varsInUse
  | .App _ args, varsInUse => RemoveUnusedVisitor.visitEach args varsInUse
  | .Quant _ _ _ coreTerm, varsInUse => RemoveUnusedVisitor.visit coreTerm varsInUse
  | .Let _ _ _, varsInUse => varsInUse
/-- The loop `for (auto arg : args) arg->accept(this)`. -/
def RemoveUnusedVisitor.visitEach : List Term → List String → List String
  | [], varsInUse => varsInUse
  | arg :: args, varsInUse =>
    RemoveUnusedVisitor.visitEach args (RemoveUnusedVisitor.visit arg varsInUse)
end

/-- The loop `for (i = 0; i < vars.size(); i++)` of `RemoveUnusedVisitor::visit(Quant *)`
on its index `i` and its local vectors `vars` and `sorts`: a variable whose printed
form is not in `varsInUse` is erased at position `i`, with the sort at the same
position, and `i` is incremented in either case. The loop makes at most as many
passes as there are variables at its start; `fuel` is that bound. -/
def RemoveUnusedVisitor.eraseLoop (varsInUse : List String) :
    Nat → Nat → List Term → List Term → List Term × List Term
  | 0, _, vars, sorts => (vars, sorts)
  | fuel + 1, i, vars, sorts =>
    match vars.get? i with
    | none => (vars, sorts)
    | some var =>
      let inUse := varsInUse.any (fun varInUse => printTerm var = varInUse)
      if !inUse then
        RemoveUnusedVisitor.eraseLoop varsInUse fuel (i + 1) (vars.eraseIdx i) (sorts.eraseIdx i)
      else RemoveUnusedVisitor.eraseLoop varsInUse fuel (i + 1) vars sorts

/-- The method `RemoveUnusedVisitor::visit(Quant *)` on a `Quant` with the fields
`quant`, `vars`, `sorts` and `coreTerm`, for a visitor whose field is `varsInUse`. -/
def RemoveUnusedVisitor.visitQuant (varsInUse : List String) (quant : String)
    (vars sorts : List Term) (coreTerm : Term) : Term :=
  let varsInUse := RemoveUnusedVisitor.visit coreTerm varsInUse
  let erased := RemoveUnusedVisitor.eraseLoop varsInUse vars.length 0 vars sorts
  if erased.1.isEmpty then coreTerm
  else .Quant quant erased.1 erased.2 coreTerm

/-- Specification of the removal of unused variables, in the words of its description:
the bound variables whose printed name occurs as a terminal of the core term, in
their order and each with its sort. -/
def usedBindings (vars sorts : List Term) (coreTerm : Term) : List (Term × Term) :=
  (vars.zip sorts).filter fun binding =>
    (RemoveUnusedVisitor.visit coreTerm []).any (fun name => printTerm binding.1 = name)

/-- Specification of the result of the removal: the core term when no bound variable
is left, else the quantifier over the variables that are left. -/
def removeUnusedSpec (quant : String) (vars sorts : List Term) (coreTerm : Term) : Term :=
  if (usedBindings vars sorts coreTerm).isEmpty then coreTerm
  else .Quant quant ((usedBindings vars sorts coreTerm).map Prod.fst)
    ((usedBindings vars sorts coreTerm).map Prod.snd) coreTerm

/-- The sort `Int` as a terminal. -/
def sortInt : Term := .Terminal "Int" .UNDECLARED

/-- The quantified term `(forall ((x Int) (y Int)) (> 1 0))`, whose bound variables do
not occur in its core term. -/
def unusedPair : Term :=
  .Quant "forall" [.Terminal "x" .VAR, .Terminal "y" .VAR] [sortInt, sortInt]
    (.Op ">" [.Terminal "1" .INT, .Terminal "0" .INT])

/-- What the erasing loop leaves of a sequence of variables: a variable in use is kept,
and after a variable that is erased the next one is passed over without a test. -/
def keptAfterErasing (varsInUse : List String) : List Term → List Term
  | [] => []
  | [var] => if varsInUse.any (fun varInUse => printTerm var = varInUse) then [var] else []
  | var :: next :: rest =>
    if varsInUse.any (fun varInUse => printTerm var = varInUse) then
      var :: keptAfterErasing varsInUse (next :: rest)
    else next :: keptAfterErasing varsInUse rest

/-- The quantified term `(forall ((x Int) (y Int) (z Int)) (> z 0))`, in whose core
term only the last bound variable occurs. -/
def unusedBeforeUsed : Term :=
  .Quant "forall" [.Terminal "x" .VAR, .Terminal "y" .VAR, .Terminal "z" .VAR]
    [sortInt, sortInt, sortInt] (.Op ">" [.Terminal "z" .VAR, .Terminal "0" .INT])

/-- The call `term->accept(&visitor)` for a `RemoveUnusedVisitor` whose field is
`varsInUse`: the visit of a `Quant` returns a term, the other visits return the null
pointer, which is `none`. -/
def RemoveUnusedVisitor.accept (varsInUse : List String) : Term → Option Term
  | .Quant quant vars sorts coreTerm =>
    some (RemoveUnusedVisitor.visitQuant varsInUse quant vars sorts coreTerm)
  | _ => none

/-! ## Definitions for the properties of instantiation -/

mutual
/-- Whether a term contains a terminal of type `VAR` whose value is one of `names`. -/
def Term.hasVarAmong (names : List String) : Term → Bool
  | .Terminal val type => decide (type = .VAR) && names.contains val
  | .Op _ args => Term.hasVarAmongEach names args
  | .App _ args => Term.hasVarAmongEach names args
  | .Quant _ vars sorts coreTerm =>
    Term.hasVarAmongEach names vars || Term.hasVarAmongEach names sorts ||
      Term.hasVarAmong names coreTerm
  | .Let _ declarations application =>
    Term.hasVarAmongEach names declarations || Term.hasVarAmong names application
/-- Whether one term of a sequence contains such a terminal. -/
def Term.hasVarAmongEach (names : List String) : List Term → Bool
  | [] => false
  | t :: ts => Term.hasVarAmong names t || Term.hasVarAmongEach names ts
end

mutual
/-- Whether a term is built without `Let`. -/
def Term.letFree : Term → Bool
  | .Terminal _ _ => true
  | .Op _ args => Term.letFreeEach args
  | .App _ args => Term.letFreeEach args
  | .Quant _ vars sorts coreTerm =>
    Term.letFreeEach vars && Term.letFreeEach sorts && Term.letFree coreTerm
  | .Let _ _ _ => false
/-- Whether the terms of a sequence are built without `Let`. -/
def Term.letFreeEach : List Term → Bool
  | [] => true
  | t :: ts => Term.letFree t && Term.letFreeEach ts
end

/-- The term `(let ((a x)) (+ a x))` over the variable `x`. -/
def letOverVariable : Term :=
  .Let ["a"] [.Terminal "x" .VAR] (.Op "+" [.Terminal "a" .VAR, .Terminal "x" .VAR])

/-! ## Lemmas on the BMC loop -/

theorem Except.bind_ok_iff {ε α β : Type} (x : Except ε α) (f : α → Except ε β) (b : β) :
    (x >>= f) = .ok b ↔ ∃ a, x = .ok a ∧ f a = .ok b := by
  cases x with
  | error e => simp [bind, Except.bind]
  | ok a => simp [bind, Except.bind]

/-- One iteration of the loop on a session of push depth 0 whose assertions are `A`. -/
theorem unrollingLoop_step (backend : List PTRef → sstat) (q t : PTRef) (n j : Nat)
    (A : List PTRef) :
    unrollingLoop backend q t (n + 1) j ⟨[A]⟩ =
      (sendFlaThroughTime q (j : Int) >>= fun vq =>
        if backend (A ++ [vq]) = .s_True then
          pure ⟨.UNSAFE, .depth j⟩
        else
          sendFlaThroughTime t (j : Int) >>= fun vt =>
          unrollingLoop backend q t n (j + 1) ⟨[A ++ [vt]]⟩) := by
  simp [unrollingLoop, MainSolver.push, MainSolver.insertFormula, MainSolver.check,
    MainSolver.assertions, MainSolver.pop]

/-- The loop answers UNSAFE with a depth or UNKNOWN with depth 0, never SAFE. -/
theorem unrollingLoop_result (backend : List PTRef → sstat) (q t : PTRef) :
    ∀ (n j : Nat) (solver : MainSolver) (r : TransitionSystemVerificationResult),
      unrollingLoop backend q t n j solver = .ok r →
      r = ⟨.UNKNOWN, .depth 0⟩ ∨ ∃ k, j ≤ k ∧ k < j + n ∧ r = ⟨.UNSAFE, .depth k⟩ := by
  intro n
  induction n with
  | zero =>
    intro j solver r h
    simp [unrollingLoop, pure, Except.pure] at h
    exact Or.inl h.symm
  | succ n ih =>
    intro j solver r h
    simp only [unrollingLoop, Except.bind_ok_iff] at h
    obtain ⟨vq, _, h⟩ := h
    split at h
    · simp [pure, Except.pure] at h
      exact Or.inr ⟨j, le_refl _, by omega, h.symm⟩
    · simp only [Except.bind_ok_iff] at h
      obtain ⟨vt, _, h⟩ := h
      rcases ih _ _ _ h with h1 | ⟨k, hk1, hk2, hk3⟩
      · exact Or.inl h1
      · exact Or.inr ⟨k, by omega, by omega, hk3⟩

/-- Soundness of an UNSAFE answer of the loop: started at depth `j` on the assertions
`init, tr@0, ..., tr@(j-1)`, it reports a depth whose unrolled formula the backend
accepted. -/
theorem unrollingLoop_unsafe (backend : List PTRef → sstat) (init q t : PTRef) :
    ∀ (n j : Nat) (trs : List PTRef) (k : Nat),
      shiftedTransitions t j = .ok trs →
      unrollingLoop backend q t n j ⟨[init :: trs]⟩ = .ok ⟨.UNSAFE, .depth k⟩ →
      ∃ fs, unrolling ⟨init, t, q⟩ k = .ok fs ∧ backend fs = .s_True := by
  intro n
  induction n with
  | zero =>
    intro j trs k _ h
    simp [unrollingLoop, pure, Except.pure] at h
  | succ n ih =>
    intro j trs k htrs h
    rw [unrollingLoop_step, Except.bind_ok_iff] at h
    obtain ⟨vq, hvq, h⟩ := h
    split at h
    · rename_i hsat
      simp [pure, Except.pure] at h
      subst h
      refine ⟨init :: trs ++ [vq], ?_, by simpa using hsat⟩
      simp [unrolling, htrs, hvq, bind, Except.bind, pure, Except.pure]
    · rw [Except.bind_ok_iff] at h
      obtain ⟨vt, hvt, h⟩ := h
      refine ih (j + 1) (trs ++ [vt]) k ?_ (by simpa using h)
      simp [shiftedTransitions, htrs, hvt, bind, Except.bind, pure, Except.pure]

theorem sendVarThroughTime_defined (var : PTRef) (a b : Int) (r : PTRef)
    (h : sendVarThroughTime var a = .ok r) : ∃ r2, sendVarThroughTime var b = .ok r2 := by
  unfold sendVarThroughTime at h ⊢
  by_cases hvar : isVar var = true
  · rw [if_pos hvar] at h ⊢
    rw [Except.bind_ok_iff] at h
    obtain ⟨v, hv, h⟩ := h
    rw [hv]
    simp only [bind, Except.bind]
    by_cases hver : v = true
    · rw [if_pos hver] at h ⊢
      cases hr : rfind (getSymName var).data versionSeparator with
      | none => simp [hr, throw, throwThe, MonadExceptOf.throw] at h
      | some pos =>
        simp only [hr] at h ⊢
        cases hs : stoi (List.drop (pos + versionSeparator.length) (getSymName var).data) with
        | error e => simp [hs, bind, Except.bind] at h
        | ok version => simp [pure, Except.pure]
    · rw [if_neg hver] at h
      simp [throw, throwThe, MonadExceptOf.throw] at h
  · rw [if_neg hvar] at h
    simp [throw, throwThe, MonadExceptOf.throw] at h

mutual
theorem rewrite_versioning_defined (a b : Int) :
    ∀ (f r : PTRef), Rewriter.rewrite (VersioningConfig a) f = .ok r →
      ∃ r2, Rewriter.rewrite (VersioningConfig b) f = .ok r2
  | .var n s, r, h => by
      simp only [Rewriter.rewrite, VersioningConfig, isVar, if_true] at h ⊢
      exact sendVarThroughTime_defined _ a b r h
  | .const n s, r, h => by
      simp [Rewriter.rewrite, VersioningConfig, isVar, pure, Except.pure]
  | .not x, r, h => by
      simp only [Rewriter.rewrite, VersioningConfig, isVar, if_true, Except.bind_ok_iff] at h ⊢
      obtain ⟨x2, hx, _⟩ := h
      obtain ⟨y, hy⟩ := rewrite_versioning_defined a b x x2 hx
      exact ⟨_, y, hy, rfl⟩
  | .and xs, r, h => by
      simp only [Rewriter.rewrite, VersioningConfig, isVar, if_true, Except.bind_ok_iff] at h ⊢
      obtain ⟨x2, hx, _⟩ := h
      obtain ⟨y, hy⟩ := rewriteArgs_versioning_defined a b xs x2 hx
      exact ⟨_, y, hy, rfl⟩
  | .or xs, r, h => by
      simp only [Rewriter.rewrite, VersioningConfig, isVar, if_true, Except.bind_ok_iff] at h ⊢
      obtain ⟨x2, hx, _⟩ := h
      obtain ⟨y, hy⟩ := rewriteArgs_versioning_defined a b xs x2 hx
      exact ⟨_, y, hy, rfl⟩
  | .eq l r0, r, h => by
      simp only [Rewriter.rewrite, VersioningConfig, isVar, if_true, Except.bind_ok_iff] at h ⊢
      obtain ⟨l2, hl, r2, hr, _⟩ := h
      obtain ⟨y, hy⟩ := rewrite_versioning_defined a b l l2 hl
      obtain ⟨z, hz⟩ := rewrite_versioning_defined a b r0 r2 hr
      exact ⟨_, y, hy, z, hz, rfl⟩
  | .app g xs, r, h => by
      simp only [Rewriter.rewrite, VersioningConfig, isVar, if_true, Except.bind_ok_iff] at h ⊢
      obtain ⟨x2, hx, _⟩ := h
      obtain ⟨y, hy⟩ := rewriteArgs_versioning_defined a b xs x2 hx
      exact ⟨_, y, hy, rfl⟩
theorem rewriteArgs_versioning_defined (a b : Int) :
    ∀ (fs rs : List PTRef), Rewriter.rewriteArgs (VersioningConfig a) fs = .ok rs →
      ∃ rs2, Rewriter.rewriteArgs (VersioningConfig b) fs = .ok rs2
  | [], rs, h => ⟨[], rfl⟩
  | f :: fs, rs, h => by
      simp only [Rewriter.rewriteArgs, Except.bind_ok_iff] at h ⊢
      obtain ⟨f2, hf, fs2, hfs, _⟩ := h
      obtain ⟨y, hy⟩ := rewrite_versioning_defined a b f f2 hf
      obtain ⟨z, hz⟩ := rewriteArgs_versioning_defined a b fs fs2 hfs
      exact ⟨_, y, hy, z, hz, rfl⟩
end

/-- Whether a formula can be sent through time does not depend on the number of
steps, and sending by a smaller depth succeeds whenever sending by a greater one
does. -/
theorem sendFlaThroughTime_defined_of_le (f r : PTRef) (i k : Nat) (hik : i ≤ k)
    (h : sendFlaThroughTime f (k : Int) = .ok r) :
    ∃ r2, sendFlaThroughTime f (i : Int) = .ok r2 := by
  unfold sendFlaThroughTime at h ⊢
  by_cases hi : (i : Int) = 0
  · exact ⟨f, by simp [hi, pure, Except.pure]⟩
  · have hk : (k : Int) ≠ 0 := by omega
    rw [if_neg hk] at h
    rw [if_neg hi]
    exact rewrite_versioning_defined _ _ f r h

theorem shiftedTransitions_succ_ok (t : PTRef) (k : Nat) (fs : List PTRef)
    (h : shiftedTransitions t (k + 1) = .ok fs) :
    ∃ earlier last, shiftedTransitions t k = .ok earlier ∧
      sendFlaThroughTime t (k : Int) = .ok last ∧ fs = earlier ++ [last] := by
  simp only [shiftedTransitions, Except.bind_ok_iff] at h
  obtain ⟨e, he, l, hl, h⟩ := h
  simp [pure, Except.pure] at h
  exact ⟨e, l, he, hl, h.symm⟩

theorem shiftedTransitions_defined_of_le (t : PTRef) :
    ∀ (k : Nat) (fs : List PTRef), shiftedTransitions t k = .ok fs →
      ∀ i, i ≤ k → ∃ gs, shiftedTransitions t i = .ok gs := by
  intro k
  induction k with
  | zero =>
    intro fs h i hi
    have : i = 0 := by omega
    subst this
    exact ⟨fs, h⟩
  | succ k ih =>
    intro fs h i hi
    by_cases hik : i = k + 1
    · subst hik; exact ⟨fs, h⟩
    · obtain ⟨e, l, he, _, _⟩ := shiftedTransitions_succ_ok t k fs h
      exact ih e he i (by omega)

/-- Completeness of the loop: started at depth `j` on `init, tr@0, ..., tr@(j-1)`, it
reports the first depth `k` whose unrolled formula the backend accepts, provided
enough iterations remain. -/
theorem unrollingLoop_first (backend : List PTRef → sstat) (init q t : PTRef)
    (k : Nat) (fs : List PTRef)
    (hk : unrolling ⟨init, t, q⟩ k = .ok fs) (hsat : backend fs = .s_True) :
    ∀ (n j : Nat) (trs : List PTRef),
      j ≤ k → k < j + n →
      shiftedTransitions t j = .ok trs →
      (∀ i gs, j ≤ i → i < k → unrolling ⟨init, t, q⟩ i = .ok gs → backend gs ≠ .s_True) →
      unrollingLoop backend q t n j ⟨[init :: trs]⟩ = .ok ⟨.UNSAFE, .depth k⟩ := by
  have hk2 := hk
  simp only [unrolling, Except.bind_ok_iff] at hk2
  obtain ⟨steps, hsteps, vqk, hvqk, hfs⟩ := hk2
  simp [pure, Except.pure] at hfs
  intro n
  induction n with
  | zero => intro j trs h1 h2; omega
  | succ n ih =>
    intro j trs hjk hkn htrs hmin
    rw [unrollingLoop_step]
    obtain ⟨vq, hvq⟩ := sendFlaThroughTime_defined_of_le q vqk j k hjk hvqk
    rw [hvq]
    simp only [bind, Except.bind]
    by_cases hj : j = k
    · subst hj
      rw [hvq] at hvqk
      rw [htrs] at hsteps
      cases hvqk; cases hsteps
      rw [if_pos (by rw [← hsat, ← hfs]; simp)]
      rfl
    · have hlt : j < k := by omega
      have hu : unrolling ⟨init, t, q⟩ j = .ok (init :: trs ++ [vq]) := by
        simp [unrolling, htrs, hvq, bind, Except.bind, pure, Except.pure]
      have hns := hmin j _ (le_refl _) hlt hu
      rw [if_neg (by simpa using hns)]
      obtain ⟨gs, hgs⟩ := shiftedTransitions_defined_of_le t k steps hsteps (j + 1) (by omega)
      obtain ⟨e, vt, he, hvt, hgs2⟩ := shiftedTransitions_succ_ok t j gs hgs
      rw [htrs] at he
      cases he
      rw [hvt]
      simp only []
      have := ih (j + 1) (trs ++ [vt]) (by omega) (by omega) (by rw [hgs, hgs2])
        (fun i gs hi1 hi2 hu2 => hmin i gs (by omega) hi2 hu2)
      simpa using this

/-- Extending the number of iterations allowed does not change a verdict of the loop
other than UNKNOWN. -/
theorem unrollingLoop_mono (backend : List PTRef → sstat) (q t : PTRef) :
    ∀ (n d j : Nat) (solver : MainSolver) (r : TransitionSystemVerificationResult),
      unrollingLoop backend q t n j solver = .ok r → r.answer ≠ .UNKNOWN →
      unrollingLoop backend q t (n + d) j solver = .ok r := by
  intro n
  induction n with
  | zero =>
    intro d j solver r h hr
    simp [unrollingLoop, pure, Except.pure] at h
    subst h
    exact absurd rfl hr
  | succ n ih =>
    intro d j solver r h hr
    have e : n + 1 + d = (n + d) + 1 := by omega
    rw [e]
    simp only [unrollingLoop, Except.bind_ok_iff] at h ⊢
    obtain ⟨vq, hvq, h⟩ := h
    refine ⟨vq, hvq, ?_⟩
    split at h
    · rename_i hs
      rw [if_pos hs]; exact h
    · rename_i hs
      rw [if_neg hs]
      simp only [Except.bind_ok_iff] at h ⊢
      obtain ⟨vt, hvt, h⟩ := h
      exact ⟨vt, hvt, ih d _ _ _ h hr⟩

theorem solveTransitionSystemBounded_eq (backend : List PTRef → sstat) (n : Nat)
    (system : TransitionSystem) :
    solveTransitionSystemBounded backend n system =
      if backend [system.init] = .s_False then .ok ⟨.SAFE, .formula getTerm_false⟩
      else unrollingLoop backend system.query system.transition n 0 ⟨[[system.init]]⟩ := by
  simp [solveTransitionSystemBounded, MainSolver.fresh, MainSolver.insertFormula,
    MainSolver.check, MainSolver.assertions, pure, Except.pure]

theorem solveTransitionSystemBounded_safe (backend : List PTRef → sstat) (n : Nat)
    (system : TransitionSystem) (r : TransitionSystemVerificationResult)
    (h : solveTransitionSystemBounded backend n system = .ok r) (hr : r.answer = .SAFE) :
    backend [system.init] = .s_False ∧ r = ⟨.SAFE, .formula getTerm_false⟩ := by
  rw [solveTransitionSystemBounded_eq] at h
  by_cases hb : backend [system.init] = .s_False
  · rw [if_pos hb] at h
    cases h
    exact ⟨hb, rfl⟩
  · rw [if_neg hb] at h
    rcases unrollingLoop_result backend _ _ _ _ _ _ h with h1 | ⟨k, _, _, h1⟩ <;>
      · subst h1; simp at hr

theorem solveTransitionSystemBounded_unsafe (backend : List PTRef → sstat) (n : Nat)
    (system : TransitionSystem) (k : Nat)
    (h : solveTransitionSystemBounded backend n system = .ok ⟨.UNSAFE, .depth k⟩) :
    ∃ fs, unrolling system k = .ok fs ∧ backend fs = .s_True := by
  rw [solveTransitionSystemBounded_eq] at h
  by_cases hb : backend [system.init] = .s_False
  · rw [if_pos hb] at h
    cases h
  · rw [if_neg hb] at h
    exact unrollingLoop_unsafe backend system.init system.query system.transition n 0 [] k
      rfl h

theorem solveTransitionSystemBounded_first (backend : List PTRef → sstat) (n : Nat)
    (system : TransitionSystem) (k : Nat) (fs : List PTRef)
    (hinit : backend [system.init] ≠ .s_False) (hkn : k < n)
    (hk : unrolling system k = .ok fs) (hsat : backend fs = .s_True)
    (hmin : ∀ i gs, i < k → unrolling system i = .ok gs → backend gs ≠ .s_True) :
    solveTransitionSystemBounded backend n system = .ok ⟨.UNSAFE, .depth k⟩ := by
  rw [solveTransitionSystemBounded_eq, if_neg hinit]
  exact unrollingLoop_first backend system.init system.query system.transition k fs hk hsat
    n 0 [] (Nat.zero_le _) (by omega) rfl (fun i gs _ hi hu => hmin i gs hi hu)

theorem solveTransitionSystemBounded_mono (backend : List PTRef → sstat) (n m : Nat)
    (system : TransitionSystem) (r : TransitionSystemVerificationResult) (hnm : n ≤ m)
    (h : solveTransitionSystemBounded backend n system = .ok r)
    (hr : r.answer ≠ .UNKNOWN) :
    solveTransitionSystemBounded backend m system = .ok r := by
  rw [solveTransitionSystemBounded_eq] at h ⊢
  by_cases hb : backend [system.init] = .s_False
  · rw [if_pos hb] at h ⊢; exact h
  · rw [if_neg hb] at h ⊢
    obtain ⟨d, rfl⟩ := Nat.exists_eq_add_of_le hnm
    exact unrollingLoop_mono backend _ _ n d 0 _ r h hr

theorem unrolling_zero (system : TransitionSystem) :
    unrolling system 0 = .ok [system.init, system.query] := by
  simp [unrolling, shiftedTransitions, sendFlaThroughTime, bind, Except.bind, pure,
    Except.pure]

theorem init_mem_unrolling (system : TransitionSystem) (k : Nat) (fs : List PTRef)
    (h : unrolling system k = .ok fs) : system.init ∈ fs := by
  simp only [unrolling, Except.bind_ok_iff] at h
  obtain ⟨_, _, _, _, h⟩ := h
  simp [pure, Except.pure] at h
  subst h
  simp

theorem Sat.mono {D : Type} [DecidableEq D] (M : Interpretation D) (fs gs : List PTRef)
    (hsub : ∀ f ∈ fs, f ∈ gs) (h : Sat M gs) : Sat M fs := by
  obtain ⟨σ, hσ⟩ := h
  exact ⟨σ, fun f hf => hσ f (hsub f hf)⟩

/-- A backend that answers SAT on the satisfiable lists and UNSAT on all others
exists for every structure. -/
theorem exists_soundAndComplete {D : Type} [DecidableEq D] (M : Interpretation D) :
    ∃ backend : List PTRef → sstat,
      SoundAndComplete M backend ∧ ∀ fs, ¬ Sat M fs → backend fs = .s_False := by
  classical
  refine ⟨fun fs => if Sat M fs then .s_True else .s_False, ?_, ?_⟩
  · intro fs
    by_cases h : Sat M fs <;> simp [h]
  · intro fs h
    simp [h]

/-! ## Lemmas on the scenarios -/

theorem holds_eq_iff {D : Type} [DecidableEq D] (M : Interpretation D) (σ : Assignment D)
    (l r : PTRef) : holds M σ (.eq l r) ↔ eval M σ l = eval M σ r := by
  simp [holds, eval, M.toBool_ofBool]

theorem holds_true {D : Type} [DecidableEq D] (M : Interpretation D) (σ : Assignment D) :
    holds M σ getTerm_true := by
  simp [holds, eval, getTerm_true, M.toBool_ofBool]

theorem emptyInit_unsat {D : Type} [DecidableEq D] (M : Interpretation D) :
    ¬ Sat M [emptyInitSystem.init] := by
  rintro ⟨σ, hσ⟩
  have h := hσ emptyInitSystem.init (by simp)
  simp [holds, emptyInitSystem, eval, evalAll, M.toBool_ofBool] at h

theorem triviallyUnsafe_sat {D : Type} [DecidableEq D] (M : Interpretation D) :
    Sat M [triviallyUnsafeSystem.init, triviallyUnsafeSystem.query] := by
  refine ⟨fun _ _ => M.const "0" .num, ?_⟩
  intro f hf
  simp only [List.mem_cons, List.mem_singleton, List.not_mem_nil, or_false] at hf
  rcases hf with rfl | rfl
  · rw [triviallyUnsafeSystem, holds_eq_iff]
    simp [eval, x0]
  · exact holds_true M _

/-! ## Properties of the BMC engine -/

/-- C1. Assuming that the check of the SMT session answers SAT exactly when the
conjunction of the asserted formulas is satisfiable: whenever
`solveTransitionSystemInternal` returns UNSAFE with witness `k`, the unrolled formula
`init, tr@0, ..., tr@(k-1), query@k` exists and some assignment satisfies it. -/
theorem unsafe_implies_unrolling_satisfiable {D : Type} [DecidableEq D]
    (M : Interpretation D) (backend : List PTRef → sstat) (system : TransitionSystem)
    (k : Nat) (hbackend : SoundAndComplete M backend)
    (h : solveTransitionSystemInternal backend system = .ok ⟨.UNSAFE, .depth k⟩) :
    ∃ fs, unrolling system k = .ok fs ∧ Sat M fs := by
  obtain ⟨fs, hfs, hsat⟩ := solveTransitionSystemBounded_unsafe backend _ system k h
  exact ⟨fs, hfs, (hbackend fs).mp hsat⟩

theorem unsafe_implies_unrolling_satisfiable_witness :
    ∃ backend : List PTRef → sstat,
      SoundAndComplete arithmetic backend ∧
      solveTransitionSystemInternal backend triviallyUnsafeSystem = .ok ⟨.UNSAFE, .depth 0⟩ ∧
      ∃ fs, unrolling triviallyUnsafeSystem 0 = .ok fs ∧ Sat arithmetic fs := by
  obtain ⟨backend, hb, _⟩ := exists_soundAndComplete arithmetic
  have hsat := triviallyUnsafe_sat arithmetic
  have hrun : solveTransitionSystemInternal backend triviallyUnsafeSystem
      = .ok ⟨.UNSAFE, .depth 0⟩ := by
    refine solveTransitionSystemBounded_first backend _ _ 0 _ ?_ (by norm_num)
      (unrolling_zero _) ((hb _).mpr hsat) (fun i _ hi => absurd hi (Nat.not_lt_zero i))
    have : backend [triviallyUnsafeSystem.init] = .s_True :=
      (hb _).mpr (Sat.mono arithmetic _ _ (by simp) hsat)
    simp [this]
  exact ⟨backend, hb, hrun,
    unsafe_implies_unrolling_satisfiable arithmetic backend triviallyUnsafeSystem 0 hb hrun⟩

/-- C2. Assuming a sound and complete SMT check: whenever
`solveTransitionSystemInternal` answers SAFE, the unrolled formula
`init, tr@0, ..., tr@(k-1), query@k` of every depth `k` is unsatisfiable. -/
theorem safe_implies_no_counterexample {D : Type} [DecidableEq D]
    (M : Interpretation D) (backend : List PTRef → sstat) (system : TransitionSystem)
    (r : TransitionSystemVerificationResult) (hbackend : SoundAndComplete M backend)
    (h : solveTransitionSystemInternal backend system = .ok r) (hr : r.answer = .SAFE) :
    ∀ (k : Nat) (fs : List PTRef), unrolling system k = .ok fs → ¬ Sat M fs := by
  intro k fs hfs hsat
  have hunsat := (solveTransitionSystemBounded_safe backend _ system r h hr).1
  have hinit : Sat M [system.init] :=
    Sat.mono M _ _ (by simpa using init_mem_unrolling system k fs hfs) hsat
  rw [(hbackend _).mpr hinit] at hunsat
  cases hunsat

theorem safe_implies_no_counterexample_witness :
    ∃ backend : List PTRef → sstat,
      SoundAndComplete arithmetic backend ∧
      solveTransitionSystemInternal backend emptyInitSystem
        = .ok ⟨.SAFE, .formula getTerm_false⟩ ∧
      ∀ (k : Nat) (fs : List PTRef), unrolling emptyInitSystem k = .ok fs →
        ¬ Sat arithmetic fs := by
  obtain ⟨backend, hb, hun⟩ := exists_soundAndComplete arithmetic
  have hrun : solveTransitionSystemInternal backend emptyInitSystem
      = .ok ⟨.SAFE, .formula getTerm_false⟩ := by
    unfold solveTransitionSystemInternal
    rw [solveTransitionSystemBounded_eq, if_pos (hun _ (emptyInit_unsat arithmetic))]
  exact ⟨backend, hb, hrun,
    safe_implies_no_counterexample arithmetic backend emptyInitSystem _ hb hrun rfl⟩

/-- C3. Assuming a sound and complete SMT check: if `k`, below the unrolling bound, is
the least depth whose unrolled formula is satisfiable (so that `init` is
satisfiable too), then `solveTransitionSystemInternal` returns UNSAFE with witness
exactly `k`; in particular it returns UNSAFE with witness 0 when `init ∧ query` is
satisfiable, as in scenario S6. -/
theorem least_counterexample_reported {D : Type} [DecidableEq D]
    (M : Interpretation D) (backend : List PTRef → sstat) (system : TransitionSystem)
    (hbackend : SoundAndComplete M backend) :
    (∀ (k : Nat) (fs : List PTRef), k < 2 ^ 64 - 1 →
      Sat M [system.init] → unrolling system k = .ok fs → Sat M fs →
      (∀ i gs, i < k → unrolling system i = .ok gs → ¬ Sat M gs) →
      solveTransitionSystemInternal backend system = .ok ⟨.UNSAFE, .depth k⟩) ∧
    (Sat M [system.init, system.query] →
      solveTransitionSystemInternal backend system = .ok ⟨.UNSAFE, .depth 0⟩) := by
  have main : ∀ (k : Nat) (fs : List PTRef), k < 2 ^ 64 - 1 →
      Sat M [system.init] → unrolling system k = .ok fs → Sat M fs →
      (∀ i gs, i < k → unrolling system i = .ok gs → ¬ Sat M gs) →
      solveTransitionSystemInternal backend system = .ok ⟨.UNSAFE, .depth k⟩ := by
    intro k fs hk hinit hfs hsat hmin
    refine solveTransitionSystemBounded_first backend _ system k fs ?_ hk hfs
      ((hbackend fs).mpr hsat) (fun i gs hi hu hs => hmin i gs hi hu ((hbackend gs).mp hs))
    rw [(hbackend _).mpr hinit]
    simp
  refine ⟨main, fun h => ?_⟩
  exact main 0 _ (by norm_num) (Sat.mono M _ _ (by simp) h) (unrolling_zero system) h
    (fun i _ hi => absurd hi (Nat.not_lt_zero i))

theorem least_counterexample_reported_witness :
    ∃ backend : List PTRef → sstat,
      SoundAndComplete arithmetic backend ∧
      Sat arithmetic [triviallyUnsafeSystem.init, triviallyUnsafeSystem.query] ∧
      solveTransitionSystemInternal backend triviallyUnsafeSystem
        = .ok ⟨.UNSAFE, .depth 0⟩ := by
  obtain ⟨backend, hb, _⟩ := exists_soundAndComplete arithmetic
  exact ⟨backend, hb, triviallyUnsafe_sat arithmetic,
    (least_counterexample_reported arithmetic backend triviallyUnsafeSystem hb).2
      (triviallyUnsafe_sat arithmetic)⟩

/-- C4. `solveTransitionSystemInternal` returns SAFE with the witness formula `false`
when the first check, after asserting only `init`, reports UNSAT, whatever the
transition, the query and the unrolling bound are (no unrolling takes place); and
every SAFE result arises in this way. -/
theorem safe_iff_init_reported_unsat (backend : List PTRef → sstat)
    (system : TransitionSystem) :
    (backend [system.init] = .s_False →
      solveTransitionSystemInternal backend system = .ok ⟨.SAFE, .formula getTerm_false⟩ ∧
      ∀ (n : Nat) (transition query : PTRef),
        solveTransitionSystemBounded backend n ⟨system.init, transition, query⟩
          = .ok ⟨.SAFE, .formula getTerm_false⟩) ∧
    (∀ r, solveTransitionSystemInternal backend system = .ok r → r.answer = .SAFE →
      backend [system.init] = .s_False ∧ r.witness = .formula getTerm_false) := by
  refine ⟨fun h => ⟨?_, fun n t q => ?_⟩, fun r h hr => ?_⟩
  · unfold solveTransitionSystemInternal
    rw [solveTransitionSystemBounded_eq, if_pos h]
  · rw [solveTransitionSystemBounded_eq, if_pos h]
  · obtain ⟨h1, h2⟩ := solveTransitionSystemBounded_safe backend _ system r h hr
    exact ⟨h1, by rw [h2]⟩

theorem safe_iff_init_reported_unsat_witness :
    ∃ backend : List PTRef → sstat,
      SoundAndComplete arithmetic backend ∧
      backend [emptyInitSystem.init] = .s_False ∧
      solveTransitionSystemInternal backend emptyInitSystem
        = .ok ⟨.SAFE, .formula getTerm_false⟩ := by
  obtain ⟨backend, hb, hun⟩ := exists_soundAndComplete arithmetic
  have h0 := hun _ (emptyInit_unsat arithmetic)
  exact ⟨backend, hb, h0, ((safe_iff_init_reported_unsat backend emptyInitSystem).1 h0).1⟩

/-! ## The counter system -/

theorem xAt_zero : xAt 0 = x0 := by decide

theorem xAt_one : xAt 1 = x1 := by decide

theorem sendVarThroughTime_x0 (steps : Int) :
    sendVarThroughTime x0 steps = .ok (xAt steps) := by
  have h1 : rfind ['x', '#', '#', '0'] ['#', '#'] = some 1 := by decide
  have h2 : stoi ['0'] = .ok 0 := by decide
  simp [sendVarThroughTime, x0, isVar, isVersioned, getSymName, h1, bind, Except.bind, pure,
    Except.pure, versionSeparator, h2, xAt, mkVar, getSortRef]

theorem sendVarThroughTime_x1 (steps : Int) :
    sendVarThroughTime x1 steps = .ok (xAt (1 + steps)) := by
  have h1 : rfind ['x', '#', '#', '1'] ['#', '#'] = some 1 := by decide
  have h2 : stoi ['1'] = .ok 1 := by decide
  simp [sendVarThroughTime, x1, isVar, isVersioned, getSymName, h1, bind, Except.bind, pure,
    Except.pure, versionSeparator, h2, xAt, mkVar, getSortRef]

/-- The transition of the counter, shifted by `j`, relates version `j` to version
`j + 1`. -/
theorem counter_transition_shifted (j : Nat) :
    sendFlaThroughTime counterSystem.transition (j : Int) =
      .ok (.eq (xAt (j + 1)) (.app sym_plus [xAt j, .const "1" .num])) := by
  unfold sendFlaThroughTime
  by_cases hj : (j : Int) = 0
  · have : j = 0 := by omega
    subst this
    simp [counterSystem, xAt_zero, xAt_one, pure, Except.pure]
  · rw [if_neg hj]
    have e0 := sendVarThroughTime_x0 j
    have e1 := sendVarThroughTime_x1 j
    simp only [x0, x1] at e0 e1
    simp [counterSystem, Rewriter.rewrite, Rewriter.rewriteArgs, VersioningConfig, isVar, x0,
      x1, e0, e1, bind, Except.bind, pure, Except.pure, add_comm]

/-- The query of the counter, shifted by `j`, speaks of version `j`. -/
theorem counter_query_shifted (j : Nat) :
    sendFlaThroughTime counterSystem.query (j : Int) =
      .ok (.app sym_lt [xAt j, .const "0" .num]) := by
  unfold sendFlaThroughTime
  by_cases hj : (j : Int) = 0
  · have : j = 0 := by omega
    subst this
    simp [counterSystem, xAt_zero, pure, Except.pure]
  · rw [if_neg hj]
    have e0 := sendVarThroughTime_x0 j
    simp only [x0] at e0
    simp [counterSystem, Rewriter.rewrite, Rewriter.rewriteArgs, VersioningConfig, isVar, x0,
      e0, bind, Except.bind, pure, Except.pure]

theorem shiftedTransitions_mem (t : PTRef) :
    ∀ (k : Nat) (fs : List PTRef), shiftedTransitions t k = .ok fs →
      ∀ i, i < k → ∃ f, sendFlaThroughTime t (i : Int) = .ok f ∧ f ∈ fs := by
  intro k
  induction k with
  | zero => intro fs _ i hi; omega
  | succ k ih =>
    intro fs h i hi
    obtain ⟨e, l, he, hl, rfl⟩ := shiftedTransitions_succ_ok t k fs h
    by_cases hik : i = k
    · subst hik; exact ⟨l, hl, by simp⟩
    · obtain ⟨f, hf, hmem⟩ := ih e he i (by omega)
      exact ⟨f, hf, by simp [hmem]⟩

theorem shiftedTransitions_counter_defined :
    ∀ k : Nat, ∃ fs, shiftedTransitions counterSystem.transition k = .ok fs := by
  intro k
  induction k with
  | zero => exact ⟨[], rfl⟩
  | succ k ih =>
    obtain ⟨fs, hfs⟩ := ih
    simp only [shiftedTransitions, hfs, counter_transition_shifted, bind, Except.bind, pure,
      Except.pure]
    exact ⟨_, rfl⟩

theorem unrolling_counter_defined (k : Nat) :
    ∃ fs, unrolling counterSystem k = .ok fs := by
  obtain ⟨fs, hfs⟩ := shiftedTransitions_counter_defined k
  simp only [unrolling, hfs, counter_query_shifted, bind, Except.bind, pure, Except.pure]
  exact ⟨_, rfl⟩

/-- No unrolled formula of the counter is satisfiable in rational arithmetic: along
the unrolling the version `i` of `x` has the value `i`, which is not below 0. -/
theorem unrolling_counter_unsat (k : Nat) (fs : List PTRef)
    (h : unrolling counterSystem k = .ok fs) : ¬ Sat arithmetic fs := by
  rintro ⟨σ, hσ⟩
  simp only [unrolling, Except.bind_ok_iff] at h
  obtain ⟨steps, hsteps, vq, hvq, hfs⟩ := h
  simp [pure, Except.pure] at hfs
  subst hfs
  rw [counter_query_shifted] at hvq
  cases hvq
  have hval : ∀ i : Nat, i ≤ k →
      eval arithmetic σ (xAt (i : Int)) = .inr (i : ℚ) := by
    intro i
    induction i with
    | zero =>
      intro _
      have h0 := hσ counterSystem.init (by simp)
      rw [counterSystem, holds_eq_iff] at h0
      rw [Nat.cast_zero, xAt_zero, h0]
      simp [eval, arithmetic, digitsValue]
    | succ i ih =>
      intro hi
      obtain ⟨f, hf, hmem⟩ := shiftedTransitions_mem _ k steps hsteps i (by omega)
      rw [counter_transition_shifted] at hf
      cases hf
      have hstep := hσ ((xAt ((i : Int) + 1)).eq
        (PTRef.app sym_plus [xAt (i : Int), PTRef.const "1" SRef.num])) (by simp [hmem])
      rw [holds_eq_iff] at hstep
      have hprev := ih (by omega)
      simp only [xAt, eval] at hprev
      push_cast
      rw [hstep]
      simp [xAt, eval, evalArgs, hprev, arithmetic, sym_plus, Value.toRat, digitsValue]
  have hq := hσ (.app sym_lt [xAt k, .const "0" .num]) (by simp)
  have hk := hval k (le_refl _)
  simp only [xAt, eval] at hk
  simp [xAt, holds, eval, evalArgs, hk, arithmetic, sym_lt, Value.toBool, Value.toRat,
    digitsValue] at hq
  have : (0 : ℚ) ≤ (k : ℚ) := Nat.cast_nonneg k
  linarith

/-- The loop exhausts its iterations when the backend accepts no unrolled formula of
the depths it visits. -/
theorem unrollingLoop_exhausted (backend : List PTRef → sstat) (init q t : PTRef) :
    ∀ (n j : Nat) (trs : List PTRef),
      shiftedTransitions t j = .ok trs →
      (∀ i, j ≤ i → i < j + n →
        ∃ gs, unrolling ⟨init, t, q⟩ (i + 1) = .ok gs) →
      (∀ i gs, j ≤ i → i < j + n →
        unrolling ⟨init, t, q⟩ i = .ok gs → backend gs ≠ .s_True) →
      unrollingLoop backend q t n j ⟨[init :: trs]⟩ = .ok ⟨.UNKNOWN, .depth 0⟩ := by
  intro n
  induction n with
  | zero => intro j trs _ _ _; rfl
  | succ n ih =>
    intro j trs htrs hdef hno
    obtain ⟨gs, hgs⟩ := hdef j (le_refl _) (by omega)
    have hgs2 := hgs
    simp only [unrolling, Except.bind_ok_iff] at hgs2
    obtain ⟨steps, hsteps, vq1, hvq1, _⟩ := hgs2
    obtain ⟨e, vt, he, hvt, hst⟩ := shiftedTransitions_succ_ok t j steps hsteps
    rw [htrs] at he
    cases he
    obtain ⟨vq, hvq⟩ := sendFlaThroughTime_defined_of_le q vq1 j (j + 1) (by omega) hvq1
    have hu : unrolling ⟨init, t, q⟩ j = .ok (init :: trs ++ [vq]) := by
      simp [unrolling, htrs, hvq, bind, Except.bind, pure, Except.pure]
    have hns := hno j _ (le_refl _) (by omega) hu
    rw [unrollingLoop_step, hvq]
    simp only [bind, Except.bind]
    rw [if_neg (by simpa using hns), hvt]
    simp only []
    have := ih (j + 1) (trs ++ [vt]) (by rw [hsteps, hst])
      (fun i h1 h2 => hdef i (by omega) (by omega))
      (fun i gs h1 h2 hu2 => hno i gs (by omega) (by omega) hu2)
    simpa using this

/-- On the counter a sound and complete backend lets the engine run out of
unrollings, whatever the bound. -/
theorem counter_bounded_unknown (backend : List PTRef → sstat)
    (hbackend : SoundAndComplete arithmetic backend) (n : Nat) :
    solveTransitionSystemBounded backend n counterSystem = .ok ⟨.UNKNOWN, .depth 0⟩ := by
  have hinit : Sat arithmetic [counterSystem.init] := by
    refine ⟨fun _ _ => .inr 0, fun f hf => ?_⟩
    simp only [List.mem_singleton] at hf
    subst hf
    rw [counterSystem, holds_eq_iff]
    simp [eval, x0, arithmetic, digitsValue]
  rw [solveTransitionSystemBounded_eq, (hbackend _).mpr hinit]
  simp only [reduceCtorEq, if_false]
  exact unrollingLoop_exhausted backend _ _ _ n 0 [] rfl
    (fun i _ _ => unrolling_counter_defined (i + 1))
    (fun i gs _ _ hu hs => unrolling_counter_unsat i gs hu ((hbackend gs).mp hs))

/-- C5, the claim refuted: with a sound and complete SMT check the BMC engine does not
answer SAFE on the counter system S1. -/
theorem counter_safe_refuted :
    ¬ ∀ backend : List PTRef → sstat, SoundAndComplete arithmetic backend →
      ∃ r, solveTransitionSystemInternal backend counterSystem = .ok r ∧
        r.answer = .SAFE := by
  intro h
  obtain ⟨backend, hb, _⟩ := exists_soundAndComplete arithmetic
  obtain ⟨r, hr, hsafe⟩ := h backend hb
  have hrun := counter_bounded_unknown backend hb (2 ^ 64 - 1)
  unfold solveTransitionSystemInternal at hr
  rw [hrun] at hr
  cases hr
  simp at hsafe

/-- C5, as amended: on the counter system S1 (init `x = 0`, transition `x' = x + 1`,
query `x < 0`) the BMC engine, given a sound and complete SMT check, finds no
counterexample at any depth and returns UNKNOWN when the unrolling bound is
exhausted, for the bound of the source and for every other bound; it never answers
SAFE. -/
theorem counter_answer_unknown (backend : List PTRef → sstat)
    (hbackend : SoundAndComplete arithmetic backend) :
    solveTransitionSystemInternal backend counterSystem = .ok ⟨.UNKNOWN, .depth 0⟩ ∧
    ∀ n : Nat,
      solveTransitionSystemBounded backend n counterSystem = .ok ⟨.UNKNOWN, .depth 0⟩ :=
  ⟨counter_bounded_unknown backend hbackend _, counter_bounded_unknown backend hbackend⟩

theorem counter_answer_unknown_witness :
    ∃ backend : List PTRef → sstat,
      SoundAndComplete arithmetic backend ∧
      solveTransitionSystemInternal backend counterSystem = .ok ⟨.UNKNOWN, .depth 0⟩ := by
  obtain ⟨backend, hb, _⟩ := exists_soundAndComplete arithmetic
  exact ⟨backend, hb, (counter_answer_unknown backend hb).1⟩

/-- C6. BMC monotonicity: with the unrolling bound as a parameter and the SMT check a
deterministic oracle, a SAFE or UNSAFE result obtained under the bound `n` is
obtained again, with the same witness, under every bound `m ≥ n`. -/
theorem verdict_stable_under_larger_bound (backend : List PTRef → sstat)
    (system : TransitionSystem) (n m : Nat) (r : TransitionSystemVerificationResult)
    (hnm : n ≤ m) (h : solveTransitionSystemBounded backend n system = .ok r)
    (hr : r.answer = .SAFE ∨ r.answer = .UNSAFE) :
    solveTransitionSystemBounded backend m system = .ok r := by
  refine solveTransitionSystemBounded_mono backend n m system r hnm h ?_
  rcases hr with hr | hr <;> simp [hr]

theorem verdict_stable_under_larger_bound_witness :
    solveTransitionSystemBounded (fun _ => .s_True) 1 triviallyUnsafeSystem
        = .ok ⟨.UNSAFE, .depth 0⟩ ∧
      solveTransitionSystemBounded (fun _ => .s_True) 3 triviallyUnsafeSystem
        = .ok ⟨.UNSAFE, .depth 0⟩ :=
  ⟨by decide,
    verdict_stable_under_larger_bound (fun _ => .s_True) triviallyUnsafeSystem 1 3
      ⟨.UNSAFE, .depth 0⟩ (by decide) (by decide) (Or.inr rfl)⟩

/-- C7. `BMC::solve` dispatches in a fixed order: a trivial graph is answered by
`solveTrivial`; otherwise a transition-system graph is solved by
`solveTransitionSystem`; otherwise, when `fromGeneralLinearCHCSystem` yields no
transition system, the result is UNKNOWN without a witness, whatever the SMT backend
is: no session is opened and no exception is raised. -/
theorem solve_dispatch {Graph W : Type} (ops : GraphOperations Graph W)
    (backend : List PTRef → sstat) (graph : Graph) :
    (ops.isTrivial graph = true → solve ops backend graph = .ok (ops.solveTrivial graph)) ∧
    (ops.isTrivial graph = false → ops.isTransitionSystem graph = true →
      solve ops backend graph = solveTransitionSystem ops backend graph) ∧
    (ops.isTrivial graph = false → ops.isTransitionSystem graph = false →
      ops.fromGeneralLinearCHCSystem graph = none →
      solve ops backend graph = .ok ⟨.UNKNOWN, none⟩ ∧
      ∀ other : List PTRef → sstat, solve ops other graph = solve ops backend graph) := by
  refine ⟨fun h => ?_, fun h1 h2 => ?_, fun h1 h2 h3 => ⟨?_, fun other => ?_⟩⟩
  · simp [solve, h, pure, Except.pure]
  · simp [solve, h1, h2]
  · simp [solve, h1, h2, h3, pure, Except.pure]
  · simp [solve, h1, h2, h3]

theorem solve_dispatch_witness :
    solve exampleOperations (fun _ => .s_True) 0 = .ok ⟨.SAFE, none⟩ ∧
    solve exampleOperations (fun _ => .s_True) 1
      = solveTransitionSystem exampleOperations (fun _ => .s_True) 1 ∧
    solve exampleOperations (fun _ => .s_True) 2 = .ok ⟨.UNKNOWN, none⟩ :=
  ⟨(solve_dispatch exampleOperations (fun _ => .s_True) 0).1 rfl,
    (solve_dispatch exampleOperations (fun _ => .s_True) 1).2.1 rfl rfl,
    ((solve_dispatch exampleOperations (fun _ => .s_True) 2).2.2 rfl rfl rfl).1⟩

/-! ## Lemmas on junct extraction -/

/-- The result vector only grows: the loop started with `res` returns `res` followed
by what it returns when started with the empty vector. -/
theorem getTopLevelJunctsLoop_append (J : Junction) (p : PTRef → Bool)
    (queue isdup : List PtAsgn) (res : List PTRef) :
    getTopLevelJunctsLoop J p queue isdup res =
      res ++ getTopLevelJunctsLoop J p queue isdup [] := by
  refine getTopLevelJunctsLoop.induct J p
    (motive := fun queue isdup _ => ∀ res2, getTopLevelJunctsLoop J p queue isdup res2 =
      res2 ++ getTopLevelJunctsLoop J p queue isdup []) ?_ ?_ ?_ ?_ ?_ queue isdup res res
  · intro isdup _ res2
    simp [getTopLevelJunctsLoop]
  · intro isdup _ pta queue hdup ih res2
    rw [getTopLevelJunctsLoop, if_pos hdup, ih]
    conv_rhs => rw [getTopLevelJunctsLoop, if_pos hdup]
  · intro isdup _ pta queue hdup hc ih res2
    rw [getTopLevelJunctsLoop, if_neg hdup, if_pos hc, ih]
    conv_rhs => rw [getTopLevelJunctsLoop, if_neg hdup, if_pos hc]
  · intro isdup _ pta queue hdup hc ho ih res2
    rw [getTopLevelJunctsLoop, if_neg hdup, if_neg hc, if_pos ho, ih]
    conv_rhs => rw [getTopLevelJunctsLoop, if_neg hdup, if_neg hc, if_pos ho]
  · intro isdup _ pta queue hdup hc ho term ih res2
    rw [getTopLevelJunctsLoop, if_neg hdup, if_neg hc, if_neg ho]
    conv_rhs => rw [getTopLevelJunctsLoop, if_neg hdup, if_neg hc, if_neg ho]
    simp only []
    generalize (if pta.sgn = lbool.l_False then mkNot pta.tr else pta.tr) = t
    rw [ih, ih (if p t = true then [] ++ [t] else [])]
    by_cases hp : p t = true <;> simp [hp]

/-- The filter only selects among the emitted juncts: the loop with a predicate
returns what the loop without one returns, filtered. -/
theorem getTopLevelJunctsLoop_filter (J : Junction) (p : PTRef → Bool)
    (queue isdup : List PtAsgn) :
    getTopLevelJunctsLoop J p queue isdup [] =
      (getTopLevelJunctsLoop J (fun _ => true) queue isdup []).filter p := by
  refine getTopLevelJunctsLoop.induct J p
    (motive := fun queue isdup _ => getTopLevelJunctsLoop J p queue isdup [] =
      (getTopLevelJunctsLoop J (fun _ => true) queue isdup []).filter p)
    ?_ ?_ ?_ ?_ ?_ queue isdup []
  · intro isdup _
    simp [getTopLevelJunctsLoop]
  · intro isdup _ pta queue hdup ih
    rw [getTopLevelJunctsLoop, if_pos hdup, ih]
    conv_rhs => rw [getTopLevelJunctsLoop, if_pos hdup]
  · intro isdup _ pta queue hdup hc ih
    rw [getTopLevelJunctsLoop, if_neg hdup, if_pos hc, ih]
    conv_rhs => rw [getTopLevelJunctsLoop, if_neg hdup, if_pos hc]
  · intro isdup _ pta queue hdup hc ho ih
    rw [getTopLevelJunctsLoop, if_neg hdup, if_neg hc, if_pos ho, ih]
    conv_rhs => rw [getTopLevelJunctsLoop, if_neg hdup, if_neg hc, if_pos ho]
  · intro isdup _ pta queue hdup hc ho term ih
    rw [getTopLevelJunctsLoop, if_neg hdup, if_neg hc, if_neg ho]
    conv_rhs => rw [getTopLevelJunctsLoop, if_neg hdup, if_neg hc, if_neg ho]
    simp only []
    generalize (if pta.sgn = lbool.l_False then mkNot pta.tr else pta.tr) = t
    rw [getTopLevelJunctsLoop_append, ih, if_pos trivial,
      getTopLevelJunctsLoop_append J (fun _ => true) _ _ ([] ++ [t])]
    by_cases hp : p t = true <;> simp [hp]

theorem getTopLevelConjuncts_filter (root : PTRef) (p : PTRef → Bool) :
    getTopLevelConjuncts root p = (getTopLevelConjuncts root (fun _ => true)).filter p := by
  simp only [getTopLevelConjuncts, getTopLevelJuncts]
  exact getTopLevelJunctsLoop_filter _ p _ _

theorem holds_not_iff {D : Type} [DecidableEq D] (M : Interpretation D) (σ : Assignment D)
    (a : PTRef) : holds M σ (.not a) ↔ ¬ holds M σ a := by
  simp [holds, eval, M.toBool_ofBool]

theorem evalAll_iff {D : Type} [DecidableEq D] (M : Interpretation D) (σ : Assignment D) :
    ∀ as : List PTRef, evalAll M σ as = true ↔ ∀ a ∈ as, holds M σ a
  | [] => by simp [evalAll]
  | a :: as => by simp [evalAll, evalAll_iff M σ as, holds]

theorem evalAny_iff {D : Type} [DecidableEq D] (M : Interpretation D) (σ : Assignment D) :
    ∀ as : List PTRef, evalAny M σ as = true ↔ ∃ a ∈ as, holds M σ a
  | [] => by simp [evalAny]
  | a :: as => by simp [evalAny, evalAny_iff M σ as, holds]

theorem holds_and_iff {D : Type} [DecidableEq D] (M : Interpretation D) (σ : Assignment D)
    (as : List PTRef) : holds M σ (.and as) ↔ ∀ a ∈ as, holds M σ a := by
  rw [← evalAll_iff]
  simp [holds, eval, M.toBool_ofBool]

theorem holds_or_iff {D : Type} [DecidableEq D] (M : Interpretation D) (σ : Assignment D)
    (as : List PTRef) : holds M σ (.or as) ↔ ∃ a ∈ as, holds M σ a := by
  rw [← evalAny_iff]
  simp [holds, eval, M.toBool_ofBool]

/-- Purification keeps the meaning of a signed term and yields a defined polarity. -/
theorem purifyLoop_sound {D : Type} [DecidableEq D] (M : Interpretation D)
    (σ : Assignment D) :
    ∀ (t : PTRef) (s : lbool), s ≠ .l_Undef →
      (purifyLoop t s).sgn ≠ .l_Undef ∧
      (holdsSigned M σ (purifyLoop t s) ↔ holdsSigned M σ ⟨t, s⟩)
  | .not a, s, hs => by
      have hx : s.xor true ≠ .l_Undef := by cases s <;> simp [lbool.xor] at hs ⊢
      obtain ⟨h1, h2⟩ := purifyLoop_sound M σ a (s.xor true) hx
      refine ⟨by simpa [purifyLoop] using h1, ?_⟩
      rw [purifyLoop, h2]
      cases s <;> simp [holdsSigned, lbool.xor, holds_not_iff] at hs ⊢
  | .var _ _, s, hs => by simp [purifyLoop, hs]
  | .const _ _, s, hs => by simp [purifyLoop, hs]
  | .and _, s, hs => by simp [purifyLoop, hs]
  | .or _, s, hs => by simp [purifyLoop, hs]
  | .eq _ _, s, hs => by simp [purifyLoop, hs]
  | .app _ _, s, hs => by simp [purifyLoop, hs]

theorem purify_sound {D : Type} [DecidableEq D] (M : Interpretation D) (σ : Assignment D)
    (t : PTRef) :
    (purify t).sgn ≠ .l_Undef ∧ (holdsSigned M σ (purify t) ↔ holds M σ t) := by
  have h := purifyLoop_sound M σ t .l_True (by simp)
  simpa [purify, holdsSigned] using h

/-- The pairs pushed for the children of an expanded node are true when the children
are (`flip = false`), respectively when the children are false (`flip = true`). -/
theorem pushChildren_sound {D : Type} [DecidableEq D] (M : Interpretation D)
    (σ : Assignment D) (flip : Bool) :
    ∀ (cs : List PTRef) (queue : List PtAsgn),
      (∀ c ∈ cs, if flip = true then ¬ holds M σ c else holds M σ c) →
      (∀ p ∈ queue, holdsSigned M σ p) →
      ∀ p ∈ pushChildren flip cs queue, holdsSigned M σ p
  | [], queue, _, hq => by simpa [pushChildren] using hq
  | c :: cs, queue, hcs, hq => by
      rw [pushChildren]
      refine pushChildren_sound M σ flip cs _ (fun d hd => hcs d (by simp [hd])) ?_
      intro p hp
      simp only [List.mem_cons] at hp
      rcases hp with rfl | hp
      · obtain ⟨h1, h2⟩ := purify_sound M σ c
        have hc := hcs c (by simp)
        cases flip
        · simp only [Bool.false_eq_true, if_false] at hc
          have : (purify c).sgn.xor false = (purify c).sgn := by
            cases (purify c).sgn <;> rfl
          rw [this]
          exact h2.mpr hc
        · simp only [if_true] at hc
          rw [← h2] at hc
          revert hc h1
          simp only [holdsSigned]
          cases (purify c).sgn <;> simp [lbool.xor]
      · exact hq p hp

/-- Every term emitted by the loop in Conjunction mode is true under an assignment
that makes the pending pairs and the terms already emitted true. -/
theorem getTopLevelJunctsLoop_sound {D : Type} [DecidableEq D] (M : Interpretation D)
    (σ : Assignment D) (p : PTRef → Bool) (queue isdup : List PtAsgn) (res : List PTRef) :
    (∀ pta ∈ queue, holdsSigned M σ pta) → (∀ c ∈ res, holds M σ c) →
    ∀ c ∈ getTopLevelJunctsLoop Conjunction p queue isdup res, holds M σ c := by
  induction queue, isdup, res using getTopLevelJunctsLoop.induct Conjunction p with
  | case1 isdup res =>
    intro _ hres
    simpa [getTopLevelJunctsLoop] using hres
  | case2 isdup res pta queue hdup ih =>
    intro hq hres
    rw [getTopLevelJunctsLoop, if_pos hdup]
    exact ih (fun x hx => hq x (by simp [hx])) hres
  | case3 isdup res pta queue hdup hc ih =>
    intro hq hres
    rw [getTopLevelJunctsLoop, if_neg hdup, if_pos hc]
    refine ih (pushChildren_sound M σ false _ _ ?_ (fun x hx => hq x (by simp [hx]))) hres
    have hpta := hq pta (by simp)
    simp only [Conjunction, Bool.and_eq_true, decide_eq_true_eq] at hc
    obtain ⟨hand, hsgn⟩ := hc
    simp only [holdsSigned, hsgn, reduceCtorEq, if_false] at hpta
    cases htr : pta.tr <;> simp [htr, isAnd] at hand
    rw [htr, holds_and_iff] at hpta
    simpa [getPterm] using hpta
  | case4 isdup res pta queue hdup hc ho ih =>
    intro hq hres
    rw [getTopLevelJunctsLoop, if_neg hdup, if_neg hc, if_pos ho]
    refine ih (pushChildren_sound M σ true _ _ ?_ (fun x hx => hq x (by simp [hx]))) hres
    have hpta := hq pta (by simp)
    simp only [Conjunction, Bool.and_eq_true, decide_eq_true_eq] at ho
    obtain ⟨hor, hsgn⟩ := ho
    simp only [holdsSigned, hsgn, if_true] at hpta
    cases htr : pta.tr <;> simp [htr, isOr] at hor
    rw [htr, holds_or_iff] at hpta
    simpa [getPterm] using hpta
  | case5 isdup res pta queue hdup hc ho term ih =>
    intro hq hres
    rw [getTopLevelJunctsLoop, if_neg hdup, if_neg hc, if_neg ho]
    refine ih (fun x hx => hq x (by simp [hx])) ?_
    have hpta := hq pta (by simp)
    have hterm : holds M σ (if pta.sgn = lbool.l_False then mkNot pta.tr else pta.tr) := by
      simp only [holdsSigned] at hpta
      split
      · rename_i h; rw [if_pos h] at hpta; rw [mkNot, holds_not_iff]; exact hpta
      · rename_i h; rw [if_neg h] at hpta; exact hpta
    intro c hc2
    split at hc2
    · simp only [List.mem_append, List.mem_singleton] at hc2
      rcases hc2 with h | h
      · exact hres c h
      · rw [h]; exact hterm
    · exact hres c hc2

/-- Every top-level conjunct of a formula is implied by the formula. -/
theorem getTopLevelConjuncts_sound {D : Type} [DecidableEq D] (M : Interpretation D)
    (σ : Assignment D) (root : PTRef) (p : PTRef → Bool) (h : holds M σ root) :
    ∀ c ∈ getTopLevelConjuncts root p, holds M σ c := by
  refine getTopLevelJunctsLoop_sound M σ p _ _ _ ?_ (by simp)
  intro pta hpta
  simp only [List.mem_singleton] at hpta
  rw [hpta]
  exact (purify_sound M σ root).2.mpr h

/-! ## Lemmas on substitution -/

theorem substitutor_rewrite_defined (m : substitutions_map) (t : PTRef) :
    ∃ r, (Substitutor m).rewrite t = .ok r := by
  simp only [Substitutor]
  split <;> exact ⟨_, rfl⟩

mutual
/-- Substitution never fails. -/
theorem substitute_defined (m : substitutions_map) :
    ∀ f : PTRef, ∃ r, Rewriter.rewrite (Substitutor m) f = .ok r
  | .var n s => by
      rw [Rewriter.rewrite]; exact substitutor_rewrite_defined m _
  | .const n s => by
      rw [Rewriter.rewrite]; exact substitutor_rewrite_defined m _
  | .not a => by
      obtain ⟨a2, ha⟩ := substitute_defined m a
      rw [Rewriter.rewrite]
      split
      · rw [ha]; exact substitutor_rewrite_defined m _
      · exact substitutor_rewrite_defined m _
  | .and as => by
      obtain ⟨a2, ha⟩ := substituteArgs_defined m as
      rw [Rewriter.rewrite]
      split
      · rw [ha]; exact substitutor_rewrite_defined m _
      · exact substitutor_rewrite_defined m _
  | .or as => by
      obtain ⟨a2, ha⟩ := substituteArgs_defined m as
      rw [Rewriter.rewrite]
      split
      · rw [ha]; exact substitutor_rewrite_defined m _
      · exact substitutor_rewrite_defined m _
  | .eq l r => by
      obtain ⟨l2, hl⟩ := substitute_defined m l
      obtain ⟨r2, hr⟩ := substitute_defined m r
      rw [Rewriter.rewrite]
      split
      · rw [hl, hr]; exact substitutor_rewrite_defined m _
      · exact substitutor_rewrite_defined m _
  | .app g as => by
      obtain ⟨a2, ha⟩ := substituteArgs_defined m as
      rw [Rewriter.rewrite]
      split
      · rw [ha]; exact substitutor_rewrite_defined m _
      · exact substitutor_rewrite_defined m _
theorem substituteArgs_defined (m : substitutions_map) :
    ∀ fs : List PTRef, ∃ rs, Rewriter.rewriteArgs (Substitutor m) fs = .ok rs
  | [] => ⟨[], rfl⟩
  | f :: fs => by
      obtain ⟨f2, hf⟩ := substitute_defined m f
      obtain ⟨fs2, hfs⟩ := substituteArgs_defined m fs
      exact ⟨f2 :: fs2, by simp [Rewriter.rewriteArgs, hf, hfs, bind, Except.bind, pure,
        Except.pure]⟩
end

theorem varSubstitute_defined (f : PTRef) (m : substitutions_map) :
    ∃ r, varSubstitute f m = .ok r :=
  substitute_defined m f

theorem lookup_single_var (n : String) (s : SRef) (T t : PTRef) :
    List.lookup t [(PTRef.var n s, T)] = if t = .var n s then some T else none := by
  by_cases h : t = .var n s
  · subst h; simp [List.lookup]
  · have : (t == PTRef.var n s) = false := by simpa using h
    simp [List.lookup, this, h]

theorem substitutor_single_other (n : String) (s : SRef) (T t : PTRef)
    (ht : t ≠ .var n s) :
    (Substitutor [(.var n s, T)]).previsit t = true ∧
      (Substitutor [(.var n s, T)]).rewrite t = .ok t := by
  simp [Substitutor, lookup_single_var, ht, pure, Except.pure]

theorem substitutor_single_hit (n : String) (s : SRef) (T : PTRef) :
    (Substitutor [(.var n s, T)]).rewrite (.var n s) = .ok T := by
  simp [Substitutor, lookup_single_var, pure, Except.pure]

mutual
/-- The substitution lemma: the value of `f` with the variable replaced by `T` is the
value of `f` under the assignment that gives the variable the value of `T`. -/
theorem eval_substitute {D : Type} [DecidableEq D] (M : Interpretation D) (σ : Assignment D)
    (n : String) (s : SRef) (T : PTRef) :
    ∀ (f r : PTRef), Rewriter.rewrite (Substitutor [(.var n s, T)]) f = .ok r →
      eval M σ r = eval M (σ.update n s (eval M σ T)) f
  | .var m t, r, h => by
      rw [Rewriter.rewrite] at h
      by_cases hv : PTRef.var m t = .var n s
      · rw [hv, substitutor_single_hit] at h
        cases h
        cases hv
        simp [eval, Assignment.update]
      · rw [(substitutor_single_other n s T _ hv).2] at h
        cases h
        have : ¬ (m = n ∧ t = s) := by
          rintro ⟨rfl, rfl⟩; exact hv rfl
        simp [eval, Assignment.update, this]
  | .const m t, r, h => by
      rw [Rewriter.rewrite, (substitutor_single_other n s T _ (by simp)).2] at h
      cases h
      simp [eval]
  | .not a, r, h => by
      rw [Rewriter.rewrite, if_pos (substitutor_single_other n s T _ (by simp)).1,
        Except.bind_ok_iff] at h
      obtain ⟨a2, ha, h⟩ := h
      rw [(substitutor_single_other n s T _ (by simp)).2] at h
      cases h
      simp [eval, eval_substitute M σ n s T a a2 ha]
  | .and as, r, h => by
      rw [Rewriter.rewrite, if_pos (substitutor_single_other n s T _ (by simp)).1,
        Except.bind_ok_iff] at h
      obtain ⟨a2, ha, h⟩ := h
      rw [(substitutor_single_other n s T _ (by simp)).2] at h
      cases h
      simp [eval, (evalArgs_substitute M σ n s T as a2 ha).1]
  | .or as, r, h => by
      rw [Rewriter.rewrite, if_pos (substitutor_single_other n s T _ (by simp)).1,
        Except.bind_ok_iff] at h
      obtain ⟨a2, ha, h⟩ := h
      rw [(substitutor_single_other n s T _ (by simp)).2] at h
      cases h
      simp [eval, (evalArgs_substitute M σ n s T as a2 ha).2.1]
  | .eq l r0, r, h => by
      rw [Rewriter.rewrite, if_pos (substitutor_single_other n s T _ (by simp)).1,
        Except.bind_ok_iff] at h
      obtain ⟨l2, hl, h⟩ := h
      rw [Except.bind_ok_iff] at h
      obtain ⟨r2, hr, h⟩ := h
      rw [(substitutor_single_other n s T _ (by simp)).2] at h
      cases h
      simp [eval, eval_substitute M σ n s T l l2 hl, eval_substitute M σ n s T r0 r2 hr]
  | .app g as, r, h => by
      rw [Rewriter.rewrite, if_pos (substitutor_single_other n s T _ (by simp)).1,
        Except.bind_ok_iff] at h
      obtain ⟨a2, ha, h⟩ := h
      rw [(substitutor_single_other n s T _ (by simp)).2] at h
      cases h
      simp [eval, (evalArgs_substitute M σ n s T as a2 ha).2.2]
theorem evalArgs_substitute {D : Type} [DecidableEq D] (M : Interpretation D)
    (σ : Assignment D) (n : String) (s : SRef) (T : PTRef) :
    ∀ (fs rs : List PTRef), Rewriter.rewriteArgs (Substitutor [(.var n s, T)]) fs = .ok rs →
      evalAll M σ rs = evalAll M (σ.update n s (eval M σ T)) fs ∧
      evalAny M σ rs = evalAny M (σ.update n s (eval M σ T)) fs ∧
      evalArgs M σ rs = evalArgs M (σ.update n s (eval M σ T)) fs
  | [], rs, h => by
      cases h
      simp [evalAll, evalAny, evalArgs]
  | f :: fs, rs, h => by
      rw [Rewriter.rewriteArgs, Except.bind_ok_iff] at h
      obtain ⟨f2, hf, h⟩ := h
      rw [Except.bind_ok_iff] at h
      obtain ⟨fs2, hfs, h⟩ := h
      cases h
      obtain ⟨h1, h2, h3⟩ := evalArgs_substitute M σ n s T fs fs2 hfs
      simp [evalAll, evalAny, evalArgs, eval_substitute M σ n s T f f2 hf, h1, h2, h3]
end

mutual
/-- The value of a term does not depend on a variable that does not occur in it. -/
theorem eval_update_of_not_mem {D : Type} [DecidableEq D] (M : Interpretation D)
    (σ : Assignment D) (n : String) (s : SRef) (a : D) :
    ∀ f : PTRef, PTRef.var n s ∉ collectVars f →
      eval M (σ.update n s a) f = eval M σ f
  | .var m t, h => by
      have : ¬ (m = n ∧ t = s) := by
        rintro ⟨rfl, rfl⟩; simp [collectVars] at h
      simp [eval, Assignment.update, this]
  | .const m t, h => by simp [eval]
  | .not x, h => by
      simp only [collectVars] at h
      simp [eval, eval_update_of_not_mem M σ n s a x h]
  | .and xs, h => by
      simp only [collectVars] at h
      simp [eval, (evalArgs_update_of_not_mem M σ n s a xs h).1]
  | .or xs, h => by
      simp only [collectVars] at h
      simp [eval, (evalArgs_update_of_not_mem M σ n s a xs h).2.1]
  | .eq l r, h => by
      simp only [collectVars, List.mem_append, not_or] at h
      simp [eval, eval_update_of_not_mem M σ n s a l h.1,
        eval_update_of_not_mem M σ n s a r h.2]
  | .app g xs, h => by
      simp only [collectVars] at h
      simp [eval, (evalArgs_update_of_not_mem M σ n s a xs h).2.2]
theorem evalArgs_update_of_not_mem {D : Type} [DecidableEq D] (M : Interpretation D)
    (σ : Assignment D) (n : String) (s : SRef) (a : D) :
    ∀ fs : List PTRef, PTRef.var n s ∉ collectVarsArgs fs →
      evalAll M (σ.update n s a) fs = evalAll M σ fs ∧
      evalAny M (σ.update n s a) fs = evalAny M σ fs ∧
      evalArgs M (σ.update n s a) fs = evalArgs M σ fs
  | [], _ => by simp [evalAll, evalAny, evalArgs]
  | f :: fs, h => by
      simp only [collectVarsArgs, List.mem_append, not_or] at h
      obtain ⟨h1, h2, h3⟩ := evalArgs_update_of_not_mem M σ n s a fs h.2
      simp [evalAll, evalAny, evalArgs, eval_update_of_not_mem M σ n s a f h.1, h1, h2, h3]
end

theorem Assignment.update_update {D : Type} (σ : Assignment D) (n : String) (s : SRef)
    (a b : D) : (σ.update n s a).update n s b = σ.update n s b := by
  funext m t
  simp only [Assignment.update]
  split <;> rfl

theorem Assignment.update_self {D : Type} (σ : Assignment D) (n : String) (s : SRef) :
    σ.update n s (σ n s) = σ := by
  funext m t
  simp only [Assignment.update]
  split
  · rename_i h; rw [h.1, h.2]
  · rfl

/-! ## Lemmas on trivial quantifier elimination -/

/-- Replacing a variable by a term that the formula forces it to equal preserves the
existential closure over the variable. -/
theorem substitution_exists_equiv {D : Type} [DecidableEq D] (M : Interpretation D)
    (n : String) (s : SRef) (T F R : PTRef)
    (hR : Rewriter.rewrite (Substitutor [(.var n s, T)]) F = .ok R)
    (hdef : ∀ τ : Assignment D, holds M τ F → τ n s = eval M τ T) (σ : Assignment D) :
    (∃ a, holds M (σ.update n s a) F) ↔ (∃ a, holds M (σ.update n s a) R) := by
  constructor
  · rintro ⟨a, ha⟩
    refine ⟨a, ?_⟩
    have h1 := hdef _ ha
    have h2 := eval_substitute M (σ.update n s a) n s T F R hR
    rw [← h1] at h2
    have h3 : (σ.update n s a) n s = a := by simp [Assignment.update]
    rw [h3, Assignment.update_update] at h2
    simpa [holds, h2] using ha
  · rintro ⟨a, ha⟩
    have h2 := eval_substitute M (σ.update n s a) n s T F R hR
    rw [Assignment.update_update] at h2
    exact ⟨_, by simpa [holds, h2] using ha⟩

theorem isDefinitionOf_iff (var c : PTRef) :
    isDefinitionOf var c = true ↔ ∃ l r, c = .eq l r ∧ (l = var ∨ r = var) := by
  cases c <;> simp [isDefinitionOf]
  rename_i l r
  exact ⟨fun h => ⟨l, r, ⟨rfl, rfl⟩, h⟩, fun ⟨_, _, ⟨h1, h2⟩, h⟩ => by rw [h1, h2]; exact h⟩

/-- The substitution of a simple definition maps the variable to the other side. -/
theorem definitionSubstitution_eq (var l r : PTRef) (h : l = var ∨ r = var) :
    definitionSubstitution var (.eq l r) = [(var, if l = var then r else l)] := by
  by_cases hl : l = var
  · simp [definitionSubstitution, hl]
  · have hr : r = var := h.resolve_left hl
    simp [definitionSubstitution, hl, hr]

/-- The three outcomes of `eliminateVar` on a variable. -/
theorem eliminateVar_cases (tryGet : PTRef → PTRef → Option PTRef) (var F : PTRef)
    (hvar : isVar var = true) :
    (∃ l r, (getTopLevelConjuncts F isEquality).find? (isDefinitionOf var) = some (.eq l r) ∧
        (l = var ∨ r = var) ∧
        eliminateVar tryGet var F = varSubstitute F [(var, if l = var then r else l)]) ∨
    (∃ e T, (getTopLevelConjuncts F isEquality).find? (isDefinitionOf var) = none ∧
        (getTopLevelConjuncts F isEquality).find? (containsVar var) = some e ∧
        tryGet var e = some T ∧
        eliminateVar tryGet var F = varSubstitute F [(var, T)]) ∨
    ((getTopLevelConjuncts F isEquality).find? (isDefinitionOf var) = none ∧
        (∀ e, (getTopLevelConjuncts F isEquality).find? (containsVar var) = some e →
          tryGet var e = none) ∧
        eliminateVar tryGet var F = .ok F) := by
  unfold eliminateVar
  rw [if_pos hvar]
  simp only []
  cases h1 : (getTopLevelConjuncts F isEquality).find? (isDefinitionOf var) with
  | some e =>
    left
    have hdef := List.find?_some h1
    obtain ⟨l, r, rfl, hlr⟩ := (isDefinitionOf_iff var e).mp hdef
    exact ⟨l, r, rfl, hlr, by
      show varSubstitute F (definitionSubstitution var (l.eq r)) = _
      rw [definitionSubstitution_eq var l r hlr]⟩
  | none =>
    right
    cases h2 : (getTopLevelConjuncts F isEquality).find? (containsVar var) with
    | none => right; exact ⟨rfl, by simp, rfl⟩
    | some e =>
      cases h3 : tryGet var e with
      | none =>
        right
        refine ⟨rfl, ?_, by simp only [h3]; rfl⟩
        intro e2 he2
        cases he2
        exact h3
      | some T => left; exact ⟨e, T, rfl, rfl, h3, by simp only [h3]⟩

theorem sampleFormula_conjuncts :
    getTopLevelConjuncts sampleFormula (fun _ => true) =
      [.app sym_lt [x0, .const "7" .num], .eq x0 (.const "5" .num)] := by
  simp [getTopLevelConjuncts, getTopLevelJuncts, sampleFormula, getTopLevelJunctsLoop, purify,
    purifyLoop, Conjunction, pushChildren, isAnd, isOr, getPterm, lbool.xor, mkNot, x0]

theorem sampleFormula_equalities :
    getTopLevelConjuncts sampleFormula isEquality = [.eq x0 (.const "5" .num)] := by
  rw [getTopLevelConjuncts_filter, sampleFormula_conjuncts]
  simp [isEquality]

theorem sampleFormula_eliminated :
    eliminateVar noSubstitution x0 sampleFormula =
      .ok (.and [.eq (.const "5" .num) (.const "5" .num),
        .app sym_lt [.const "5" .num, .const "7" .num]]) := by
  unfold eliminateVar
  rw [sampleFormula_equalities]
  decide

/-! ## Properties of trivial quantifier elimination -/

/-- C8. Trivial QE soundness: if `tryGetSubstitutionFromEquality` returns either
nothing or a term `t` such that `v = t` is equivalent to the given equality, then for
every formula `F` and variable `v` the call `eliminateVar(v, F)` returns a formula
`R` that is equivalent to `F` under existential closure over `v`: under every
assignment of the other variables some value of `v` satisfies `F` iff some value of
`v` satisfies `R`; and when `v` does not occur in `R`, then `R` is equivalent to
`∃ v. F`. -/
theorem eliminateVar_sound {D : Type} [DecidableEq D] (M : Interpretation D)
    (tryGet : PTRef → PTRef → Option PTRef)
    (hsolve : ∀ v e t, tryGet v e = some t →
      ∀ σ : Assignment D, holds M σ (.eq v t) ↔ holds M σ e)
    (name : String) (sort : SRef) (F : PTRef) :
    ∃ R, eliminateVar tryGet (.var name sort) F = .ok R ∧
      ∀ σ : Assignment D,
        ((∃ a, holds M (σ.update name sort a) F) ↔
          (∃ a, holds M (σ.update name sort a) R)) ∧
        (PTRef.var name sort ∉ getVars R →
          (holds M σ R ↔ ∃ a, holds M (σ.update name sort a) F)) := by
  have key : ∃ R, eliminateVar tryGet (.var name sort) F = .ok R ∧
      ∀ σ : Assignment D, (∃ a, holds M (σ.update name sort a) F) ↔
        (∃ a, holds M (σ.update name sort a) R) := by
    rcases eliminateVar_cases tryGet (.var name sort) F rfl with
      ⟨l, r, hfind, hlr, hres⟩ | ⟨e, T, _, hfind, hT, hres⟩ | ⟨_, _, hres⟩
    · obtain ⟨R, hR⟩ := varSubstitute_defined F
        [(.var name sort, if l = .var name sort then r else l)]
      refine ⟨R, by rw [hres, hR], fun σ => ?_⟩
      refine substitution_exists_equiv M name sort _ F R hR (fun τ hτ => ?_) σ
      have hmem := List.mem_of_find?_eq_some hfind
      have heq := getTopLevelConjuncts_sound M τ F isEquality hτ _ hmem
      rw [holds_eq_iff] at heq
      by_cases hl : l = .var name sort
      · rw [if_pos hl, ← heq, hl]; rfl
      · have hr : r = .var name sort := hlr.resolve_left hl
        rw [if_neg hl, heq, hr]; rfl
    · obtain ⟨R, hR⟩ := varSubstitute_defined F [(.var name sort, T)]
      refine ⟨R, by rw [hres, hR], fun σ => ?_⟩
      refine substitution_exists_equiv M name sort _ F R hR (fun τ hτ => ?_) σ
      have hmem := List.mem_of_find?_eq_some hfind
      have he := getTopLevelConjuncts_sound M τ F isEquality hτ _ hmem
      have heq := (hsolve _ e T hT τ).mpr he
      rw [holds_eq_iff] at heq
      exact heq
    · exact ⟨F, hres, fun σ => Iff.rfl⟩
  obtain ⟨R, hR, hequiv⟩ := key
  refine ⟨R, hR, fun σ => ⟨hequiv σ, fun hfree => ?_⟩⟩
  rw [hequiv σ]
  have hnot : PTRef.var name sort ∉ collectVars R := by
    simpa [getVars] using hfree
  have hind : ∀ a, holds M (σ.update name sort a) R ↔ holds M σ R := by
    intro a
    simp [holds, eval_update_of_not_mem M σ name sort a R hnot]
  exact ⟨fun h => ⟨σ name sort, (hind _).mpr h⟩, fun ⟨a, ha⟩ => (hind a).mp ha⟩

theorem eliminateVar_sound_witness :
    eliminateVar noSubstitution x0 sampleFormula =
      .ok (.and [.eq (.const "5" .num) (.const "5" .num),
        .app sym_lt [.const "5" .num, .const "7" .num]]) ∧
    ∃ R, eliminateVar noSubstitution (.var "x##0" .num) sampleFormula = .ok R ∧
      ∀ σ : Assignment Value,
        ((∃ a, holds arithmetic (σ.update "x##0" .num a) sampleFormula) ↔
          (∃ a, holds arithmetic (σ.update "x##0" .num a) R)) ∧
        (PTRef.var "x##0" .num ∉ getVars R →
          (holds arithmetic σ R ↔
            ∃ a, holds arithmetic (σ.update "x##0" .num a) sampleFormula)) :=
  ⟨sampleFormula_eliminated,
    eliminateVar_sound arithmetic noSubstitution
      (fun _ _ _ h => by simp [noSubstitution] at h) "x##0" .num sampleFormula⟩

/-- C9. If some top-level conjunct of `F` is an equality that has the variable `var`
as its left or right side, then `eliminateVar(var, F)` is
`varSubstitute(F, {var ↦ T})`, where `T` is the other side of the first such equality
in the order returned by `getTopLevelConjuncts`; this holds whatever the solving
helper would return for any equality. -/
theorem eliminateVar_simple_definition (tryGet : PTRef → PTRef → Option PTRef)
    (var F : PTRef) (hvar : isVar var = true)
    (hex : ∃ l r, PTRef.eq l r ∈ getTopLevelConjuncts F (fun _ => true) ∧
      (l = var ∨ r = var)) :
    ∃ lhs rhs,
      (getTopLevelConjuncts F (fun _ => true)).find? (isDefinitionOf var)
        = some (.eq lhs rhs) ∧
      (lhs = var ∨ rhs = var) ∧
      eliminateVar tryGet var F = varSubstitute F [(var, if lhs = var then rhs else lhs)] := by
  have hfilter : (getTopLevelConjuncts F isEquality).find? (isDefinitionOf var) =
      (getTopLevelConjuncts F (fun _ => true)).find? (isDefinitionOf var) := by
    rw [getTopLevelConjuncts_filter F isEquality, List.find?_filter]
    congr 1
    funext c
    cases c <;> simp [isEquality, isDefinitionOf]
  obtain ⟨l, r, hmem, hlr⟩ := hex
  rcases eliminateVar_cases tryGet var F hvar with
    ⟨lhs, rhs, hfind, hside, hres⟩ | ⟨_, _, hnone, _⟩ | ⟨hnone, _⟩
  · exact ⟨lhs, rhs, by rw [← hfilter, hfind], hside, hres⟩
  · rw [hfilter, List.find?_eq_none] at hnone
    exact absurd ((isDefinitionOf_iff var _).mpr ⟨l, r, rfl, hlr⟩) (hnone _ hmem)
  · rw [hfilter, List.find?_eq_none] at hnone
    exact absurd ((isDefinitionOf_iff var _).mpr ⟨l, r, rfl, hlr⟩) (hnone _ hmem)

theorem eliminateVar_simple_definition_witness :
    isVar x0 = true ∧
    PTRef.eq x0 (.const "5" .num) ∈ getTopLevelConjuncts sampleFormula (fun _ => true) ∧
    ∃ lhs rhs,
      (getTopLevelConjuncts sampleFormula (fun _ => true)).find? (isDefinitionOf x0)
        = some (.eq lhs rhs) ∧
      (lhs = x0 ∨ rhs = x0) ∧
      eliminateVar noSubstitution x0 sampleFormula
        = varSubstitute sampleFormula [(x0, if lhs = x0 then rhs else lhs)] :=
  ⟨rfl, by rw [sampleFormula_conjuncts]; simp,
    eliminateVar_simple_definition noSubstitution x0 sampleFormula rfl
      ⟨x0, .const "5" .num, by rw [sampleFormula_conjuncts]; simp, Or.inl rfl⟩⟩

theorem eliminateVar_defined (tryGet : PTRef → PTRef → Option PTRef) (var F : PTRef)
    (hvar : isVar var = true) : ∃ R, eliminateVar tryGet var F = .ok R := by
  rcases eliminateVar_cases tryGet var F hvar with
    ⟨l, r, _, _, hres⟩ | ⟨_, T, _, _, _, hres⟩ | ⟨_, _, hres⟩
  · rw [hres]; exact varSubstitute_defined _ _
  · rw [hres]; exact varSubstitute_defined _ _
  · exact ⟨F, hres⟩

theorem containsVar_of_isDefinitionOf (var e : PTRef) (hvar : isVar var = true)
    (h : isDefinitionOf var e = true) : containsVar var e = true := by
  obtain ⟨l, r, rfl, hlr⟩ := (isDefinitionOf_iff var e).mp h
  cases var <;> simp [isVar] at hvar
  rcases hlr with rfl | rfl <;> simp [containsVar, getVars, collectVars]

/-- C10. When `var` is a variable and no top-level equality of `F` contains `var`, or
no top-level equality defines `var` and the one attempt to solve the first equality
that contains `var` yields no substitution, `eliminateVar(var, F)` returns `F`
itself and raises nothing; consequently `eliminateVars(vars, F)` returns a formula,
without raising, for every list of variables, and `eliminateVars([], F)` is `F`. -/
theorem eliminateVar_incomplete (tryGet : PTRef → PTRef → Option PTRef) :
    (∀ var F : PTRef, isVar var = true →
      (∀ e ∈ getTopLevelConjuncts F isEquality, var ∉ getVars e) →
      eliminateVar tryGet var F = .ok F) ∧
    (∀ var F e : PTRef, isVar var = true →
      (getTopLevelConjuncts F isEquality).find? (isDefinitionOf var) = none →
      (getTopLevelConjuncts F isEquality).find? (containsVar var) = some e →
      tryGet var e = none →
      eliminateVar tryGet var F = .ok F) ∧
    (∀ (vars : List PTRef) (F : PTRef), (∀ v ∈ vars, isVar v = true) →
      ∃ R, eliminateVars tryGet vars F = .ok R) ∧
    (∀ F : PTRef, eliminateVars tryGet [] F = .ok F) := by
  refine ⟨?_, ?_, ?_, fun F => rfl⟩
  · intro var F hvar hno
    have hcontains : ∀ e ∈ getTopLevelConjuncts F isEquality, containsVar var e = false := by
      intro e he
      simpa [containsVar] using hno e he
    rcases eliminateVar_cases tryGet var F hvar with
      ⟨l, r, hfind, _, _⟩ | ⟨e, _, _, hfind, _, _⟩ | ⟨_, _, hres⟩
    · have h1 := containsVar_of_isDefinitionOf var _ hvar (List.find?_some hfind)
      rw [hcontains _ (List.mem_of_find?_eq_some hfind)] at h1
      cases h1
    · have h1 := List.find?_some hfind
      rw [hcontains _ (List.mem_of_find?_eq_some hfind)] at h1
      cases h1
    · exact hres
  · intro var F e hvar hnodef hfirst hnone
    rcases eliminateVar_cases tryGet var F hvar with
      ⟨l, r, hfind, _, _⟩ | ⟨e2, T, _, hfind, hT, _⟩ | ⟨_, _, hres⟩
    · rw [hnodef] at hfind; cases hfind
    · rw [hfirst] at hfind
      cases hfind
      rw [hnone] at hT
      cases hT
    · exact hres
  · intro vars
    induction vars with
    | nil => intro F _; exact ⟨F, rfl⟩
    | cons v vs ih =>
      intro F hv
      obtain ⟨R, hR⟩ := eliminateVar_defined tryGet v F (hv v (by simp))
      obtain ⟨R2, hR2⟩ := ih R (fun w hw => hv w (by simp [hw]))
      exact ⟨R2, by simp [eliminateVars, hR, hR2, bind, Except.bind]⟩

theorem sampleEquation_equalities :
    getTopLevelConjuncts sampleEquation isEquality = [sampleEquation] := by
  simp [getTopLevelConjuncts, getTopLevelJuncts, sampleEquation, getTopLevelJunctsLoop, purify,
    purifyLoop, Conjunction, isAnd, isOr, lbool.xor, isEquality]

theorem eliminateVar_incomplete_witness :
    eliminateVar noSubstitution (.var "y" .num) sampleFormula = .ok sampleFormula ∧
    eliminateVar noSubstitution x0 sampleEquation = .ok sampleEquation ∧
    (∃ R, eliminateVars noSubstitution [.var "y" .num, x0] sampleFormula = .ok R) ∧
    eliminateVars noSubstitution [] sampleFormula = .ok sampleFormula :=
  ⟨(eliminateVar_incomplete noSubstitution).1 (.var "y" .num) sampleFormula rfl
      (by rw [sampleFormula_equalities]; decide),
    (eliminateVar_incomplete noSubstitution).2.1 x0 sampleEquation sampleEquation rfl
      (by rw [sampleEquation_equalities]; decide)
      (by rw [sampleEquation_equalities]; decide) rfl,
    (eliminateVar_incomplete noSubstitution).2.2.1 [.var "y" .num, x0] sampleFormula
      (by decide),
    (eliminateVar_incomplete noSubstitution).2.2.2 sampleFormula⟩

/-! ## Failure behaviour of trivial quantifier elimination -/

theorem sampleInequality_equalities :
    getTopLevelConjuncts sampleInequality isEquality = [] := by
  simp [getTopLevelConjuncts, getTopLevelJuncts, sampleInequality, getTopLevelJunctsLoop,
    purify, purifyLoop, Conjunction, isAnd, isOr, lbool.xor, isEquality, mkNot]

/-- At the variable `x` and the formula `x < 7`, which has no top-level equality,
`eliminateVar` neither eliminates `x` nor throws: it returns the formula unchanged,
with `x` still occurring in it, whatever the solving helper is. -/
theorem eliminateVar_keeps_variable (tryGet : PTRef → PTRef → Option PTRef) :
    eliminateVar tryGet x0 sampleInequality = .ok sampleInequality ∧
      x0 ∈ getVars sampleInequality := by
  refine ⟨?_, by decide⟩
  rcases eliminateVar_cases tryGet x0 sampleInequality rfl with
    ⟨l, r, hfind, _, _⟩ | ⟨e, _, _, hfind, _, _⟩ | ⟨_, _, hres⟩
  · rw [sampleInequality_equalities] at hfind; cases hfind
  · rw [sampleInequality_equalities] at hfind; cases hfind
  · exact hres

theorem eliminateVar_error_iff (tryGet : PTRef → PTRef → Option PTRef) (var F : PTRef) :
    eliminateVar tryGet var F = .error .invalid_argument ↔ isVar var = false := by
  constructor
  · intro h
    by_cases hvar : isVar var = true
    · obtain ⟨R, hR⟩ := eliminateVar_defined tryGet var F hvar
      rw [hR] at h
      cases h
    · simpa using hvar
  · intro h
    simp [eliminateVar, h, throw, throwThe, MonadExceptOf.throw]

/-- C12. `eliminateVar(var, F)` signals the invalid-input error if and only if `var`
is not a variable term; for a variable it returns a formula and signals no error at
all, whatever `F` is. -/
theorem eliminateVar_invalid_input_iff (tryGet : PTRef → PTRef → Option PTRef)
    (var F : PTRef) :
    (eliminateVar tryGet var F = .error .invalid_argument ↔ isVar var = false) ∧
    (isVar var = true → ∃ R, eliminateVar tryGet var F = .ok R) ∧
    (∀ e, eliminateVar tryGet var F = .error e → e = .invalid_argument) := by
  refine ⟨eliminateVar_error_iff tryGet var F, eliminateVar_defined tryGet var F, ?_⟩
  intro e he
  by_cases hvar : isVar var = true
  · obtain ⟨R, hR⟩ := eliminateVar_defined tryGet var F hvar
    rw [hR] at he
    cases he
  · have h := (eliminateVar_error_iff tryGet var F).mpr (by simpa using hvar)
    rw [h] at he
    cases he
    rfl

theorem eliminateVar_invalid_input_iff_witness :
    eliminateVar noSubstitution (.const "5" .num) sampleFormula = .error .invalid_argument ∧
    ∃ R, eliminateVar noSubstitution x0 sampleFormula = .ok R :=
  ⟨(eliminateVar_invalid_input_iff noSubstitution (.const "5" .num) sampleFormula).1.mpr rfl,
    (eliminateVar_invalid_input_iff noSubstitution x0 sampleFormula).2.1 rfl⟩

/-! ## Properties of junct extraction -/

theorem getTopLevelJuncts_filter (J : Junction) (root : PTRef) (p : PTRef → Bool) :
    getTopLevelJuncts J root p = (getTopLevelJuncts J root (fun _ => true)).filter p :=
  getTopLevelJunctsLoop_filter J p _ _

/-- C15. The filter only selects among the emitted leaves: for every junction kind,
root `R` and predicate `p`, the list `getTopLevelJuncts(R, p)` is the list
`getTopLevelJuncts(R, true)` with the elements that do not satisfy `p` removed, in the
same order; every returned term satisfies `p`. -/
theorem filter_selects_among_juncts (J : Junction) (root : PTRef) (p : PTRef → Bool) :
    getTopLevelJuncts J root p = (getTopLevelJuncts J root (fun _ => true)).filter p ∧
    (∀ c ∈ getTopLevelJuncts J root p, p c = true) ∧
    List.Sublist (getTopLevelJuncts J root p) (getTopLevelJuncts J root (fun _ => true)) := by
  have h := getTopLevelJuncts_filter J root p
  refine ⟨h, ?_, ?_⟩
  · intro c hc
    rw [h] at hc
    exact (List.mem_filter.mp hc).2
  · rw [h]
    exact List.filter_sublist _

theorem purify_of_not_isNot (a : PTRef) (h : isNot a = false) : purify a = ⟨a, .l_True⟩ := by
  cases a <;> simp [isNot] at h <;> simp [purify, purifyLoop]

/-- The children are placed on the worklist with the last child on top. -/
theorem pushChildren_atoms (cs : List PTRef) (h : ∀ c ∈ cs, isNot c = false) :
    ∀ queue : List PtAsgn,
      pushChildren false cs queue = (cs.map (fun c => PtAsgn.mk c .l_True)).reverse ++ queue := by
  induction cs with
  | nil => intro queue; simp [pushChildren]
  | cons c cs ih =>
    intro queue
    rw [pushChildren, ih (fun d hd => h d (by simp [hd])),
      purify_of_not_isNot c (h c (by simp))]
    simp [lbool.xor]

/-- A worklist of distinct positive atoms is emitted from its top to its bottom. -/
theorem getTopLevelJunctsLoop_atoms (p : PTRef → Bool) :
    ∀ (atoms : List PTRef) (isdup : List PtAsgn) (res : List PTRef),
      (∀ a ∈ atoms, isAnd a = false) → atoms.Nodup →
      (∀ a ∈ atoms, PtAsgn.mk a .l_True ∉ isdup) →
      getTopLevelJunctsLoop Conjunction p (atoms.map (fun a => PtAsgn.mk a .l_True)) isdup res
        = res ++ atoms.filter p := by
  intro atoms
  induction atoms with
  | nil => intro isdup res _ _ _; simp [getTopLevelJunctsLoop]
  | cons a atoms ih =>
    intro isdup res hand hnodup hfresh
    have hdup : PtAsgn.mk a .l_True ∉ isdup := hfresh a (by simp)
    have ha : isAnd a = false := hand a (by simp)
    rw [List.map_cons, getTopLevelJunctsLoop, if_neg hdup, if_neg (by simp [Conjunction, ha]),
      if_neg (by simp)]
    simp only [reduceCtorEq, if_false]
    rw [ih _ _ (fun b hb => hand b (by simp [hb])) (List.nodup_cons.mp hnodup).2]
    · by_cases hp : p a = true <;> simp [hp, List.filter_cons]
    · intro b hb hmem
      simp only [List.mem_cons, PtAsgn.mk.injEq, and_true] at hmem
      rcases hmem with h | h
      · subst h
        exact (List.nodup_cons.mp hnodup).1 hb
      · exact hfresh b (by simp [hb]) h

/-- The top-level conjuncts of a conjunction of distinct atoms are its arguments in
reverse order. -/
theorem getTopLevelConjuncts_and_atoms (atoms : List PTRef)
    (hatom : ∀ a ∈ atoms, isAnd a = false ∧ isNot a = false) (hnodup : atoms.Nodup) :
    getTopLevelConjuncts (.and atoms) (fun _ => true) = atoms.reverse := by
  simp only [getTopLevelConjuncts, getTopLevelJuncts]
  have hroot : purify (.and atoms) = ⟨.and atoms, .l_True⟩ := rfl
  rw [hroot, getTopLevelJunctsLoop, if_neg (by simp), if_pos (by simp [Conjunction, isAnd])]
  simp only [getPterm]
  rw [pushChildren_atoms atoms (fun c hc => (hatom c hc).2), List.append_nil, ← List.map_reverse,
    getTopLevelJunctsLoop_atoms _ atoms.reverse _ _
      (fun a ha => (hatom a (List.mem_reverse.mp ha)).1) (List.nodup_reverse.mpr hnodup)]
  · simp
  · intro a ha hmem
    simp only [List.mem_singleton, PtAsgn.mk.injEq, and_true] at hmem
    have := (hatom a (List.mem_reverse.mp ha)).1
    rw [hmem] at this
    simp [isAnd] at this

/-- C16, refuted as stated: on the conjunction `and(a, b)` of two distinct atoms
`getTopLevelConjuncts` returns `[b, a]`, not `[a, b]`. -/
theorem conjuncts_not_in_argument_order :
    getTopLevelConjuncts (.and [atomA, atomB]) (fun _ => true) = [atomB, atomA] ∧
      getTopLevelConjuncts (.and [atomA, atomB]) (fun _ => true) ≠ [atomA, atomB] := by
  have h : getTopLevelConjuncts (.and [atomA, atomB]) (fun _ => true) = [atomB, atomA] :=
    getTopLevelConjuncts_and_atoms [atomA, atomB] (by decide) (by decide)
  refine ⟨h, ?_⟩
  rw [h]
  decide

/-- C16, as amended: the worklist of `getTopLevelJuncts` is a stack, so the children
of an expanded node are processed last child first; the juncts are emitted in the
order in which their pairs are taken from the worklist, and for a conjunction
`and(a1, ..., an)` of distinct atoms (none an `and`, `or` or `not`)
`getTopLevelConjuncts` returns `[an, ..., a1]`. -/
theorem conjuncts_in_reverse_argument_order (atoms : List PTRef)
    (hatom : ∀ a ∈ atoms, isAnd a = false ∧ isOr a = false ∧ isNot a = false)
    (hnodup : atoms.Nodup) :
    getTopLevelConjuncts (.and atoms) (fun _ => true) = atoms.reverse ∧
    ∀ queue : List PtAsgn,
      pushChildren false atoms queue
        = (atoms.map (fun c => PtAsgn.mk c .l_True)).reverse ++ queue :=
  ⟨getTopLevelConjuncts_and_atoms atoms (fun a ha => ⟨(hatom a ha).1, (hatom a ha).2.2⟩) hnodup,
    pushChildren_atoms atoms (fun a ha => (hatom a ha).2.2)⟩

theorem conjuncts_in_reverse_argument_order_witness :
    getTopLevelConjuncts (.and [atomA, atomB, .var "c" .bool]) (fun _ => true) = [.var "c" .bool, atomB, atomA] :=
  (conjuncts_in_reverse_argument_order [atomA, atomB, .var "c" .bool] (by decide) (by decide)).1

/-! ## Completeness of junct extraction -/

theorem mem_pushChildren (flip : Bool) :
    ∀ (cs : List PTRef) (queue : List PtAsgn) (q : PtAsgn),
      q ∈ pushChildren flip cs queue ↔
        q ∈ queue ∨ ∃ c ∈ cs, q = ⟨(purify c).tr, (purify c).sgn.xor flip⟩
  | [], queue, q => by simp [pushChildren]
  | c :: cs, queue, q => by
      rw [pushChildren, mem_pushChildren flip cs]
      simp only [List.mem_cons, exists_eq_or_imp]
      tauto

/-- Every pair that the loop processes is accounted for at the end: there is a set of
pairs that contains the pairs processed before, the pairs waiting on the worklist,
and for each of its new members the pairs of its children or, for a leaf, the term
emitted for it. -/
theorem getTopLevelJunctsLoop_closure (J : Junction) (queue isdup : List PtAsgn)
    (res : List PTRef) :
    ∃ visited : List PtAsgn,
      (∀ p ∈ isdup, p ∈ visited) ∧ (∀ p ∈ queue, p ∈ visited) ∧
      ∀ p ∈ visited, p ∈ isdup ∨
        junctClosed J p visited (getTopLevelJunctsLoop J (fun _ => true) queue isdup res) := by
  induction queue, isdup, res using getTopLevelJunctsLoop.induct J (fun _ => true) with
  | case1 isdup res =>
    exact ⟨isdup, fun p hp => hp, by simp, fun p hp => Or.inl hp⟩
  | case2 isdup res pta queue hdup ih =>
    obtain ⟨V, h1, h2, h3⟩ := ih
    refine ⟨V, h1, ?_, ?_⟩
    · intro p hp
      simp only [List.mem_cons] at hp
      rcases hp with rfl | hp
      · exact h1 _ hdup
      · exact h2 p hp
    · rw [getTopLevelJunctsLoop, if_pos hdup]
      exact h3
  | case3 isdup res pta queue hdup hc ih =>
    obtain ⟨V, h1, h2, h3⟩ := ih
    refine ⟨V, fun p hp => h1 p (by simp [hp]), ?_, ?_⟩
    · intro p hp
      simp only [List.mem_cons] at hp
      rcases hp with rfl | hp
      · exact h1 _ (by simp)
      · exact h2 p ((mem_pushChildren false _ _ _).mpr (Or.inl hp))
    · rw [getTopLevelJunctsLoop, if_neg hdup, if_pos hc]
      intro p hp
      rcases h3 p hp with h | h
      · simp only [List.mem_cons] at h
        rcases h with rfl | h
        · right
          rw [junctClosed, if_pos hc]
          intro q hq
          rw [mem_pushChildren] at hq
          exact h2 q ((mem_pushChildren false _ _ _).mpr (Or.inr (by simpa using hq)))
        · exact Or.inl h
      · exact Or.inr h
  | case4 isdup res pta queue hdup hc ho ih =>
    obtain ⟨V, h1, h2, h3⟩ := ih
    refine ⟨V, fun p hp => h1 p (by simp [hp]), ?_, ?_⟩
    · intro p hp
      simp only [List.mem_cons] at hp
      rcases hp with rfl | hp
      · exact h1 _ (by simp)
      · exact h2 p ((mem_pushChildren true _ _ _).mpr (Or.inl hp))
    · rw [getTopLevelJunctsLoop, if_neg hdup, if_neg hc, if_pos ho]
      intro p hp
      rcases h3 p hp with h | h
      · simp only [List.mem_cons] at h
        rcases h with rfl | h
        · right
          rw [junctClosed, if_neg hc, if_pos ho]
          intro q hq
          rw [mem_pushChildren] at hq
          exact h2 q ((mem_pushChildren true _ _ _).mpr (Or.inr (by simpa using hq)))
        · exact Or.inl h
      · exact Or.inr h
  | case5 isdup res pta queue hdup hc ho term ih =>
    obtain ⟨V, h1, h2, h3⟩ := ih
    refine ⟨V, fun p hp => h1 p (by simp [hp]), ?_, ?_⟩
    · intro p hp
      simp only [List.mem_cons] at hp
      rcases hp with rfl | hp
      · exact h1 _ (by simp)
      · exact h2 p hp
    · rw [getTopLevelJunctsLoop, if_neg hdup, if_neg hc, if_neg ho]
      intro p hp
      rcases h3 p hp with h | h
      · simp only [List.mem_cons] at h
        rcases h with rfl | h
        · right
          rw [junctClosed, if_neg hc, if_neg ho]
          simp only [if_true]
          rw [getTopLevelJunctsLoop_append]
          simp [leafTerm]
        · exact Or.inl h
      · exact Or.inr h

theorem size_le_sizeList_of_mem : ∀ (cs : List PTRef) (c : PTRef), c ∈ cs →
    c.size ≤ PTRef.sizeList cs
  | [], c, h => by simp at h
  | d :: ds, c, h => by
      simp only [List.mem_cons] at h
      simp only [PTRef.sizeList]
      rcases h with rfl | h
      · omega
      · have := size_le_sizeList_of_mem ds c h
        omega

theorem purify_child_size_lt (t c : PTRef) (hc : c ∈ getPterm t) :
    (purify c).tr.size < t.size := by
  have h1 := purifyLoop_size c .l_True
  have h2 := size_le_sizeList_of_mem _ c hc
  have h3 := sizeList_getPterm_lt t
  simp only [purify]
  omega

/-- Completeness of junct extraction for a property `good` of signed terms that is
inherited by an expanded pair from the pairs of its children and by a leaf pair from
its emitted term: when every emitted term is good, so is the root. -/
theorem getTopLevelJuncts_complete (J : Junction) (good : PtAsgn → Prop)
    (goodTerm : PTRef → Prop)
    (hC : ∀ p : PtAsgn, (J.isCorrectJunction p.tr && decide (p.sgn = .l_True)) = true →
      (∀ c ∈ getPterm p.tr, good ⟨(purify c).tr, (purify c).sgn.xor false⟩) → good p)
    (hO : ∀ p : PtAsgn, (J.isOtherJunction p.tr && decide (p.sgn = .l_False)) = true →
      (∀ c ∈ getPterm p.tr, good ⟨(purify c).tr, (purify c).sgn.xor true⟩) → good p)
    (hL : ∀ p : PtAsgn, goodTerm (leafTerm p) → good p)
    (root : PTRef) (hout : ∀ c ∈ getTopLevelJuncts J root (fun _ => true), goodTerm c) :
    good (purify root) := by
  obtain ⟨V, _, hq, hclosed⟩ := getTopLevelJunctsLoop_closure J [purify root] [] []
  have hall : ∀ n : Nat, ∀ p ∈ V, p.tr.size ≤ n → good p := by
    intro n
    induction n with
    | zero =>
      intro p _ hsize
      have := PTRef.size_pos p.tr
      omega
    | succ n ih =>
      intro p hp hsize
      rcases hclosed p hp with h | h
      · simp at h
      · unfold junctClosed at h
        by_cases hc : (J.isCorrectJunction p.tr && decide (p.sgn = .l_True)) = true
        · rw [if_pos hc] at h
          refine hC p hc (fun c hcm => ih _ (h _ ?_) ?_)
          · exact (mem_pushChildren false _ _ _).mpr (Or.inr ⟨c, hcm, rfl⟩)
          · have := purify_child_size_lt p.tr c hcm
            show (purify c).tr.size ≤ n
            omega
        · rw [if_neg hc] at h
          by_cases ho : (J.isOtherJunction p.tr && decide (p.sgn = .l_False)) = true
          · rw [if_pos ho] at h
            refine hO p ho (fun c hcm => ih _ (h _ ?_) ?_)
            · exact (mem_pushChildren true _ _ _).mpr (Or.inr ⟨c, hcm, rfl⟩)
            · have := purify_child_size_lt p.tr c hcm
              show (purify c).tr.size ≤ n
              omega
          · rw [if_neg ho] at h
            exact hL p (hout _ h)
  exact hall _ (purify root) (hq _ (by simp)) (le_refl _)

/-- Soundness of junct extraction for a property `good` of signed terms that an
expanded pair passes on to the pairs of its children and a leaf pair to its emitted
term: when the pairs on the worklist are good, so is every emitted term. -/
theorem getTopLevelJunctsLoop_preserves (J : Junction) (good : PtAsgn → Prop)
    (goodTerm : PTRef → Prop)
    (hC : ∀ p : PtAsgn, (J.isCorrectJunction p.tr && decide (p.sgn = .l_True)) = true →
      good p → ∀ c ∈ getPterm p.tr, good ⟨(purify c).tr, (purify c).sgn.xor false⟩)
    (hO : ∀ p : PtAsgn, (J.isOtherJunction p.tr && decide (p.sgn = .l_False)) = true →
      good p → ∀ c ∈ getPterm p.tr, good ⟨(purify c).tr, (purify c).sgn.xor true⟩)
    (hL : ∀ p : PtAsgn, good p → goodTerm (leafTerm p))
    (pred : PTRef → Bool) (queue isdup : List PtAsgn) (res : List PTRef) :
    (∀ p ∈ queue, good p) → (∀ c ∈ res, goodTerm c) →
    ∀ c ∈ getTopLevelJunctsLoop J pred queue isdup res, goodTerm c := by
  induction queue, isdup, res using getTopLevelJunctsLoop.induct J pred with
  | case1 isdup res =>
    intro _ hres
    simpa [getTopLevelJunctsLoop] using hres
  | case2 isdup res pta queue hdup ih =>
    intro hq hres
    rw [getTopLevelJunctsLoop, if_pos hdup]
    exact ih (fun x hx => hq x (by simp [hx])) hres
  | case3 isdup res pta queue hdup hc ih =>
    intro hq hres
    rw [getTopLevelJunctsLoop, if_neg hdup, if_pos hc]
    refine ih ?_ hres
    intro q hqm
    rcases (mem_pushChildren false _ _ _).mp hqm with h | ⟨c, hcm, rfl⟩
    · exact hq q (by simp [h])
    · exact hC pta hc (hq pta (by simp)) c hcm
  | case4 isdup res pta queue hdup hc ho ih =>
    intro hq hres
    rw [getTopLevelJunctsLoop, if_neg hdup, if_neg hc, if_pos ho]
    refine ih ?_ hres
    intro q hqm
    rcases (mem_pushChildren true _ _ _).mp hqm with h | ⟨c, hcm, rfl⟩
    · exact hq q (by simp [h])
    · exact hO pta ho (hq pta (by simp)) c hcm
  | case5 isdup res pta queue hdup hc ho term ih =>
    intro hq hres
    rw [getTopLevelJunctsLoop, if_neg hdup, if_neg hc, if_neg ho]
    refine ih (fun x hx => hq x (by simp [hx])) ?_
    have hterm : goodTerm (leafTerm pta) := hL pta (hq pta (by simp))
    intro c hc2
    split at hc2
    · simp only [List.mem_append, List.mem_singleton] at hc2
      rcases hc2 with h | h
      · exact hres c h
      · rw [h]; exact hterm
    · exact hres c hc2

theorem holds_leafTerm_iff {D : Type} [DecidableEq D] (M : Interpretation D)
    (σ : Assignment D) (p : PtAsgn) : holds M σ (leafTerm p) ↔ holdsSigned M σ p := by
  unfold leafTerm holdsSigned
  split
  · rw [mkNot, holds_not_iff]
  · rfl

/-- The pair pushed for a child is true exactly when the child is true, respectively
false when the polarity is flipped. -/
theorem holdsSigned_child_iff {D : Type} [DecidableEq D] (M : Interpretation D)
    (σ : Assignment D) (c : PTRef) (flip : Bool) :
    holdsSigned M σ ⟨(purify c).tr, (purify c).sgn.xor flip⟩ ↔
      (if flip = true then ¬ holds M σ c else holds M σ c) := by
  obtain ⟨h1, h2⟩ := purify_sound M σ c
  rw [← h2]
  revert h1
  cases flip <;> simp only [holdsSigned] <;> cases (purify c).sgn <;> simp [lbool.xor]

theorem isAnd_eq (t : PTRef) (h : isAnd t = true) : t = .and (getPterm t) := by
  cases t <;> simp [isAnd] at h
  rfl

theorem isOr_eq (t : PTRef) (h : isOr t = true) : t = .or (getPterm t) := by
  cases t <;> simp [isOr] at h
  rfl

/-- An `and` node of positive polarity is true exactly when all its children are. -/
theorem holdsSigned_and_iff {D : Type} [DecidableEq D] (M : Interpretation D)
    (σ : Assignment D) (p : PtAsgn) (h : (isAnd p.tr && decide (p.sgn = .l_True)) = true) :
    holdsSigned M σ p ↔ ∀ c ∈ getPterm p.tr, holds M σ c := by
  simp only [Bool.and_eq_true, decide_eq_true_eq] at h
  rw [holdsSigned, h.2]
  simp only [reduceCtorEq, if_false]
  conv_lhs => rw [isAnd_eq p.tr h.1]
  exact holds_and_iff M σ _

/-- An `and` node of negative polarity is true exactly when some child is false. -/
theorem holdsSigned_nand_iff {D : Type} [DecidableEq D] (M : Interpretation D)
    (σ : Assignment D) (p : PtAsgn) (h : (isAnd p.tr && decide (p.sgn = .l_False)) = true) :
    holdsSigned M σ p ↔ ¬ ∀ c ∈ getPterm p.tr, holds M σ c := by
  simp only [Bool.and_eq_true, decide_eq_true_eq] at h
  rw [holdsSigned, h.2]
  simp only [if_true]
  conv_lhs => rw [isAnd_eq p.tr h.1]
  rw [holds_and_iff M σ _]

/-- An `or` node of positive polarity is true exactly when some child is. -/
theorem holdsSigned_or_iff {D : Type} [DecidableEq D] (M : Interpretation D)
    (σ : Assignment D) (p : PtAsgn) (h : (isOr p.tr && decide (p.sgn = .l_True)) = true) :
    holdsSigned M σ p ↔ ∃ c ∈ getPterm p.tr, holds M σ c := by
  simp only [Bool.and_eq_true, decide_eq_true_eq] at h
  rw [holdsSigned, h.2]
  simp only [reduceCtorEq, if_false]
  conv_lhs => rw [isOr_eq p.tr h.1]
  exact holds_or_iff M σ _

/-- An `or` node of negative polarity is true exactly when all its children are
false. -/
theorem holdsSigned_nor_iff {D : Type} [DecidableEq D] (M : Interpretation D)
    (σ : Assignment D) (p : PtAsgn) (h : (isOr p.tr && decide (p.sgn = .l_False)) = true) :
    holdsSigned M σ p ↔ ∀ c ∈ getPterm p.tr, ¬ holds M σ c := by
  simp only [Bool.and_eq_true, decide_eq_true_eq] at h
  rw [holdsSigned, h.2]
  simp only [if_true]
  conv_lhs => rw [isOr_eq p.tr h.1]
  rw [holds_or_iff M σ _]
  simp

/-- The formula is true exactly when all its top-level conjuncts are. -/
theorem getTopLevelConjuncts_equiv {D : Type} [DecidableEq D] (M : Interpretation D)
    (σ : Assignment D) (root : PTRef) :
    holds M σ root ↔ ∀ c ∈ getTopLevelConjuncts root (fun _ => true), holds M σ c := by
  constructor
  · exact getTopLevelConjuncts_sound M σ root _
  · intro hout
    rw [← (purify_sound M σ root).2]
    refine getTopLevelJuncts_complete Conjunction (holdsSigned M σ) (holds M σ) ?_ ?_ ?_
      root hout
    · intro p hc hch
      rw [holdsSigned_and_iff M σ p hc]
      intro c hcm
      simpa using (holdsSigned_child_iff M σ c false).mp (hch c hcm)
    · intro p ho hch
      rw [holdsSigned_nor_iff M σ p ho]
      intro c hcm
      simpa using (holdsSigned_child_iff M σ c true).mp (hch c hcm)
    · intro p hp
      exact (holds_leafTerm_iff M σ p).mp hp

/-- The formula is true exactly when one of its top-level disjuncts is. -/
theorem getTopLevelDisjuncts_equiv {D : Type} [DecidableEq D] (M : Interpretation D)
    (σ : Assignment D) (root : PTRef) :
    holds M σ root ↔ ∃ c ∈ getTopLevelDisjuncts root (fun _ => true), holds M σ c := by
  constructor
  · intro hroot
    by_contra hnone
    have hout : ∀ c ∈ getTopLevelJuncts Disjunction root (fun _ => true), ¬ holds M σ c :=
      fun c hc hh => hnone ⟨c, hc, hh⟩
    have := getTopLevelJuncts_complete Disjunction (fun p => ¬ holdsSigned M σ p)
      (fun t => ¬ holds M σ t) ?_ ?_ ?_ root hout
    · exact this ((purify_sound M σ root).2.mpr hroot)
    · intro p hc hch
      rw [holdsSigned_or_iff M σ p hc]
      rintro ⟨c, hcm, hh⟩
      exact hch c hcm ((holdsSigned_child_iff M σ c false).mpr (by simpa using hh))
    · intro p ho hch
      rw [holdsSigned_nand_iff M σ p ho, not_not]
      intro c hcm
      by_contra hh
      exact hch c hcm ((holdsSigned_child_iff M σ c true).mpr (by simpa using hh))
    · intro p hp hs
      exact hp ((holds_leafTerm_iff M σ p).mpr hs)
  · rintro ⟨c, hc, hh⟩
    by_contra hroot
    have := getTopLevelJunctsLoop_preserves Disjunction (fun p => ¬ holdsSigned M σ p)
      (fun t => ¬ holds M σ t) ?_ ?_ ?_ (fun _ => true) [purify root] [] [] ?_ (by simp) c hc
    · exact this hh
    · intro p hcj hp c hcm hs
      apply hp
      rw [holdsSigned_or_iff M σ p hcj]
      exact ⟨c, hcm, by simpa using (holdsSigned_child_iff M σ c false).mp hs⟩
    · intro p ho hp c hcm hs
      apply hp
      rw [holdsSigned_nand_iff M σ p ho]
      intro hall
      have := (holdsSigned_child_iff M σ c true).mp hs
      simp only [if_true] at this
      exact this (hall c hcm)
    · intro p hp hs
      exact hp ((holds_leafTerm_iff M σ p).mp hs)
    · intro p hp
      simp only [List.mem_singleton] at hp
      rw [hp, (purify_sound M σ root).2]
      exact hroot

/-- C13. For every formula `R`, the conjunction of the terms returned by
`getTopLevelConjuncts(R)`, with the filter constantly true, is logically equivalent to
`R`: under every interpretation and assignment, `R` is true if and only if every
returned junct is true. -/
theorem conjuncts_equivalent_to_root {D : Type} [DecidableEq D] (M : Interpretation D)
    (σ : Assignment D) (R : PTRef) :
    holds M σ R ↔ ∀ c ∈ getTopLevelConjuncts R (fun _ => true), holds M σ c :=
  getTopLevelConjuncts_equiv M σ R

/-- C14. For every formula `R`, the disjunction of the terms returned by
`getTopLevelDisjuncts(R)`, with the filter constantly true, is logically equivalent to
`R`; the Disjunction mode is the Conjunction mode with the roles of `and` and `or`
swapped: an `or` of positive polarity is expanded with the polarity preserved, and an
`and` of negative polarity is expanded with the polarity flipped. -/
theorem disjuncts_equivalent_to_root {D : Type} [DecidableEq D] (M : Interpretation D)
    (σ : Assignment D) (R : PTRef) :
    (holds M σ R ↔ ∃ c ∈ getTopLevelDisjuncts R (fun _ => true), holds M σ c) ∧
    Disjunction.isCorrectJunction = Conjunction.isOtherJunction ∧
    Disjunction.isOtherJunction = Conjunction.isCorrectJunction ∧
    (∀ (p : PTRef → Bool) (pta : PtAsgn) (queue isdup : List PtAsgn) (res : List PTRef),
      pta ∉ isdup → isOr pta.tr = true → pta.sgn = .l_True →
      getTopLevelJunctsLoop Disjunction p (pta :: queue) isdup res =
        getTopLevelJunctsLoop Disjunction p (pushChildren false (getPterm pta.tr) queue)
          (pta :: isdup) res) ∧
    (∀ (p : PTRef → Bool) (pta : PtAsgn) (queue isdup : List PtAsgn) (res : List PTRef),
      pta ∉ isdup → isAnd pta.tr = true → pta.sgn = .l_False →
      getTopLevelJunctsLoop Disjunction p (pta :: queue) isdup res =
        getTopLevelJunctsLoop Disjunction p (pushChildren true (getPterm pta.tr) queue)
          (pta :: isdup) res) := by
  refine ⟨getTopLevelDisjuncts_equiv M σ R, rfl, rfl, ?_, ?_⟩
  · intro p pta queue isdup res hdup hor hsgn
    rw [getTopLevelJunctsLoop, if_neg hdup, if_pos (by simp [Disjunction, hor, hsgn])]
  · intro p pta queue isdup res hdup hand hsgn
    rw [getTopLevelJunctsLoop, if_neg hdup, if_neg (by simp [Disjunction, hsgn]),
      if_pos (by simp [Disjunction, hand, hsgn])]

theorem disjuncts_equivalent_to_root_witness :
    getTopLevelDisjuncts (.or [atomA, .not (.and [atomB, atomA])]) (fun _ => true)
      = [.not atomA, .not atomB, atomA] ∧
    ∀ σ : Assignment Value,
      holds arithmetic σ (.or [atomA, .not (.and [atomB, atomA])]) ↔
        ∃ c ∈ getTopLevelDisjuncts (.or [atomA, .not (.and [atomB, atomA])]) (fun _ => true),
          holds arithmetic σ c :=
  ⟨by simp [getTopLevelDisjuncts, getTopLevelJuncts, getTopLevelJunctsLoop, purify, purifyLoop,
      Disjunction, pushChildren, isAnd, isOr, getPterm, lbool.xor, mkNot, atomA, atomB],
    fun σ => (disjuncts_equivalent_to_root arithmetic σ _).1⟩

/-! ## Lemmas on the rendering and parsing of version numbers -/

/-- The characters that render the digits `0` to `9`. -/
theorem digitChar_facts : ∀ d : Nat, d < 10 →
    (Char.ofNat (48 + d)).isDigit = true ∧ (Char.ofNat (48 + d)).toNat - 48 = d ∧
    Char.ofNat (48 + d) ≠ '#' ∧ isspace (Char.ofNat (48 + d)) = false ∧
    Char.ofNat (48 + d) ≠ '-' ∧ Char.ofNat (48 + d) ≠ '+' := by
  decide

theorem digitsValue_append (xs : List Char) (c : Char) :
    digitsValue (xs ++ [c]) = 10 * digitsValue xs + (c.toNat - 48) := by
  simp [digitsValue, List.foldl_append]

/-- The rendering of a natural number consists of digits and denotes the number. -/
theorem natDigits_spec : ∀ (fuel n : Nat), n < fuel →
    natDigits fuel n ≠ [] ∧ (∀ c ∈ natDigits fuel n, c.isDigit = true) ∧
    digitsValue (natDigits fuel n) = n := by
  intro fuel
  induction fuel with
  | zero => intro n h; omega
  | succ fuel ih =>
    intro n hn
    rw [natDigits]
    by_cases h10 : n < 10
    · rw [if_pos h10]
      obtain ⟨h1, h2, _⟩ := digitChar_facts n h10
      refine ⟨by simp, by simpa using h1, ?_⟩
      simp [digitsValue, h2]
    · rw [if_neg h10]
      have hlt : n / 10 < fuel := by omega
      obtain ⟨_, i2, i3⟩ := ih (n / 10) hlt
      obtain ⟨h1, h2, _⟩ := digitChar_facts (n % 10) (Nat.mod_lt _ (by norm_num))
      refine ⟨by simp, ?_, ?_⟩
      · intro c hc
        simp only [List.mem_append, List.mem_singleton] at hc
        rcases hc with hc | hc
        · exact i2 c hc
        · rw [hc]; exact h1
      · rw [digitsValue_append, i3, h2]
        omega
theorem isDigit_bounds (c : Char) (h : c.isDigit = true) : 48 ≤ c.toNat ∧ c.toNat ≤ 57 := by
  simp only [Char.isDigit, Bool.and_eq_true, decide_eq_true_eq, ge_iff_le] at h
  obtain ⟨h1, h2⟩ := h
  rw [UInt32.le_def] at h1 h2
  simp only [Char.toNat, UInt32.toNat]
  constructor
  · exact h1
  · exact h2

theorem isDigit_facts (c : Char) (h : c.isDigit = true) :
    isspace c = false ∧ c ≠ '-' ∧ c ≠ '+' ∧ c ≠ '#' := by
  obtain ⟨h1, h2⟩ := isDigit_bounds c h
  refine ⟨?_, ?_, ?_, ?_⟩
  · simp only [isspace, Bool.or_eq_false_iff, decide_eq_false_iff_not, Bool.and_eq_false_iff,
      not_le]
    refine ⟨?_, Or.inr (by omega)⟩
    rintro rfl
    simp at h1
  · rintro rfl; simp at h1
  · rintro rfl; simp at h1
  · rintro rfl; simp at h1

/-- Parsing a run of digits that denotes a value in range. -/
theorem stoi_digits (d : Char) (ds : List Char) (hdig : ∀ c ∈ d :: ds, c.isDigit = true)
    (hrange : inIntRange (digitsValue (d :: ds) : Int)) :
    stoi (d :: ds) = .ok (digitsValue (d :: ds) : Int) := by
  obtain ⟨hsp, hm, hp, _⟩ := isDigit_facts d (hdig d (by simp))
  have htake : (d :: ds).takeWhile Char.isDigit = d :: ds :=
    List.takeWhile_eq_self_iff.mpr hdig
  obtain ⟨h1, h2⟩ := hrange
  simp only [stoi, List.dropWhile, hsp, List.head?, Option.some.injEq, hm, hp, or_self,
    if_false, htake]
  simp only [List.isEmpty_cons, Bool.false_eq_true, if_false]
  rw [if_neg (by omega)]
  rfl

/-- Parsing a minus sign followed by a run of digits that denotes a value in range. -/
theorem stoi_minus_digits (d : Char) (ds : List Char)
    (hdig : ∀ c ∈ d :: ds, c.isDigit = true)
    (hrange : inIntRange (-(digitsValue (d :: ds) : Int))) :
    stoi ('-' :: d :: ds) = .ok (-(digitsValue (d :: ds) : Int)) := by
  have htake : (d :: ds).takeWhile Char.isDigit = d :: ds :=
    List.takeWhile_eq_self_iff.mpr hdig
  obtain ⟨h1, h2⟩ := hrange
  have hsp : isspace '-' = false := by decide
  simp only [stoi, List.dropWhile, hsp, List.head?, true_or, if_true, List.tail, htake]
  simp only [List.isEmpty_cons, Bool.false_eq_true, if_false]
  rw [if_neg (by omega)]
  rfl

theorem to_string_eq (i : Int) :
    to_string i = (if i < 0 then ['-'] else []) ++ natDigits (i.natAbs + 1) i.natAbs := by
  unfold to_string
  split <;> simp

/-- Parsing a rendered `int` gives the number back. -/
theorem stoi_to_string (i : Int) (hi : inIntRange i) : stoi (to_string i) = .ok i := by
  obtain ⟨hne, hdig, hval⟩ := natDigits_spec (i.natAbs + 1) i.natAbs (Nat.lt_succ_self _)
  rw [to_string_eq]
  cases hds : natDigits (i.natAbs + 1) i.natAbs with
  | nil => exact absurd hds hne
  | cons d ds =>
    rw [hds] at hdig hval
    by_cases hneg : i < 0
    · have hv : (-(digitsValue (d :: ds) : Int)) = i := by rw [hval]; omega
      rw [if_pos hneg]
      have := stoi_minus_digits d ds hdig (by rw [hv]; exact hi)
      rw [hv] at this
      exact this
    · have hv : (digitsValue (d :: ds) : Int) = i := by rw [hval]; omega
      rw [if_neg hneg]
      have := stoi_digits d ds hdig (by rw [hv]; exact hi)
      rw [hv] at this
      exact this

/-- The rendering of an `int` is not empty and has no `#`. -/
theorem to_string_chars (i : Int) :
    to_string i ≠ [] ∧ ∀ c ∈ to_string i, c ≠ '#' := by
  obtain ⟨hne, hdig, _⟩ := natDigits_spec (i.natAbs + 1) i.natAbs (Nat.lt_succ_self _)
  rw [to_string_eq]
  refine ⟨by simp [hne], ?_⟩
  intro c hc
  simp only [List.mem_append] at hc
  rcases hc with hc | hc
  · split at hc
    · simp only [List.mem_singleton] at hc
      rw [hc]; decide
    · simp at hc
  · exact (isDigit_facts c (hdig c hc)).2.2.2

/-! ## Lemmas on the search for the version separator -/

theorem rfind_cons (c : Char) (cs sep : List Char) :
    rfind (c :: cs) sep =
      match rfind cs sep with
      | some pos => some (pos + 1)
      | none => if sep.isPrefixOf (c :: cs) then some 0 else none := by
  conv_lhs => unfold rfind

/-- A string without `#` does not contain the separator. -/
theorem rfind_none_of_no_hash : ∀ ds : List Char, (∀ c ∈ ds, c ≠ '#') →
    rfind ds versionSeparator = none
  | [], _ => by simp [rfind, versionSeparator]
  | d :: ds, h => by
      have hd : d ≠ '#' := h d (by simp)
      rw [rfind_cons, rfind_none_of_no_hash ds (fun c hc => h c (by simp [hc]))]
      simp [versionSeparator, List.isPrefixOf, Ne.symm hd]

/-- A single `#` followed by a string without `#` does not contain the separator. -/
theorem rfind_none_hash_cons (ds : List Char) (h : ∀ c ∈ ds, c ≠ '#') :
    rfind ('#' :: ds) versionSeparator = none := by
  rw [rfind_cons, rfind_none_of_no_hash ds h]
  cases ds with
  | nil => simp [versionSeparator, List.isPrefixOf]
  | cons d ds =>
    have hd : d ≠ '#' := h d (by simp)
    simp [versionSeparator, List.isPrefixOf, Ne.symm hd]

/-- The last separator of `base ## ds` stands right after `base` when `ds` has no
`#`. -/
theorem rfind_canonical (ds : List Char) (h : ∀ c ∈ ds, c ≠ '#') :
    ∀ base : List Char,
      rfind (base ++ '#' :: '#' :: ds) versionSeparator = some base.length
  | [] => by
      rw [List.nil_append, rfind_cons, rfind_none_hash_cons ds h]
      simp [versionSeparator, List.isPrefixOf]
  | b :: base => by
      rw [List.cons_append, rfind_cons, rfind_canonical ds h base]
      simp

/-- Where the separator is found, the string splits around it. -/
theorem rfind_some_split : ∀ (s : List Char) (pos : Nat),
    rfind s versionSeparator = some pos →
      ∃ base rest, s = base ++ '#' :: '#' :: rest ∧ base.length = pos
  | [], pos, h => by simp [rfind, versionSeparator] at h
  | c :: cs, pos, h => by
      rw [rfind_cons] at h
      cases hr : rfind cs versionSeparator with
      | some p =>
        rw [hr] at h
        simp only [Option.some.injEq] at h
        obtain ⟨base, rest, h1, h2⟩ := rfind_some_split cs p hr
        exact ⟨c :: base, rest, by rw [h1]; rfl, by simp [h2, h]⟩
      | none =>
        rw [hr] at h
        simp only at h
        split at h
        · rename_i hp
          simp only [Option.some.injEq] at h
          have hp2 : versionSeparator <+: (c :: cs) := List.isPrefixOf_iff_prefix.mp hp
          obtain ⟨rest, hrest⟩ := hp2
          refine ⟨[], rest, ?_, by simp [← h]⟩
          rw [← hrest]
          rfl
        · cases h

/-- A string that contains the separator has a last occurrence of it. -/
theorem rfind_isSome_of_split : ∀ (base rest : List Char),
    (rfind (base ++ '#' :: '#' :: rest) versionSeparator).isSome = true
  | [], rest => by
      rw [List.nil_append, rfind_cons]
      cases rfind ('#' :: rest) versionSeparator with
      | some p => simp
      | none => simp [versionSeparator, List.isPrefixOf]
  | b :: base, rest => by
      rw [List.cons_append, rfind_cons]
      have := rfind_isSome_of_split base rest
      cases hr : rfind (base ++ '#' :: '#' :: rest) versionSeparator with
      | some p => simp
      | none => rw [hr] at this; simp at this

theorem rfind_isSome_iff (s : List Char) :
    (rfind s versionSeparator).isSome = true ↔
      ∃ base rest, s = base ++ versionSeparator ++ rest := by
  constructor
  · intro h
    cases hr : rfind s versionSeparator with
    | none => rw [hr] at h; simp at h
    | some pos =>
      obtain ⟨base, rest, h1, _⟩ := rfind_some_split s pos hr
      exact ⟨base, rest, by rw [h1]; simp [versionSeparator]⟩
  · rintro ⟨base, rest, rfl⟩
    have := rfind_isSome_of_split base rest
    simpa [versionSeparator] using this

/-! ## Lemmas on the time machine -/

theorem drop_after_separator (base rest : List Char) :
    List.drop (base.length + versionSeparator.length) (base ++ '#' :: '#' :: rest) = rest := by
  have : base.length + versionSeparator.length = (base ++ ['#', '#']).length := by
    simp [versionSeparator]
  rw [this]
  have e : base ++ '#' :: '#' :: rest = (base ++ ['#', '#']) ++ rest := by simp
  rw [e, List.drop_left]

theorem take_through_separator (base rest : List Char) :
    List.take (base.length + versionSeparator.length) (base ++ '#' :: '#' :: rest)
      = base ++ ['#', '#'] := by
  have : base.length + versionSeparator.length = (base ++ ['#', '#']).length := by
    simp [versionSeparator]
  rw [this]
  have e : base ++ '#' :: '#' :: rest = (base ++ ['#', '#']) ++ rest := by simp
  rw [e, List.take_left]

theorem isVersioned_var (name : String) (sort : SRef) :
    isVersioned (.var name sort) = .ok (rfind name.data versionSeparator).isSome := by
  simp [isVersioned, isVar, getSymName, pure, Except.pure]

/-- Sending a variable through time, given where the last separator of its name is:
the part after the separator is parsed and replaced by the rendering of the new
version. -/
theorem sendVarThroughTime_of_rfind (name : String) (sort : SRef) (steps : Int)
    (base rest : List Char) (hsplit : name.data = base ++ '#' :: '#' :: rest)
    (hr : rfind name.data versionSeparator = some base.length) :
    sendVarThroughTime (.var name sort) steps =
      (stoi rest >>= fun version =>
        pure (.var (String.mk (base ++ '#' :: '#' :: to_string (version + steps))) sort)) := by
  unfold sendVarThroughTime
  rw [isVersioned_var, hr]
  simp only [isVar, if_true, bind, Except.bind, Option.isSome_some, getSymName]
  rw [hr]
  simp only []
  rw [hsplit, drop_after_separator, take_through_separator]
  cases stoi rest with
  | error e => rfl
  | ok version => simp [pure, Except.pure, mkVar, getSortRef]

theorem getVersionNumber_of_rfind (name : String) (sort : SRef)
    (base rest : List Char) (hsplit : name.data = base ++ '#' :: '#' :: rest)
    (hr : rfind name.data versionSeparator = some base.length) :
    getVersionNumber (.var name sort) = stoi rest := by
  unfold getVersionNumber
  rw [isVersioned_var, hr]
  simp only [isVar, if_true, bind, Except.bind, Option.isSome_some, getSymName]
  rw [hr]
  simp only []
  rw [hsplit, drop_after_separator]

theorem sendVarThroughTime_unversioned (name : String) (sort : SRef) (steps : Int)
    (hr : rfind name.data versionSeparator = none) :
    sendVarThroughTime (.var name sort) steps = .error .assertion := by
  unfold sendVarThroughTime
  rw [isVersioned_var, hr]
  rfl

theorem getVersionNumber_unversioned (name : String) (sort : SRef)
    (hr : rfind name.data versionSeparator = none) :
    getVersionNumber (.var name sort) = .error .assertion := by
  unfold getVersionNumber
  rw [isVersioned_var, hr]
  rfl

theorem sendVarThroughTime_not_var (v : PTRef) (steps : Int) (h : isVar v = false) :
    sendVarThroughTime v steps = .error .assertion := by
  unfold sendVarThroughTime
  rw [h]
  rfl

/-- A name that ends in the separator and the rendering of an `int`: the variable is
versioned, its version number is that `int`, and sending it through time renders
the shifted number in place. -/
theorem canonical_variable (base : List Char) (sort : SRef) (i : Int) (hi : inIntRange i) :
    isVersioned (.var (String.mk (base ++ '#' :: '#' :: to_string i)) sort) = .ok true ∧
    getVersionNumber (.var (String.mk (base ++ '#' :: '#' :: to_string i)) sort) = .ok i ∧
    ∀ steps : Int,
      sendVarThroughTime (.var (String.mk (base ++ '#' :: '#' :: to_string i)) sort) steps =
        .ok (.var (String.mk (base ++ '#' :: '#' :: to_string (i + steps))) sort) := by
  have hr := rfind_canonical (to_string i) (to_string_chars i).2 base
  refine ⟨?_, ?_, fun steps => ?_⟩
  · rw [isVersioned_var]
    show Except.ok (rfind (base ++ '#' :: '#' :: to_string i) versionSeparator).isSome = _
    rw [hr]
    rfl
  · rw [getVersionNumber_of_rfind _ sort base (to_string i) rfl hr, stoi_to_string i hi]
  · rw [sendVarThroughTime_of_rfind _ sort steps base (to_string i) rfl hr,
      stoi_to_string i hi]
    rfl

/-- Composition of two shifts, when the version reached in between fits an `int`. -/
theorem sendVarThroughTime_compose (v : PTRef) (a b : Int)
    (hrange : ∀ version, getVersionNumber v = .ok version → inIntRange (version + a)) :
    (sendVarThroughTime v a >>= fun w => sendVarThroughTime w b)
      = sendVarThroughTime v (a + b) := by
  by_cases hvar : isVar v = true
  · cases v <;> simp [isVar] at hvar
    rename_i name sort
    cases hr : rfind name.data versionSeparator with
    | none =>
      rw [sendVarThroughTime_unversioned name sort a hr,
        sendVarThroughTime_unversioned name sort (a + b) hr]
      rfl
    | some pos =>
      obtain ⟨base, rest, hsplit, hlen⟩ := rfind_some_split _ pos hr
      subst hlen
      have hver := getVersionNumber_of_rfind name sort base rest hsplit hr
      rw [sendVarThroughTime_of_rfind name sort a base rest hsplit hr,
        sendVarThroughTime_of_rfind name sort (a + b) base rest hsplit hr]
      cases hs : stoi rest with
      | error e => rfl
      | ok version =>
        rw [hs] at hver
        have hin := hrange version hver
        simp only [bind, Except.bind, pure, Except.pure]
        rw [(canonical_variable base sort (version + a) hin).2.2 b, add_assoc]
  · have hv : isVar v = false := by simpa using hvar
    rw [sendVarThroughTime_not_var v a hv, sendVarThroughTime_not_var v (a + b) hv]
    rfl

theorem to_string_zero : to_string 0 = ['0'] := by decide

/-- A variable whose version number can be read has a name that splits at its last
separator into a base and a suffix that parses to the version number. -/
theorem getVersionNumber_ok_split (v : PTRef) (version : Int)
    (h : getVersionNumber v = .ok version) :
    ∃ name sort base rest, v = .var name sort ∧ name.data = base ++ '#' :: '#' :: rest ∧
      rfind name.data versionSeparator = some base.length ∧ stoi rest = .ok version := by
  by_cases hvar : isVar v = true
  · cases v <;> simp [isVar] at hvar
    rename_i name sort
    cases hr : rfind name.data versionSeparator with
    | none =>
      rw [getVersionNumber_unversioned name sort hr] at h
      cases h
    | some pos =>
      obtain ⟨base, rest, hsplit, hlen⟩ := rfind_some_split _ pos hr
      subst hlen
      rw [getVersionNumber_of_rfind name sort base rest hsplit hr] at h
      exact ⟨name, sort, base, rest, rfl, hsplit, hr, h⟩
  · have hv : isVar v = false := by simpa using hvar
    unfold getVersionNumber at h
    rw [hv] at h
    cases h

/-- The result of sending a variable through time is a variable in canonical form. -/
theorem sendVarThroughTime_ok (v : PTRef) (version steps : Int)
    (h : getVersionNumber v = .ok version) :
    ∃ (base : List Char) (sort : SRef),
      sendVarThroughTime v steps =
        .ok (.var (String.mk (base ++ '#' :: '#' :: to_string (version + steps))) sort) := by
  obtain ⟨name, sort, base, rest, rfl, hsplit, hr, hs⟩ := getVersionNumber_ok_split v version h
  refine ⟨base, sort, ?_⟩
  rw [sendVarThroughTime_of_rfind name sort steps base rest hsplit hr, hs]
  rfl

theorem getVarVersionZero_unversioned (name : String) (sort : SRef)
    (hun : isVersioned (.var name sort) = .ok false) :
    getVarVersionZero (.var name sort) =
      .ok (.var (String.mk (name.data ++ '#' :: '#' :: to_string 0)) sort) := by
  unfold getVarVersionZero
  rw [hun]
  simp [isVar, bind, Except.bind, pure, Except.pure, getSymName, mkVar, getSortRef,
    versionSeparator]

/-! ## Properties of the time machine -/

/-- C17. Time-machine composition: for every variable `v` and integers `a`, `b` such
that the versions reached fit an `int`, sending `v` by `a` and then by `b` is sending
`v` by `a + b`; for a versioned variable whose version number can be read, both
sides are the same variable. -/
theorem time_machine_composition (v : PTRef) (a b : Int)
    (hrange : ∀ version, getVersionNumber v = .ok version →
      inIntRange (version + a) ∧ inIntRange (version + a + b)) :
    (sendVarThroughTime v a >>= fun w => sendVarThroughTime w b)
      = sendVarThroughTime v (a + b) ∧
    (∀ version, getVersionNumber v = .ok version →
      ∃ w u, sendVarThroughTime v a = .ok w ∧ sendVarThroughTime w b = .ok u ∧
        sendVarThroughTime v (a + b) = .ok u) := by
  have hcomp := sendVarThroughTime_compose v a b (fun version h => (hrange version h).1)
  refine ⟨hcomp, fun version hver => ?_⟩
  obtain ⟨base, sort, hw⟩ := sendVarThroughTime_ok v version a hver
  obtain ⟨base2, sort2, hu⟩ := sendVarThroughTime_ok v version (a + b) hver
  rw [hw] at hcomp
  exact ⟨_, _, hw, by rw [← hu]; exact hcomp, hu⟩

theorem time_machine_composition_witness :
    (sendVarThroughTime x0 2 >>= fun w => sendVarThroughTime w 3) = .ok (xAt 5) ∧
    (sendVarThroughTime x0 2 >>= fun w => sendVarThroughTime w 3)
      = sendVarThroughTime x0 (2 + 3) :=
  ⟨by decide,
    (time_machine_composition x0 2 3 (fun version h => by
      have h0 : getVersionNumber x0 = .ok 0 := by decide
      rw [h0] at h
      cases h
      decide)).1⟩

/-- C18, refuted as stated: the variable named `x##007` is versioned, and sending it
by 0 gives the variable named `x##7`, a different variable. -/
theorem shift_by_zero_not_identity :
    isVersioned (.var "x##007" .num) = .ok true ∧
    sendVarThroughTime (.var "x##007" .num) 0 = .ok (.var "x##7" .num) ∧
    sendVarThroughTime (.var "x##007" .num) 0 ≠ .ok (.var "x##007" .num) := by
  decide

/-- C18, as amended: sending by 0 is the identity on every variable whose name ends in
the separator `##` followed by the decimal rendering of an `int` as `std::to_string`
writes it; such are the variables returned by `getVarVersionZero` and by
`sendVarThroughTime` itself. -/
theorem shift_by_zero_identity_on_canonical (base : List Char) (sort : SRef) (i : Int)
    (hi : inIntRange i) :
    (isVersioned (.var (String.mk (base ++ '#' :: '#' :: to_string i)) sort) = .ok true ∧
      sendVarThroughTime (.var (String.mk (base ++ '#' :: '#' :: to_string i)) sort) 0
        = .ok (.var (String.mk (base ++ '#' :: '#' :: to_string i)) sort)) ∧
    (∀ (v w : PTRef) (version steps : Int), getVersionNumber v = .ok version →
      inIntRange (version + steps) → sendVarThroughTime v steps = .ok w →
      sendVarThroughTime w 0 = .ok w) ∧
    (∀ v w : PTRef, getVarVersionZero v = .ok w → sendVarThroughTime w 0 = .ok w) := by
  refine ⟨⟨(canonical_variable base sort i hi).1, ?_⟩, ?_, ?_⟩
  · rw [(canonical_variable base sort i hi).2.2 0, add_zero]
  · intro v w version steps hver hin hw
    obtain ⟨base2, sort2, h2⟩ := sendVarThroughTime_ok v version steps hver
    rw [h2] at hw
    cases hw
    rw [(canonical_variable base2 sort2 (version + steps) hin).2.2 0, add_zero]
  · intro v w hw
    by_cases hvar : isVar v = true
    · cases v <;> simp [isVar] at hvar
      rename_i name sort2
      cases hr : (rfind name.data versionSeparator).isSome with
      | true =>
        simp [getVarVersionZero, isVersioned_var, hr, isVar, bind, Except.bind, throw,
          throwThe, MonadExceptOf.throw] at hw
      | false =>
        rw [getVarVersionZero_unversioned name sort2 (by rw [isVersioned_var, hr])] at hw
        cases hw
        rw [(canonical_variable name.data sort2 0 (by decide)).2.2 0, add_zero]
    · have hv : isVar v = false := by simpa using hvar
      simp [getVarVersionZero, hv, throw, throwThe, MonadExceptOf.throw] at hw

theorem shift_by_zero_identity_on_canonical_witness :
    inIntRange 12 ∧
    sendVarThroughTime (.var "x##12" .num) 0 = .ok (.var "x##12" .num) :=
  ⟨by decide, by
    have h := (shift_by_zero_identity_on_canonical "x".data .num 12 (by decide)).1.2
    have e : to_string 12 = ['1', '2'] := by decide
    rw [e] at h
    exact h⟩

/-- C19, refuted as stated: the variable named `x##abc` is versioned, its name does
not end in the rendering of an integer, and `getVersionNumber` throws on it. -/
theorem versioned_without_number :
    isVersioned (.var "x##abc" .num) = .ok true ∧
    getVersionNumber (.var "x##abc" .num) = .error .invalid_argument := by
  decide

/-- C19, as amended: `isVersioned(v)` holds if and only if the name of `v` contains
the separator `##`; when the name has the form `NAME##k`, with `k` the decimal
rendering of an `int`, then `isVersioned(v)` holds and `getVersionNumber(v)` returns
that `k`. -/
theorem versioned_iff_separator (name : String) (sort : SRef) :
    (isVersioned (.var name sort) = .ok true ↔
      ∃ base rest, name.data = base ++ versionSeparator ++ rest) ∧
    (∀ (base : List Char) (i : Int), inIntRange i →
      isVersioned (.var (String.mk (base ++ versionSeparator ++ to_string i)) sort)
        = .ok true ∧
      getVersionNumber (.var (String.mk (base ++ versionSeparator ++ to_string i)) sort)
        = .ok i) := by
  constructor
  · rw [isVersioned_var, ← rfind_isSome_iff]
    simp
  · intro base i hi
    have e : base ++ versionSeparator ++ to_string i = base ++ '#' :: '#' :: to_string i := by
      simp [versionSeparator]
    rw [e]
    exact ⟨(canonical_variable base sort i hi).1, (canonical_variable base sort i hi).2.1⟩

theorem versioned_iff_separator_witness :
    isVersioned (.var "x##-3" .num) = .ok true ∧
    getVersionNumber (.var "x##-3" .num) = .ok (-3) := by
  have h := (versioned_iff_separator "x" .num).2 "x".data (-3) (by decide)
  have e : to_string (-3) = ['-', '3'] := by decide
  rw [e] at h
  exact h

/-- C20. For every un-versioned variable `v`, `getVarVersionZero(v)` is the variable
of the same sort whose name is the name of `v` followed by `##0`; it is versioned,
its version number is 0, and sending it by an `int` `k` gives a variable whose
version number is `k`. -/
theorem version_zero_properties (name : String) (sort : SRef) (k : Int)
    (hun : isVersioned (.var name sort) = .ok false) (hk : inIntRange k) :
    getVarVersionZero (.var name sort)
      = .ok (.var (String.mk (name.data ++ "##0".data)) sort) ∧
    isVersioned (.var (String.mk (name.data ++ "##0".data)) sort) = .ok true ∧
    getVersionNumber (.var (String.mk (name.data ++ "##0".data)) sort) = .ok 0 ∧
    (sendVarThroughTime (.var (String.mk (name.data ++ "##0".data)) sort) k
      >>= getVersionNumber) = .ok k := by
  have e : name.data ++ "##0".data = name.data ++ '#' :: '#' :: to_string 0 := by
    rw [to_string_zero]
  rw [e]
  obtain ⟨h1, h2, h3⟩ := canonical_variable name.data sort 0 (by decide)
  refine ⟨getVarVersionZero_unversioned name sort hun, h1, h2, ?_⟩
  rw [h3 k]
  simp only [bind, Except.bind]
  rw [zero_add]
  exact (canonical_variable name.data sort k hk).2.1

theorem version_zero_properties_witness :
    isVersioned (.var "x" .num) = .ok false ∧
    getVarVersionZero (.var "x" .num) = .ok x0 ∧
    (sendVarThroughTime x0 7 >>= getVersionNumber) = .ok 7 := by
  have h := version_zero_properties "x" .num 7 (by decide) (by decide)
  exact ⟨by decide, h.1, h.2.2.2⟩

/-! ## Injectivity of versioning -/

/-- The rendering of an `int` determines it. -/
theorem to_string_injective (i j : Int) (h : to_string i = to_string j) : i = j := by
  obtain ⟨_, hdig1, hv1⟩ := natDigits_spec (i.natAbs + 1) i.natAbs (Nat.lt_succ_self _)
  obtain ⟨_, hdig2, hv2⟩ := natDigits_spec (j.natAbs + 1) j.natAbs (Nat.lt_succ_self _)
  rw [to_string_eq, to_string_eq] at h
  by_cases hi : i < 0 <;> by_cases hj : j < 0
  · simp only [hi, hj, if_true, List.singleton_append, List.cons.injEq, true_and] at h
    have : i.natAbs = j.natAbs := by rw [← hv1, ← hv2, h]
    omega
  · simp only [hi, hj, if_true, if_false, List.singleton_append, List.nil_append] at h
    have := hdig2 '-' (by rw [← h]; simp)
    simp at this
  · simp only [hi, hj, if_true, if_false, List.singleton_append, List.nil_append] at h
    have := hdig1 '-' (by rw [h]; simp)
    simp at this
  · simp only [hi, hj, if_false, List.nil_append] at h
    have : i.natAbs = j.natAbs := by rw [← hv1, ← hv2, h]
    omega

/-- The base name of a variable whose name splits at its last separator. -/
theorem baseName_of_rfind (name : String) (sort : SRef) (base rest : List Char)
    (hsplit : name.data = base ++ '#' :: '#' :: rest)
    (hr : rfind name.data versionSeparator = some base.length) :
    baseName (.var name sort) = base := by
  simp only [baseName, getSymName, hr]
  rw [hsplit]
  simp

/-- Canonical names are determined by their base and their number. -/
theorem canonical_name_injective (base1 base2 : List Char) (i j : Int)
    (h : base1 ++ '#' :: '#' :: to_string i = base2 ++ '#' :: '#' :: to_string j) :
    base1 = base2 ∧ i = j := by
  have h1 := rfind_canonical (to_string i) (to_string_chars i).2 base1
  have h2 := rfind_canonical (to_string j) (to_string_chars j).2 base2
  rw [h, h2] at h1
  have hlen : base2.length = base1.length := by simpa using h1
  obtain ⟨hb, ht⟩ := List.append_inj h hlen.symm
  refine ⟨hb, to_string_injective i j ?_⟩
  simpa using ht

/-- Sending through time is injective on base name, sort and version number. -/
theorem sendVarThroughTime_injective (k : Int) (v1 v2 : PTRef) (n1 n2 : Int)
    (h1 : getVersionNumber v1 = .ok n1) (h2 : getVersionNumber v2 = .ok n2)
    (hne : baseName v1 ≠ baseName v2 ∨ getSortRef v1 ≠ getSortRef v2 ∨ n1 ≠ n2) :
    ∃ w1 w2, sendVarThroughTime v1 k = .ok w1 ∧ sendVarThroughTime v2 k = .ok w2 ∧ w1 ≠ w2 := by
  obtain ⟨name1, sort1, base1, rest1, rfl, hs1, hr1, hp1⟩ := getVersionNumber_ok_split v1 n1 h1
  obtain ⟨name2, sort2, base2, rest2, rfl, hs2, hr2, hp2⟩ := getVersionNumber_ok_split v2 n2 h2
  rw [baseName_of_rfind name1 sort1 base1 rest1 hs1 hr1,
    baseName_of_rfind name2 sort2 base2 rest2 hs2 hr2] at hne
  refine ⟨.var (String.mk (base1 ++ '#' :: '#' :: to_string (n1 + k))) sort1,
    .var (String.mk (base2 ++ '#' :: '#' :: to_string (n2 + k))) sort2, ?_, ?_, ?_⟩
  · rw [sendVarThroughTime_of_rfind name1 sort1 k base1 rest1 hs1 hr1, hp1]; rfl
  · rw [sendVarThroughTime_of_rfind name2 sort2 k base2 rest2 hs2 hr2, hp2]; rfl
  · intro heq
    simp only [PTRef.var.injEq] at heq
    obtain ⟨hname, hsort⟩ := heq
    obtain ⟨hb, hn⟩ := canonical_name_injective base1 base2 _ _ (congrArg String.data hname)
    rcases hne with h | h | h
    · exact h hb
    · exact h hsort
    · exact h (by omega)

/-- Taking the zero version is injective. -/
theorem getVarVersionZero_injective (v1 v2 : PTRef)
    (h1 : isVersioned v1 = .ok false) (h2 : isVersioned v2 = .ok false) (hne : v1 ≠ v2) :
    ∃ w1 w2, getVarVersionZero v1 = .ok w1 ∧ getVarVersionZero v2 = .ok w2 ∧ w1 ≠ w2 := by
  have hv1 : isVar v1 = true := by
    by_contra hc
    simp [isVersioned, hc] at h1
  have hv2 : isVar v2 = true := by
    by_contra hc
    simp [isVersioned, hc] at h2
  cases v1 <;> simp [isVar] at hv1
  cases v2 <;> simp [isVar] at hv2
  rename_i name1 sort1 name2 sort2
  refine ⟨_, _, getVarVersionZero_unversioned name1 sort1 h1,
    getVarVersionZero_unversioned name2 sort2 h2, ?_⟩
  intro heq
  simp only [PTRef.var.injEq] at heq
  apply hne
  obtain ⟨hname, hsort⟩ := heq
  have hdata : name1.data = name2.data := by
    simpa using congrArg String.data hname
  have : name1 = name2 := String.ext hdata
  rw [this, hsort]

/-- C21. Versioning is injective: for every integer `k`, two versioned variables whose
version numbers can be read and that differ in base name, sort or version number are
sent by `sendVarThroughTime (., k)` to distinct variables; and two distinct variables
without a version are sent by `getVarVersionZero` to distinct variables. -/
theorem versioning_injective (k : Int) :
    (∀ (v1 v2 : PTRef) (n1 n2 : Int),
      getVersionNumber v1 = .ok n1 → getVersionNumber v2 = .ok n2 →
      (baseName v1 ≠ baseName v2 ∨ getSortRef v1 ≠ getSortRef v2 ∨ n1 ≠ n2) →
      ∃ w1 w2, sendVarThroughTime v1 k = .ok w1 ∧ sendVarThroughTime v2 k = .ok w2 ∧
        w1 ≠ w2) ∧
    (∀ v1 v2 : PTRef, isVersioned v1 = .ok false → isVersioned v2 = .ok false → v1 ≠ v2 →
      ∃ w1 w2, getVarVersionZero v1 = .ok w1 ∧ getVarVersionZero v2 = .ok w2 ∧ w1 ≠ w2) :=
  ⟨fun v1 v2 n1 n2 h1 h2 hne => sendVarThroughTime_injective k v1 v2 n1 n2 h1 h2 hne,
    fun v1 v2 h1 h2 hne => getVarVersionZero_injective v1 v2 h1 h2 hne⟩

theorem versioning_injective_witness :
    (∃ w1 w2, sendVarThroughTime x0 1 = .ok w1 ∧ sendVarThroughTime x1 1 = .ok w2 ∧ w1 ≠ w2) ∧
    (∃ w1 w2, getVarVersionZero atomA = .ok w1 ∧ getVarVersionZero atomB = .ok w2 ∧ w1 ≠ w2) :=
  ⟨(versioning_injective 1).1 x0 x1 0 1 (by decide) (by decide) (by decide),
    (versioning_injective 1).2 atomA atomB (by decide) (by decide) (by decide)⟩

/-! ## Sending a formula through time -/

mutual
/-- The versioning rewriter replaces the variables and rebuilds the rest. -/
theorem rewrite_versioning_eq (k : Int) :
    ∀ f : PTRef, Rewriter.rewrite (VersioningConfig k) f = shiftVariables k f
  | .var n s => by simp [Rewriter.rewrite, VersioningConfig, isVar, shiftVariables]
  | .const n s => by simp [Rewriter.rewrite, VersioningConfig, isVar, shiftVariables]
  | .not a => by
      simp only [Rewriter.rewrite, VersioningConfig, isVar, shiftVariables, if_true]
      rw [← rewrite_versioning_eq k a]
      rfl
  | .and as => by
      simp only [Rewriter.rewrite, VersioningConfig, isVar, shiftVariables, if_true]
      rw [← rewriteArgs_versioning_eq k as]
      rfl
  | .or as => by
      simp only [Rewriter.rewrite, VersioningConfig, isVar, shiftVariables, if_true]
      rw [← rewriteArgs_versioning_eq k as]
      rfl
  | .eq l r => by
      simp only [Rewriter.rewrite, VersioningConfig, isVar, shiftVariables, if_true]
      rw [← rewrite_versioning_eq k l, ← rewrite_versioning_eq k r]
      rfl
  | .app g as => by
      simp only [Rewriter.rewrite, VersioningConfig, isVar, shiftVariables, if_true]
      rw [← rewriteArgs_versioning_eq k as]
      rfl
theorem rewriteArgs_versioning_eq (k : Int) :
    ∀ fs : List PTRef, Rewriter.rewriteArgs (VersioningConfig k) fs = shiftVariablesArgs k fs
  | [] => by simp [Rewriter.rewriteArgs, shiftVariablesArgs]
  | f :: fs => by
      simp only [Rewriter.rewriteArgs, shiftVariablesArgs]
      rw [rewrite_versioning_eq k f, rewriteArgs_versioning_eq k fs]
end

mutual
/-- Replacing every variable by itself gives the formula back. -/
theorem shiftVariables_fixed (k : Int) :
    ∀ f : PTRef, (∀ v ∈ collectVars f, sendVarThroughTime v k = .ok v) →
      shiftVariables k f = .ok f
  | .var n s, h => by
      simp only [shiftVariables]
      exact h _ (by simp [collectVars])
  | .const n s, _ => rfl
  | .not a, h => by
      simp only [shiftVariables]
      rw [shiftVariables_fixed k a (fun v hv => h v (by simpa [collectVars] using hv))]
      rfl
  | .and as, h => by
      simp only [shiftVariables]
      rw [shiftVariablesArgs_fixed k as (fun v hv => h v (by simpa [collectVars] using hv))]
      rfl
  | .or as, h => by
      simp only [shiftVariables]
      rw [shiftVariablesArgs_fixed k as (fun v hv => h v (by simpa [collectVars] using hv))]
      rfl
  | .eq l r, h => by
      simp only [shiftVariables]
      rw [shiftVariables_fixed k l (fun v hv => h v (by simp [collectVars, hv])),
        shiftVariables_fixed k r (fun v hv => h v (by simp [collectVars, hv]))]
      rfl
  | .app g as, h => by
      simp only [shiftVariables]
      rw [shiftVariablesArgs_fixed k as (fun v hv => h v (by simpa [collectVars] using hv))]
      rfl
theorem shiftVariablesArgs_fixed (k : Int) :
    ∀ fs : List PTRef, (∀ v ∈ collectVarsArgs fs, sendVarThroughTime v k = .ok v) →
      shiftVariablesArgs k fs = .ok fs
  | [], _ => rfl
  | f :: fs, h => by
      simp only [shiftVariablesArgs]
      rw [shiftVariables_fixed k f (fun v hv => h v (by simp [collectVarsArgs, hv])),
        shiftVariablesArgs_fixed k fs (fun v hv => h v (by simp [collectVarsArgs, hv]))]
      rfl
end

/-- The specification on a child sequence maps the specification over it. -/
theorem shiftVariablesArgs_eq_mapM (k : Int) :
    ∀ fs : List PTRef, shiftVariablesArgs k fs = fs.mapM (shiftVariables k)
  | [] => rfl
  | f :: fs => by
      rw [List.mapM_cons, shiftVariablesArgs, shiftVariablesArgs_eq_mapM k fs]

/-- Sending by a number of steps other than zero is rewriting with the versioning
configuration. -/
theorem sendFlaThroughTime_of_ne_zero (f : PTRef) (k : Int) (hk : k ≠ 0) :
    sendFlaThroughTime f k = shiftVariables k f := by
  unfold sendFlaThroughTime
  rw [if_neg hk, rewrite_versioning_eq]

/-- Sending an application by a number of steps other than zero sends its children. -/
theorem sendFlaThroughTime_app (g : SymRef) (args : List PTRef) (k : Int) (hk : k ≠ 0) :
    sendFlaThroughTime (.app g args) k =
      (args.mapM (fun a => sendFlaThroughTime a k) >>= fun as2 => pure (.app g as2)) := by
  have hfun : (fun a => sendFlaThroughTime a k) = shiftVariables k :=
    funext fun a => sendFlaThroughTime_of_ne_zero a k hk
  rw [sendFlaThroughTime_of_ne_zero _ k hk, hfun, ← shiftVariablesArgs_eq_mapM]
  rfl

/-- Sending a constant through time gives the constant. -/
theorem sendFlaThroughTime_const (n : String) (s : SRef) (k : Int) :
    sendFlaThroughTime (.const n s) k = .ok (.const n s) := by
  unfold sendFlaThroughTime
  split
  · rfl
  · rfl

/-- C22, the claim as stated fails: every variable of `x##007 < 7` is versioned, sending
the formula by `0` steps returns it as it is, whereas replacing its variable by
`sendVarThroughTime (., 0)` gives `x##7 < 7`. -/
theorem formula_shift_by_zero_keeps_padding :
    (∀ v ∈ collectVars paddedInequality, isVersioned v = .ok true) ∧
    sendFlaThroughTime paddedInequality 0 = .ok paddedInequality ∧
    shiftVariables 0 paddedInequality =
      .ok (.app sym_lt [.var "x##7" .num, .const "7" .num]) ∧
    sendFlaThroughTime paddedInequality 0 ≠ shiftVariables 0 paddedInequality := by
  decide

/-- C22, amended. For every formula `f` and every number of steps `k` other than zero,
`sendFlaThroughTime f k` is `f` with every variable occurrence replaced by its image
under `sendVarThroughTime (., k)` and everything else unchanged, failing exactly when
the replacement fails: shifting an application is applying the same symbol to the
shifted children, and a constant is sent to itself. By `0` steps the formula is
returned as it is, which is the replacement when `sendVarThroughTime (., 0)` sends
every variable of `f` to itself. -/
theorem formula_shift_replaces_variables (f : PTRef) (k : Int) :
    (k ≠ 0 → sendFlaThroughTime f k = shiftVariables k f) ∧
    (∀ (g : SymRef) (args : List PTRef), k ≠ 0 →
      sendFlaThroughTime (.app g args) k =
        (args.mapM (fun a => sendFlaThroughTime a k) >>= fun as2 => pure (.app g as2))) ∧
    (∀ (n : String) (s : SRef), sendFlaThroughTime (.const n s) k = .ok (.const n s)) ∧
    sendFlaThroughTime f 0 = .ok f ∧
    ((∀ v ∈ collectVars f, sendVarThroughTime v 0 = .ok v) →
      sendFlaThroughTime f 0 = shiftVariables 0 f) :=
  ⟨sendFlaThroughTime_of_ne_zero f k,
    fun g args hk => sendFlaThroughTime_app g args k hk,
    fun n s => sendFlaThroughTime_const n s k,
    rfl,
    fun h => (shiftVariables_fixed 0 f h).symm⟩

theorem formula_shift_replaces_variables_witness :
    sendFlaThroughTime sampleInequality 1 = shiftVariables 1 sampleInequality ∧
    sendFlaThroughTime sampleInequality 0 = shiftVariables 0 sampleInequality :=
  ⟨(formula_shift_replaces_variables sampleInequality 1).1 (by decide),
    (formula_shift_replaces_variables sampleInequality 0).2.2.2.2 (by decide)⟩

/-! ## The test for predicates in normal form -/

/-- The test `isUPOrConstant` holds of the applications of uninterpreted predicates
and of the terms of sort `Bool` without children. -/
theorem isUPOrConstant_eq_true_iff (t : PTRef) :
    isUPOrConstant t = true ↔
      (isUP t = true ∨ (getSortRef t = .bool ∧ getPterm t = [])) := by
  simp [isUPOrConstant, hasSortBool]

/-- Every term of the form UP-or-constant passes the test. -/
theorem isUPOrConstant_of_form (t : PTRef) (h : upOrConstantForm t = true) :
    isUPOrConstant t = true := by
  unfold upOrConstantForm at h
  simp only [Bool.or_eq_true, decide_eq_true_eq] at h
  rcases h with (h | h) | h
  · subst h; decide
  · subst h; decide
  · cases t with
    | app f args =>
      simp only [Bool.and_eq_true, Bool.not_eq_true', decide_eq_true_eq] at h
      simp [isUPOrConstant, isUP, h.1.1.1, h.1.1.2]
    | _ => simp at h

/-- C23, the claim as stated fails: the test `isUPOrConstant` accepts the application
`P(x, x)` of an uninterpreted predicate to the same variable twice, its application
`P(5)` to a constant, and the Boolean variable `a`; none of them is `true`, `false`
or an application of an uninterpreted predicate to distinct variables. -/
theorem isUPOrConstant_accepts_more :
    (isUPOrConstant (.app sym_P [x0, x0]) = true ∧
      upOrConstantForm (.app sym_P [x0, x0]) = false) ∧
    (isUPOrConstant (.app sym_P [.const "5" .num]) = true ∧
      upOrConstantForm (.app sym_P [.const "5" .num]) = false) ∧
    (isUPOrConstant atomA = true ∧ upOrConstantForm atomA = false) := by
  decide

/-- C23, amended. The test `isUPOrConstant t` holds if and only if `t` is an
application of an uninterpreted predicate, whatever its arguments are, or `t` has
sort `Bool` and no arguments (the constants `true` and `false`, and also a Boolean
variable); every term of the form UP-or-constant passes the test, and the
arguments being distinct variables is not tested. -/
theorem isUPOrConstant_characterisation (t : PTRef) :
    (isUPOrConstant t = true ↔
      (isUP t = true ∨ (getSortRef t = .bool ∧ getPterm t = []))) ∧
    (upOrConstantForm t = true → isUPOrConstant t = true) ∧
    (∀ (f : SymRef) (args : List PTRef), f.interpreted = false → f.rsort = .bool →
      isUPOrConstant (.app f args) = true) ∧
    (∀ n : String, isUPOrConstant (.var n .bool) = true) :=
  ⟨isUPOrConstant_eq_true_iff t, isUPOrConstant_of_form t,
    fun f args h1 h2 => by simp [isUPOrConstant, isUP, h1, h2],
    fun n => rfl⟩

theorem isUPOrConstant_characterisation_witness :
    isUPOrConstant (.app sym_P [x0, x1]) = true ∧
    isUPOrConstant (.app sym_P [x0, x0]) = true :=
  ⟨(isUPOrConstant_characterisation (.app sym_P [x0, x1])).2.1 (by decide),
    (isUPOrConstant_characterisation getTerm_true).2.2.1 sym_P [x0, x0] rfl rfl⟩

/-! ## Idempotence of substitution -/

mutual
/-- Substituting a variable that does not occur leaves the term as it is. -/
theorem substitute_absent (n : String) (s : SRef) (T : PTRef) :
    ∀ f : PTRef, PTRef.var n s ∉ collectVars f →
      Rewriter.rewrite (Substitutor [(.var n s, T)]) f = .ok f
  | .var m t, h => by
      have hv : PTRef.var m t ≠ .var n s := fun e => h (by rw [e]; simp [collectVars])
      rw [Rewriter.rewrite, (substitutor_single_other n s T _ hv).2]
  | .const m t, _ => by
      rw [Rewriter.rewrite, (substitutor_single_other n s T _ (by simp)).2]
  | .not a, h => by
      rw [Rewriter.rewrite, if_pos (substitutor_single_other n s T _ (by simp)).1,
        substitute_absent n s T a (by simpa [collectVars] using h)]
      exact (substitutor_single_other n s T (.not a) (by simp)).2
  | .and as, h => by
      rw [Rewriter.rewrite, if_pos (substitutor_single_other n s T _ (by simp)).1,
        substituteArgs_absent n s T as (by simpa [collectVars] using h)]
      exact (substitutor_single_other n s T (.and as) (by simp)).2
  | .or as, h => by
      rw [Rewriter.rewrite, if_pos (substitutor_single_other n s T _ (by simp)).1,
        substituteArgs_absent n s T as (by simpa [collectVars] using h)]
      exact (substitutor_single_other n s T (.or as) (by simp)).2
  | .eq l r, h => by
      simp only [collectVars, List.mem_append, not_or] at h
      rw [Rewriter.rewrite, if_pos (substitutor_single_other n s T _ (by simp)).1,
        substitute_absent n s T l h.1, substitute_absent n s T r h.2]
      exact (substitutor_single_other n s T (.eq l r) (by simp)).2
  | .app g as, h => by
      rw [Rewriter.rewrite, if_pos (substitutor_single_other n s T _ (by simp)).1,
        substituteArgs_absent n s T as (by simpa [collectVars] using h)]
      exact (substitutor_single_other n s T (.app g as) (by simp)).2
theorem substituteArgs_absent (n : String) (s : SRef) (T : PTRef) :
    ∀ fs : List PTRef, PTRef.var n s ∉ collectVarsArgs fs →
      Rewriter.rewriteArgs (Substitutor [(.var n s, T)]) fs = .ok fs
  | [], _ => rfl
  | f :: fs, h => by
      simp only [collectVarsArgs, List.mem_append, not_or] at h
      rw [Rewriter.rewriteArgs, substitute_absent n s T f h.1,
        substituteArgs_absent n s T fs h.2]
      rfl
end

mutual
/-- After the substitution of a term without the variable, the variable is gone. -/
theorem substitute_removes (n : String) (s : SRef) (T : PTRef)
    (hT : PTRef.var n s ∉ collectVars T) :
    ∀ (f r : PTRef), Rewriter.rewrite (Substitutor [(.var n s, T)]) f = .ok r →
      PTRef.var n s ∉ collectVars r
  | .var m t, r, h => by
      rw [Rewriter.rewrite] at h
      by_cases hv : PTRef.var m t = .var n s
      · rw [hv, substitutor_single_hit] at h
        cases h
        exact hT
      · rw [(substitutor_single_other n s T _ hv).2] at h
        cases h
        intro hmem
        simp only [collectVars, List.mem_singleton] at hmem
        exact hv hmem.symm
  | .const m t, r, h => by
      rw [Rewriter.rewrite, (substitutor_single_other n s T _ (by simp)).2] at h
      cases h
      simp [collectVars]
  | .not a, r, h => by
      rw [Rewriter.rewrite, if_pos (substitutor_single_other n s T _ (by simp)).1,
        Except.bind_ok_iff] at h
      obtain ⟨a2, ha, h⟩ := h
      rw [(substitutor_single_other n s T _ (by simp)).2] at h
      cases h
      simpa [collectVars] using substitute_removes n s T hT a a2 ha
  | .and as, r, h => by
      rw [Rewriter.rewrite, if_pos (substitutor_single_other n s T _ (by simp)).1,
        Except.bind_ok_iff] at h
      obtain ⟨a2, ha, h⟩ := h
      rw [(substitutor_single_other n s T _ (by simp)).2] at h
      cases h
      simpa [collectVars] using substituteArgs_removes n s T hT as a2 ha
  | .or as, r, h => by
      rw [Rewriter.rewrite, if_pos (substitutor_single_other n s T _ (by simp)).1,
        Except.bind_ok_iff] at h
      obtain ⟨a2, ha, h⟩ := h
      rw [(substitutor_single_other n s T _ (by simp)).2] at h
      cases h
      simpa [collectVars] using substituteArgs_removes n s T hT as a2 ha
  | .eq l r0, r, h => by
      rw [Rewriter.rewrite, if_pos (substitutor_single_other n s T _ (by simp)).1,
        Except.bind_ok_iff] at h
      obtain ⟨l2, hl, h⟩ := h
      rw [Except.bind_ok_iff] at h
      obtain ⟨r2, hr, h⟩ := h
      rw [(substitutor_single_other n s T _ (by simp)).2] at h
      cases h
      simp only [collectVars, List.mem_append, not_or]
      exact ⟨substitute_removes n s T hT l l2 hl, substitute_removes n s T hT r0 r2 hr⟩
  | .app g as, r, h => by
      rw [Rewriter.rewrite, if_pos (substitutor_single_other n s T _ (by simp)).1,
        Except.bind_ok_iff] at h
      obtain ⟨a2, ha, h⟩ := h
      rw [(substitutor_single_other n s T _ (by simp)).2] at h
      cases h
      simpa [collectVars] using substituteArgs_removes n s T hT as a2 ha
theorem substituteArgs_removes (n : String) (s : SRef) (T : PTRef)
    (hT : PTRef.var n s ∉ collectVars T) :
    ∀ (fs rs : List PTRef), Rewriter.rewriteArgs (Substitutor [(.var n s, T)]) fs = .ok rs →
      PTRef.var n s ∉ collectVarsArgs rs
  | [], rs, h => by
      cases h
      simp [collectVarsArgs]
  | f :: fs, rs, h => by
      rw [Rewriter.rewriteArgs, Except.bind_ok_iff] at h
      obtain ⟨f2, hf, h⟩ := h
      rw [Except.bind_ok_iff] at h
      obtain ⟨fs2, hfs, h⟩ := h
      cases h
      simp only [collectVarsArgs, List.mem_append, not_or]
      exact ⟨substitute_removes n s T hT f f2 hf, substituteArgs_removes n s T hT fs fs2 hfs⟩
end

/-- Substituting twice is substituting once. -/
theorem varSubstitute_idempotent (f : PTRef) (n : String) (s : SRef) (T : PTRef)
    (hT : PTRef.var n s ∉ collectVars T) :
    (varSubstitute f [(.var n s, T)] >>= fun r => varSubstitute r [(.var n s, T)])
      = varSubstitute f [(.var n s, T)] := by
  obtain ⟨r, hr⟩ := varSubstitute_defined f [(.var n s, T)]
  rw [hr]
  exact substitute_absent n s T r (substitute_removes n s T hT f r hr)

/-- A variable without an entry in the map is returned as it is. -/
theorem varSubstitute_var_absent (m : substitutions_map) (n : String) (s : SRef)
    (h : m.lookup (.var n s) = none) :
    varSubstitute (.var n s) m = .ok (.var n s) := by
  simp [varSubstitute, Rewriter.rewrite, Substitutor, h, pure, Except.pure]

/-- C24. Substitutor idempotence: for every term `f`, variable `v` and term `t` in
which `v` does not occur, substituting `t` for `v` in the result of substituting `t`
for `v` in `f` gives that result again; and for every map, a variable absent from the
map is returned unchanged. -/
theorem substitutor_idempotent (f : PTRef) (n : String) (s : SRef) (t : PTRef)
    (hocc : PTRef.var n s ∉ getVars t) :
    (∃ r, varSubstitute f [(.var n s, t)] = .ok r ∧
      varSubstitute r [(.var n s, t)] = .ok r) ∧
    (∀ (m : substitutions_map) (name : String) (sort : SRef),
      m.lookup (.var name sort) = none →
        varSubstitute (.var name sort) m = .ok (.var name sort)) := by
  have hT : PTRef.var n s ∉ collectVars t := by simpa [getVars] using hocc
  refine ⟨?_, fun m name sort h => varSubstitute_var_absent m name sort h⟩
  obtain ⟨r, hr⟩ := varSubstitute_defined f [(.var n s, t)]
  have := varSubstitute_idempotent f n s t hT
  rw [hr] at this
  exact ⟨r, hr, this⟩

theorem substitutor_idempotent_witness :
    (∃ r, varSubstitute sampleFormula [(x0, .const "5" .num)] = .ok r ∧
      varSubstitute r [(x0, .const "5" .num)] = .ok r) ∧
    (∀ (m : substitutions_map) (name : String) (sort : SRef),
      m.lookup (.var name sort) = none →
        varSubstitute (.var name sort) m = .ok (.var name sort)) :=
  substitutor_idempotent sampleFormula "x##0" .num (.const "5" .num) (by decide)

/-! ## The session of the BMC loop -/

/-- An iteration that does not leave the loop hands its session to the rest of the
loop. -/
theorem unrollingLoop_of_loopIteration (backend : List PTRef → sstat) (q t : PTRef)
    (n j : Nat) (solver next : MainSolver)
    (h : loopIteration backend q t j solver = some next) :
    unrollingLoop backend q t (n + 1) j solver = unrollingLoop backend q t n (j + 1) next := by
  unfold loopIteration at h
  rw [unrollingLoop]
  cases hq : sendFlaThroughTime q (j : Int) with
  | error e => rw [hq] at h; cases h
  | ok vq =>
    rw [hq] at h
    simp only [] at h
    simp only [bind, Except.bind]
    by_cases hc : ((solver.push).insertFormula vq).check backend = .s_True
    · rw [if_pos hc] at h; cases h
    · rw [if_neg hc] at h
      rw [if_neg hc]
      cases ht : sendFlaThroughTime t (j : Int) with
      | error e => rw [ht] at h; cases h
      | ok vt =>
        rw [ht] at h
        simp only [Option.some.injEq] at h
        rw [← h]

/-- The loop run from its start passes through the session of iteration `k`. -/
theorem unrollingLoop_resume (backend : List PTRef → sstat) (system : TransitionSystem) :
    ∀ (k : Nat) (solver : MainSolver), sessionAtIteration backend system k = some solver →
      ∀ n, unrollingLoop backend system.query system.transition (k + n) 0
          (MainSolver.fresh.insertFormula system.init)
        = unrollingLoop backend system.query system.transition n k solver := by
  intro k
  induction k with
  | zero =>
    intro solver h n
    simp only [sessionAtIteration, Option.some.injEq] at h
    rw [← h, Nat.zero_add]
  | succ k ih =>
    intro solver h n
    simp only [sessionAtIteration, Option.bind_eq_bind, Option.bind_eq_some] at h
    obtain ⟨prev, hprev, hstep⟩ := h
    have e : k + 1 + n = k + (n + 1) := by omega
    rw [e, ih prev hprev (n + 1)]
    exact unrollingLoop_of_loopIteration backend _ _ n k prev solver hstep

/-- The session of iteration `k` has one scope, which holds `init` and the transition
relation shifted by `0, ..., k - 1`. -/
theorem sessionAtIteration_frames (backend : List PTRef → sstat) (system : TransitionSystem) :
    ∀ (k : Nat) (solver : MainSolver), sessionAtIteration backend system k = some solver →
      ∃ trs, shiftedTransitions system.transition k = .ok trs ∧
        solver = ⟨[system.init :: trs]⟩ := by
  intro k
  induction k with
  | zero =>
    intro solver h
    simp only [sessionAtIteration, Option.some.injEq] at h
    exact ⟨[], rfl, by rw [← h]; rfl⟩
  | succ k ih =>
    intro solver h
    simp only [sessionAtIteration, Option.bind_eq_bind, Option.bind_eq_some] at h
    obtain ⟨prev, hprev, hstep⟩ := h
    obtain ⟨trs, htrs, rfl⟩ := ih prev hprev
    unfold loopIteration at hstep
    cases hq : sendFlaThroughTime system.query (k : Int) with
    | error e => rw [hq] at hstep; cases hstep
    | ok vq =>
      rw [hq] at hstep
      simp only [] at hstep
      split at hstep
      · cases hstep
      · cases ht : sendFlaThroughTime system.transition (k : Int) with
        | error e => rw [ht] at hstep; cases hstep
        | ok vt =>
          rw [ht] at hstep
          simp only [Option.some.injEq] at hstep
          refine ⟨trs ++ [vt], ?_, ?_⟩
          · simp [shiftedTransitions, htrs, ht, bind, Except.bind, pure, Except.pure]
          · rw [← hstep]
            simp [MainSolver.push, MainSolver.insertFormula, MainSolver.pop]

/-- A push, an assertion and the matching pop leave a session of one scope as it
was. -/
theorem push_insert_pop (A : List PTRef) (vq : PTRef) :
    ((MainSolver.mk [A]).push.insertFormula vq).depth = 1 ∧
    ((MainSolver.mk [A]).push.insertFormula vq).assertions = A ++ [vq] ∧
    ((MainSolver.mk [A]).push.insertFormula vq).pop = ⟨[A]⟩ := by
  simp [MainSolver.push, MainSolver.insertFormula, MainSolver.pop, MainSolver.depth,
    MainSolver.assertions]

/-- Sending a variable of version `n` by `j` steps gives a variable of version
`n + j`. -/
theorem getVersionNumber_sendVarThroughTime (v : PTRef) (n j : Int)
    (h : getVersionNumber v = .ok n) (hr : inIntRange (n + j)) :
    ∃ w, sendVarThroughTime v j = .ok w ∧ getVersionNumber w = .ok (n + j) := by
  obtain ⟨base, sort, hs⟩ := sendVarThroughTime_ok v n j h
  exact ⟨_, hs, (canonical_variable base sort (n + j) hr).2.1⟩

/-- C25. Solver-state invariant of the BMC loop: the session with which iteration `k`
of the loop of `solveTransitionSystemInternal` starts (the loop run from its start
continues from it with the remaining iterations) is at push depth 0 and its asserted
formulas are exactly `init` and the transition relation shifted by `0, 1, ..., k - 1`,
where shifting by `j` sends a variable of version `n` to version `n + j`; inside the
push the shifted query is asserted after them at depth 1, and the matching pop gives
the session back, so that no query is asserted when a later iteration starts. -/
theorem bmc_session_invariant (backend : List PTRef → sstat) (system : TransitionSystem)
    (k : Nat) (solver : MainSolver)
    (h : sessionAtIteration backend system k = some solver) :
    (∀ n, unrollingLoop backend system.query system.transition (k + n) 0
          (MainSolver.fresh.insertFormula system.init)
        = unrollingLoop backend system.query system.transition n k solver) ∧
    solver.depth = 0 ∧
    (∃ trs, shiftedTransitions system.transition k = .ok trs ∧
      solver.assertions = system.init :: trs) ∧
    (∀ vq : PTRef, ((solver.push).insertFormula vq).depth = 1 ∧
      ((solver.push).insertFormula vq).assertions = solver.assertions ++ [vq] ∧
      ((solver.push).insertFormula vq).pop = solver) ∧
    (∀ (j : Nat) (v : PTRef) (n : Int), getVersionNumber v = .ok n → inIntRange (n + j) →
      ∃ w, sendVarThroughTime v j = .ok w ∧ getVersionNumber w = .ok (n + j)) := by
  obtain ⟨trs, htrs, rfl⟩ := sessionAtIteration_frames backend system k solver h
  refine ⟨unrollingLoop_resume backend system k _ h, rfl, ⟨trs, htrs, ?_⟩, fun vq => ?_,
    fun j v n hv hr => getVersionNumber_sendVarThroughTime v n j hv hr⟩
  · simp [MainSolver.assertions]
  · have := push_insert_pop (system.init :: trs) vq
    simpa [MainSolver.assertions] using this

theorem bmc_session_invariant_witness :
    sessionAtIteration undecidedBackend counterSystem 2 =
        some ⟨[[counterSystem.init, .eq x1 (.app sym_plus [x0, .const "1" .num]),
          .eq (xAt 2) (.app sym_plus [x1, .const "1" .num])]]⟩ ∧
    (MainSolver.mk [[counterSystem.init, .eq x1 (.app sym_plus [x0, .const "1" .num]),
          .eq (xAt 2) (.app sym_plus [x1, .const "1" .num])]]).depth = 0 ∧
    ∃ trs, shiftedTransitions counterSystem.transition 2 = .ok trs ∧
      (MainSolver.mk [[counterSystem.init, .eq x1 (.app sym_plus [x0, .const "1" .num]),
          .eq (xAt 2) (.app sym_plus [x1, .const "1" .num])]]).assertions
        = counterSystem.init :: trs :=
  ⟨by decide, (bmc_session_invariant undecidedBackend counterSystem 2 _ (by decide)).2.1,
    (bmc_session_invariant undecidedBackend counterSystem 2 _ (by decide)).2.2.1⟩

/-! ## Shape and uniqueness of the extracted juncts -/

theorem purifyLoop_purified : ∀ (t : PTRef) (s : lbool), s ≠ .l_Undef →
    isNot (purifyLoop t s).tr = false ∧ (purifyLoop t s).sgn ≠ .l_Undef
  | .not a, s, h => by
      rw [purifyLoop]
      exact purifyLoop_purified a (s.xor true) (by cases s <;> simp [lbool.xor] at h ⊢)
  | .var n s0, s, h => by simp [purifyLoop, isNot, h]
  | .const n s0, s, h => by simp [purifyLoop, isNot, h]
  | .and as, s, h => by simp [purifyLoop, isNot, h]
  | .or as, s, h => by simp [purifyLoop, isNot, h]
  | .eq l r, s, h => by simp [purifyLoop, isNot, h]
  | .app f as, s, h => by simp [purifyLoop, isNot, h]

/-- The pair pushed for a child is purified. -/
theorem purified_child (c : PTRef) (flip : Bool) :
    purified ⟨(purify c).tr, (purify c).sgn.xor flip⟩ := by
  obtain ⟨h1, h2⟩ := purifyLoop_purified c .l_True (by simp)
  refine ⟨h1, ?_⟩
  show ((purify c).sgn.xor flip) ≠ .l_Undef
  unfold purify
  cases hs : (purifyLoop c .l_True).sgn <;> cases flip <;> simp [lbool.xor] <;>
    exact absurd hs h2

/-- Purified pairs with the same emitted term are the same pair. -/
theorem leafTerm_injective (p q : PtAsgn) (hp : purified p) (hq : purified q)
    (h : leafTerm p = leafTerm q) : p = q := by
  obtain ⟨pt, ps⟩ := p
  obtain ⟨qt, qs⟩ := q
  obtain ⟨hp1, hp2⟩ := hp
  obtain ⟨hq1, hq2⟩ := hq
  simp only at hp1 hp2 hq1 hq2
  unfold leafTerm mkNot at h
  cases ps <;> cases qs <;> simp at hp2 hq2 <;> simp at h
  · rw [h]
  · rw [h] at hp1; simp [isNot] at hp1
  · rw [← h] at hq1; simp [isNot] at hq1
  · rw [h]

/-- The juncts emitted by the loop: started on purified pairs with a result vector
without repetitions whose terms come from processed pairs, the loop returns a vector
without repetitions, and each of its new terms is the term of a purified pair that
is not expanded. -/
theorem getTopLevelJunctsLoop_leaves (J : Junction) (pred : PTRef → Bool)
    (queue isdup : List PtAsgn) (res : List PTRef) :
    (∀ p ∈ queue, purified p) → (∀ p ∈ isdup, purified p) → res.Nodup →
    (∀ c ∈ res, ∃ p ∈ isdup, c = leafTerm p) →
    (getTopLevelJunctsLoop J pred queue isdup res).Nodup ∧
    ∀ c ∈ getTopLevelJunctsLoop J pred queue isdup res, c ∈ res ∨
      ∃ p, purified p ∧ (J.isCorrectJunction p.tr && decide (p.sgn = .l_True)) = false ∧
        (J.isOtherJunction p.tr && decide (p.sgn = .l_False)) = false ∧ c = leafTerm p := by
  induction queue, isdup, res using getTopLevelJunctsLoop.induct J pred with
  | case1 isdup res =>
    intro _ _ hnd _
    rw [getTopLevelJunctsLoop]
    exact ⟨hnd, fun c hc => Or.inl hc⟩
  | case2 isdup res pta queue hdup ih =>
    intro hq hd hnd hres
    rw [getTopLevelJunctsLoop, if_pos hdup]
    exact ih (fun x hx => hq x (by simp [hx])) hd hnd hres
  | case3 isdup res pta queue hdup hc ih =>
    intro hq hd hnd hres
    rw [getTopLevelJunctsLoop, if_neg hdup, if_pos hc]
    refine ih ?_ ?_ hnd ?_
    · intro q hqm
      rcases (mem_pushChildren false _ _ _).mp hqm with h | ⟨c, _, rfl⟩
      · exact hq q (by simp [h])
      · exact purified_child c false
    · intro p hp
      rcases List.mem_cons.mp hp with h | h
      · rw [h]; exact hq pta (by simp)
      · exact hd p h
    · intro c hcm
      obtain ⟨p, hp, e⟩ := hres c hcm
      exact ⟨p, by simp [hp], e⟩
  | case4 isdup res pta queue hdup hc ho ih =>
    intro hq hd hnd hres
    rw [getTopLevelJunctsLoop, if_neg hdup, if_neg hc, if_pos ho]
    refine ih ?_ ?_ hnd ?_
    · intro q hqm
      rcases (mem_pushChildren true _ _ _).mp hqm with h | ⟨c, _, rfl⟩
      · exact hq q (by simp [h])
      · exact purified_child c true
    · intro p hp
      rcases List.mem_cons.mp hp with h | h
      · rw [h]; exact hq pta (by simp)
      · exact hd p h
    · intro c hcm
      obtain ⟨p, hp, e⟩ := hres c hcm
      exact ⟨p, by simp [hp], e⟩
  | case5 isdup res pta queue hdup hc ho term ih =>
    intro hq hd hnd hres
    rw [getTopLevelJunctsLoop, if_neg hdup, if_neg hc, if_neg ho]
    have hpta : purified pta := hq pta (by simp)
    have hterm : term = leafTerm pta := rfl
    have hfresh : term ∉ res := by
      intro hmem
      obtain ⟨p, hp, e⟩ := hres term hmem
      have : pta = p := leafTerm_injective pta p hpta (hd p hp) (by rw [← hterm, e])
      exact hdup (by rw [this]; exact hp)
    have hd2 : ∀ p ∈ pta :: isdup, purified p := by
      intro p hp
      rcases List.mem_cons.mp hp with h | h
      · rw [h]; exact hpta
      · exact hd p h
    have hstep := ih (fun x hx => hq x (by simp [hx])) hd2
    have hleaf : ∃ p, purified p ∧
        (J.isCorrectJunction p.tr && decide (p.sgn = .l_True)) = false ∧
        (J.isOtherJunction p.tr && decide (p.sgn = .l_False)) = false ∧ term = leafTerm p :=
      ⟨pta, hpta, by simpa using hc, by simpa using ho, hterm⟩
    by_cases hp : pred term = true
    · rw [dif_pos hp] at hstep
      have hp2 : pred (if pta.sgn = .l_False then mkNot pta.tr else pta.tr) = true := hp
      simp only []
      rw [if_pos hp2]
      have hnd2 : (res ++ [term]).Nodup := by
        rw [List.nodup_append]
        refine ⟨hnd, by simp, ?_⟩
        intro a ha hb
        simp only [List.mem_singleton] at hb
        exact hfresh (hb ▸ ha)
      obtain ⟨r1, r2⟩ := hstep hnd2 (by
        intro c hcm
        simp only [List.mem_append, List.mem_singleton] at hcm
        rcases hcm with h | h
        · obtain ⟨p, hp, e⟩ := hres c h
          exact ⟨p, by simp [hp], e⟩
        · exact ⟨pta, by simp, by rw [h, hterm]⟩)
      refine ⟨r1, fun c hcm => ?_⟩
      rcases r2 c hcm with h | h
      · simp only [List.mem_append, List.mem_singleton] at h
        rcases h with h | h
        · exact Or.inl h
        · exact Or.inr (h ▸ hleaf)
      · exact Or.inr h
    · rw [dif_neg hp] at hstep
      have hp2 : ¬ pred (if pta.sgn = .l_False then mkNot pta.tr else pta.tr) = true := hp
      simp only []
      rw [if_neg hp2]
      obtain ⟨r1, r2⟩ := hstep hnd (by
        intro c hcm
        obtain ⟨p, hp, e⟩ := hres c hcm
        exact ⟨p, by simp [hp], e⟩)
      exact ⟨r1, r2⟩

/-- A purified pair that the conjunction mode does not expand emits a term that is
neither a conjunction nor the negation of a disjunction. -/
theorem conjunct_leaf_shape (p : PtAsgn) (hp : purified p)
    (hc : (isAnd p.tr && decide (p.sgn = .l_True)) = false)
    (ho : (isOr p.tr && decide (p.sgn = .l_False)) = false) :
    isAnd (leafTerm p) = false ∧ ∀ a, leafTerm p = .not a → isOr a = false := by
  obtain ⟨t, s⟩ := p
  obtain ⟨h1, h2⟩ := hp
  simp only at h1 h2 hc ho
  unfold leafTerm mkNot
  cases s with
  | l_Undef => exact absurd rfl h2
  | l_False =>
    simp only [if_true]
    refine ⟨rfl, fun a ha => ?_⟩
    simp only [PTRef.not.injEq] at ha
    rw [← ha]
    simpa using ho
  | l_True =>
    simp only [reduceCtorEq, if_false]
    refine ⟨by simpa using hc, fun a ha => ?_⟩
    rw [ha] at h1
    simp [isNot] at h1

/-- A disjunction is its own single conjunct. -/
theorem getTopLevelConjuncts_of_or (R : PTRef) (h : isOr R = true) :
    getTopLevelConjuncts R (fun _ => true) = [R] := by
  have hR := isOr_eq R h
  rw [hR]
  simp [getTopLevelConjuncts, getTopLevelJuncts, getTopLevelJunctsLoop, purify, purifyLoop,
    Conjunction, isAnd, isOr]

/-- The conjuncts of a term, under any filter: none is a conjunction or the negation
of a disjunction, and none is repeated. -/
theorem getTopLevelConjuncts_shape (R : PTRef) (pred : PTRef → Bool) :
    (getTopLevelConjuncts R pred).Nodup ∧
    ∀ c ∈ getTopLevelConjuncts R pred,
      isAnd c = false ∧ ∀ a, c = .not a → isOr a = false := by
  have hroot : ∀ p ∈ [purify R], purified p := by
    intro p hp
    simp only [List.mem_singleton] at hp
    rw [hp]
    exact purifyLoop_purified R .l_True (by simp)
  obtain ⟨h1, h2⟩ := getTopLevelJunctsLoop_leaves Conjunction pred [purify R] [] [] hroot
    (by simp) (by simp) (by simp)
  refine ⟨h1, fun c hc => ?_⟩
  rcases h2 c hc with h | ⟨p, hp, hcj, hoj, rfl⟩
  · simp at h
  · exact conjunct_leaf_shape p hp hcj hoj

/-- C26. In Conjunction mode every top-level conjunction is fully expanded and nothing
else is: no term returned by `getTopLevelConjuncts R` is an `and` application and none
is the negation of an `or` application, while a root that is an `or` is returned as
the single junct `[R]`; and the result contains no duplicates. -/
theorem conjuncts_fully_expanded (R : PTRef) :
    (∀ c ∈ getTopLevelConjuncts R (fun _ => true),
      isAnd c = false ∧ ∀ a, c = .not a → isOr a = false) ∧
    (isOr R = true → getTopLevelConjuncts R (fun _ => true) = [R]) ∧
    (getTopLevelConjuncts R (fun _ => true)).Nodup :=
  ⟨(getTopLevelConjuncts_shape R _).2, getTopLevelConjuncts_of_or R,
    (getTopLevelConjuncts_shape R _).1⟩

theorem conjuncts_fully_expanded_witness :
    getTopLevelConjuncts (.or [atomA, atomB]) (fun _ => true) = [.or [atomA, atomB]] ∧
    (getTopLevelConjuncts (.and [atomA, .and [atomB, atomA], .not (.or [atomA, atomB])])
      (fun _ => true)).Nodup :=
  ⟨(conjuncts_fully_expanded (.or [atomA, atomB])).2.1 rfl,
    (conjuncts_fully_expanded _).2.2⟩

/-! ## The test for non-linearity -/

/-- The method `nonLinearity` answers `true` exactly for an `and` with at least two
arguments that are applications or terminals of type `VAR`. -/
theorem nonLinearity_eq_true_iff (operation : String) (args : List Term) :
    Op.nonLinearity operation args = true ↔
      operation = "and" ∧
      2 ≤ args.countP fun arg =>
        decide (arg.getTermType = .APP) || decide (arg.getTerminalType = .VAR) := by
  unfold Op.nonLinearity
  by_cases h : operation = "and"
  · simp [h]
  · simp [h]

/-- An application is counted by `nonLinearity`. -/
theorem countApplications_le (args : List Term) :
    countApplications args ≤
      args.countP fun arg =>
        decide (arg.getTermType = .APP) || decide (arg.getTerminalType = .VAR) := by
  unfold countApplications
  apply List.countP_mono_left
  intro a _ h
  simp only [decide_eq_true_eq] at h
  simp [h]

/-- C27, the claim as stated fails: `nonLinearity` answers `true` on the conjunction
`(and x y)` of two terminals of type `VAR`, none of whose arguments is a predicate
application. -/
theorem nonLinearity_counts_variables :
    Op.nonLinearity "and" [.Terminal "x" .VAR, .Terminal "y" .VAR] = true ∧
    countApplications [.Terminal "x" .VAR, .Terminal "y" .VAR] = 0 := by
  decide

/-- C27, amended. The method `nonLinearity` returns `true` if and only if the operation
is `and` and at least two of its arguments are applications or terminals of type
`VAR`; hence it returns `false` for every operation other than `and`, and `true`
for every `and` with at least two predicate applications among its arguments. -/
theorem nonLinearity_characterisation (operation : String) (args : List Term) :
    (Op.nonLinearity operation args = true ↔
      operation = "and" ∧
      2 ≤ args.countP fun arg =>
        decide (arg.getTermType = .APP) || decide (arg.getTerminalType = .VAR)) ∧
    (operation ≠ "and" → Op.nonLinearity operation args = false) ∧
    (2 ≤ countApplications args → Op.nonLinearity "and" args = true) := by
  refine ⟨nonLinearity_eq_true_iff operation args, fun h => ?_, fun h => ?_⟩
  · simp [Op.nonLinearity, h]
  · exact (nonLinearity_eq_true_iff "and" args).mpr
      ⟨rfl, le_trans h (countApplications_le args)⟩

theorem nonLinearity_characterisation_witness :
    Op.nonLinearity "or" [predicateP, predicateQ] = false ∧
    Op.nonLinearity "and" [predicateP, predicateQ] = true :=
  ⟨(nonLinearity_characterisation "or" [predicateP, predicateQ]).2.1 (by decide),
    (nonLinearity_characterisation "and" [predicateP, predicateQ]).2.2 (by decide)⟩

/-! ## Arithmetic on printed integer constants -/

/-- A digit is none of the characters that are stripped or that separate a
denominator. -/
theorem isDigit_not_punctuation (c : Char) (h : c.isDigit = true) :
    c ≠ '(' ∧ c ≠ ')' ∧ c ≠ ' ' ∧ c ≠ '/' ∧ c ≠ '-' := by
  obtain ⟨h1, h2⟩ := isDigit_bounds c h
  refine ⟨?_, ?_, ?_, ?_, ?_⟩ <;> (rintro rfl; simp at h1)

/-- The rendering of a number that is not negative: digits that denote it. -/
theorem to_string_of_nonneg (n : Int) (h : 0 ≤ n) :
    to_string n ≠ [] ∧ (∀ c ∈ to_string n, c.isDigit = true) ∧
      (digitsValue (to_string n) : Int) = n := by
  obtain ⟨h1, h2, h3⟩ := natDigits_spec (n.natAbs + 1) n.natAbs (Nat.lt_succ_self _)
  have e : to_string n = natDigits (n.natAbs + 1) n.natAbs := by
    rw [to_string_eq, if_neg (by omega)]
    rfl
  rw [e]
  refine ⟨h1, h2, ?_⟩
  rw [h3]
  omega

/-- Stripping leaves a run of digits as it is. -/
theorem filter_digits (ds : List Char) (h : ∀ c ∈ ds, c.isDigit = true) :
    ((ds.filter (fun c => c ≠ '(')).filter (fun c => c ≠ ')')).filter (fun c => c ≠ ' ') = ds := by
  induction ds with
  | nil => rfl
  | cons d ds ih =>
    obtain ⟨h1, h2, h3, _, _⟩ := isDigit_not_punctuation d (h d (by simp))
    simp only [List.filter_cons, h1, h2, h3, ne_eq, not_false_eq_true, decide_True, if_true]
    rw [ih (fun c hc => h c (by simp [hc]))]

/-- Stripping the encoding of an integer constant gives its numeral with a minus sign
in front when it is negative. -/
theorem stripped_encodeInt (i : Int) :
    stripped (encodeInt i) = if i < 0 then '-' :: to_string (-i) else to_string i := by
  unfold stripped encodeInt
  by_cases h : i < 0
  · obtain ⟨_, hd, _⟩ := to_string_of_nonneg (-i) (by omega)
    simp only [h, if_true]
    have e : ("(- ".data ++ to_string (-i) ++ ")".data) =
        '(' :: '-' :: ' ' :: (to_string (-i) ++ [')']) := rfl
    rw [e]
    simp only [List.filter_cons, List.filter_append, List.filter_nil, ne_eq,
      Char.reduceEq, not_true_eq_false, not_false_eq_true, decide_True, decide_False,
      if_true, Bool.false_eq_true, if_false, List.append_nil]
    rw [filter_digits _ hd]
  · obtain ⟨_, hd, _⟩ := to_string_of_nonneg i (by omega)
    simp only [h, if_false]
    exact filter_digits _ hd

/-- Reading a run of digits. -/
theorem readInteger_digits (ds : List Char) (hne : ds ≠ [])
    (h : ∀ c ∈ ds, c.isDigit = true) : readInteger ds = some (digitsValue ds : Int) := by
  cases ds with
  | nil => exact absurd rfl hne
  | cons d ds =>
    obtain ⟨_, _, _, _, hm⟩ := isDigit_not_punctuation d (h d (by simp))
    have hall : (d :: ds).all Char.isDigit = true := List.all_eq_true.mpr h
    unfold readInteger
    split
    · rename_i heq
      simp only [List.cons.injEq] at heq
      exact absurd heq.1 hm
    · simp [hall]

/-- Reading a minus sign and a run of digits. -/
theorem readInteger_minus_digits (ds : List Char) (hne : ds ≠ [])
    (h : ∀ c ∈ ds, c.isDigit = true) :
    readInteger ('-' :: ds) = some (-(digitsValue ds : Int)) := by
  have hall : ds.all Char.isDigit = true := List.all_eq_true.mpr h
  simp [readInteger, hne, hall]

/-- The printed and stripped encoding of an integer constant is read as that
integer. -/
theorem ofString_stripped_encodeInt (i : Int) :
    FastRational.ofString (stripped (encodeInt i)) = (i : ℚ) := by
  rw [stripped_encodeInt]
  by_cases h : i < 0
  · obtain ⟨hne, hd, hv⟩ := to_string_of_nonneg (-i) (by omega)
    rw [if_pos h]
    have hslash : '/' ∉ '-' :: to_string (-i) := by
      intro hmem
      rcases List.mem_cons.mp hmem with h1 | h1
      · exact absurd h1 (by decide)
      · exact (isDigit_not_punctuation _ (hd _ h1)).2.2.2.1 rfl
    unfold FastRational.ofString
    rw [if_neg hslash, readInteger_minus_digits _ hne hd, hv]
    simp
  · obtain ⟨hne, hd, hv⟩ := to_string_of_nonneg i (by omega)
    rw [if_neg h]
    have hslash : '/' ∉ to_string i := fun hmem =>
      (isDigit_not_punctuation _ (hd _ hmem)).2.2.2.1 rfl
    unfold FastRational.ofString
    rw [if_neg hslash, readInteger_digits _ hne hd, hv]

/-- The rendering of an integer. -/
theorem get_str_intCast (i : Int) : FastRational.get_str (i : ℚ) = to_string i := by
  simp [FastRational.get_str]

/-- The terminal written for an integer result is the terminal of that integer. -/
theorem numberTerminal_intCast (i : Int) : numberTerminal (i : ℚ) = intTerminal i := by
  unfold numberTerminal intTerminal encodeInt
  by_cases h : i < 0
  · have hq : ((i : ℚ) < 0) := by exact_mod_cast h
    have e : (i : ℚ) * -1 = ((-i : Int) : ℚ) := by push_cast; ring
    rw [if_pos hq, if_pos h, e, get_str_intCast]
  · have hq : ¬ ((i : ℚ) < 0) := by exact_mod_cast h
    rw [if_neg hq, if_neg h, get_str_intCast]

/-- A term that prints as the encoding of an integer and is not a variable. -/
theorem operand_value (a : Term) (i : Int) (h : printTerm a = encodeInt i) :
    FastRational.ofString (stripped (printTerm a)) = (i : ℚ) := by
  rw [h, ofString_stripped_encodeInt]

/-- The loop of `+` adds the integers that its arguments print. -/
theorem sumLoop_integers : ∀ (args : List Term) (xs : List Int) (result : ℚ),
    List.Forall₂ (fun a i => a.getTerminalType ≠ .VAR ∧ printTerm a = encodeInt i) args xs →
      OperateVisitor.sumLoop args result = .ok (result + ((xs.sum : Int) : ℚ))
  | [], _, result, h => by
      cases h
      simp [OperateVisitor.sumLoop, pure, Except.pure]
  | a :: args, _, result, h => by
      cases h with
      | cons hhead htail =>
        rename_i i xs
        rw [OperateVisitor.sumLoop, if_neg hhead.1, operand_value a i hhead.2,
          sumLoop_integers args xs _ htail]
        simp [add_assoc]

/-- The operands of a binary operation on two integer constants. -/
theorem operands_integers (op : String) (a b : Term) (rest : List Term) (i j : Int)
    (hop : op = "<" ∨ op = "<=" ∨ op = "-" ∨ op = "*" ∨ op = "/" ∨ op = "mod" ∨ op = "div")
    (ha : a.getTerminalType ≠ .VAR ∧ printTerm a = encodeInt i)
    (hb : b.getTerminalType ≠ .VAR ∧ printTerm b = encodeInt j) :
    OperateVisitor.operands op (a :: b :: rest) = .ok ((i : ℚ), (j : ℚ)) := by
  unfold OperateVisitor.operands
  rw [if_pos hop]
  simp only [ha.1, hb.1, if_false, operand_value a i ha.2, operand_value b j hb.2]
  rfl

/-- The terminal of an integer constant prints as its encoding and is not a
variable. -/
theorem intTerminal_operand (i : Int) :
    (intTerminal i).getTerminalType ≠ .VAR ∧ printTerm (intTerminal i) = encodeInt i := by
  simp [intTerminal, Term.getTerminalType, printTerm]

/-- The sum of integer constants. -/
theorem operate_plus (rem : ℚ → ℚ → ℚ) (args : List Term) (xs : List Int)
    (h : List.Forall₂ (fun a i => a.getTerminalType ≠ .VAR ∧ printTerm a = encodeInt i)
      args xs) :
    OperateVisitor.visit rem "+" args = .ok (intTerminal xs.sum) := by
  have hs := sumLoop_integers args xs 0 h
  simp only [OperateVisitor.visit, OperateVisitor.operands, String.reduceEq, or_self, if_false,
    bind, Except.bind, pure, Except.pure, hs, zero_add, numberTerminal_intCast, if_true]

/-- The difference of two integer constants. -/
theorem operate_minus (rem : ℚ → ℚ → ℚ) (a b : Term) (i j : Int)
    (ha : a.getTerminalType ≠ .VAR ∧ printTerm a = encodeInt i)
    (hb : b.getTerminalType ≠ .VAR ∧ printTerm b = encodeInt j) :
    OperateVisitor.visit rem "-" [a, b] = .ok (intTerminal (i - j)) := by
  have ho := operands_integers "-" a b [] i j (by simp) ha hb
  have e : (i : ℚ) - (j : ℚ) = ((i - j : Int) : ℚ) := by push_cast; ring
  simp only [OperateVisitor.visit, ho, String.reduceEq, if_false, if_true,
    bind, Except.bind, pure, Except.pure, e, numberTerminal_intCast]

/-- The product of two integer constants. -/
theorem operate_times (rem : ℚ → ℚ → ℚ) (a b : Term) (i j : Int)
    (ha : a.getTerminalType ≠ .VAR ∧ printTerm a = encodeInt i)
    (hb : b.getTerminalType ≠ .VAR ∧ printTerm b = encodeInt j) :
    OperateVisitor.visit rem "*" [a, b] = .ok (intTerminal (i * j)) := by
  have ho := operands_integers "*" a b [] i j (by simp) ha hb
  have e : (i : ℚ) * (j : ℚ) = ((i * j : Int) : ℚ) := by push_cast; ring
  simp only [OperateVisitor.visit, ho, String.reduceEq, if_false, if_true,
    bind, Except.bind, pure, Except.pure, e, numberTerminal_intCast]

/-- C28. For integer constant operands, with negative numerals encoded as `(- n)`,
`OperateVisitor::visit(Op)` on `+` (any number of arguments), `-` and `*` (two
arguments) returns the terminal of type `INT` that encodes the exact integer sum,
difference or product, a negative result being encoded as `(- n)` and another one
as its plain numeral; in each of these operations an operand is read as the same
value, the integer that it encodes. -/
theorem operate_integer_arithmetic (rem : ℚ → ℚ → ℚ) :
    (∀ (args : List Term) (xs : List Int),
      List.Forall₂ (fun a i => a.getTerminalType ≠ .VAR ∧ printTerm a = encodeInt i) args xs →
        OperateVisitor.visit rem "+" args = .ok (intTerminal xs.sum)) ∧
    (∀ i j : Int, OperateVisitor.visit rem "-" [intTerminal i, intTerminal j]
      = .ok (intTerminal (i - j))) ∧
    (∀ i j : Int, OperateVisitor.visit rem "*" [intTerminal i, intTerminal j]
      = .ok (intTerminal (i * j))) ∧
    (∀ i : Int, FastRational.ofString (stripped (printTerm (intTerminal i))) = (i : ℚ)) ∧
    (∀ i : Int, intTerminal i =
      .Terminal (if i < 0 then String.mk ("(- ".data ++ to_string (-i) ++ ")".data)
        else String.mk (to_string i)) .INT) :=
  ⟨fun args xs h => operate_plus rem args xs h,
    fun i j => operate_minus rem _ _ i j (intTerminal_operand i) (intTerminal_operand j),
    fun i j => operate_times rem _ _ i j (intTerminal_operand i) (intTerminal_operand j),
    fun i => operand_value _ i (intTerminal_operand i).2,
    fun _ => rfl⟩

theorem operate_integer_arithmetic_witness :
    OperateVisitor.visit (fun _ _ => 0) "+"
        [.Terminal "5" .INT, .Terminal "(- 7)" .INT, .Op "-" [.Terminal "3" .INT]]
      = .ok (.Terminal "(- 5)" .INT) :=
  ((operate_integer_arithmetic (fun _ _ => 0)).1
    [.Terminal "5" .INT, .Terminal "(- 7)" .INT, .Op "-" [.Terminal "3" .INT]] [5, -7, -3]
    (.cons ⟨by decide, by decide⟩ (.cons ⟨by decide, by decide⟩
      (.cons ⟨by decide, by decide⟩ .nil)))).trans (by decide)

/-! ## The recursion of the congruence chains -/

/-- A conjunction of two predicate applications is evaluated to itself. -/
theorem operate_and_predicates (rem : ℚ → ℚ → ℚ) :
    OperateVisitor.visit rem "and" [predicateP, predicateQ] =
      .ok (.Op "and" [predicateP, predicateQ]) := by
  rfl

/-- The visit of a conjunction of two predicate applications records one step and
returns the conjunction. -/
theorem visit_and_predicates (rem : ℚ → ℚ → ℚ) (fuel : Nat) (self : CongChainVisitor) :
    CongChainVisitor.visit rem (fuel + 1) self (.Op "and" [predicateP, predicateQ]) =
      some (.ok (.Op "and" [predicateP, predicateQ],
        ({ self with transCase := 0 } : CongChainVisitor).emit
          (.Op "=" [.Op "and" [predicateP, predicateQ], .Op "and" [predicateP, predicateQ]])
          [] "and_simplify")) := by
  rfl

/-- The visit of an operation on a conjunction of two predicate applications does not
return, however deep the calls may go: the conjunction is visited to itself, the
operation is rebuilt as it was and visited again. -/
theorem visit_over_conjunction (rem : ℚ → ℚ → ℚ) (op : String) :
    ∀ (fuel : Nat) (self : CongChainVisitor),
      CongChainVisitor.visit rem fuel self (.Op op [.Op "and" [predicateP, predicateQ]])
        = none := by
  intro fuel
  induction fuel with
  | zero => intro self; rfl
  | succ fuel ih =>
    intro self
    cases fuel with
    | zero => rfl
    | succ fuel =>
      rw [CongChainVisitor.visit]
      simp only [List.all_cons, List.all_nil, Term.getTermType, reduceCtorEq, or_self,
        decide_False, Bool.false_and, Bool.false_eq_true, if_false]
      simp only [CongChainVisitor.visitArgs, visit_and_predicates]
      simp only [List.nil_append]
      rw [ih]

/-- C29, a counterexample in the code: the visit of `(not (and (P 1) (Q 2)))` by
`CongChainVisitor` does not return, whatever bound is put on the depth of its
calls and whatever the state of the visitor is, and the same holds with any
operation in the place of `not`; the conjunction `(and (P 1) (Q 2))` alone is
visited in one call and returned as it is. -/
theorem congruence_chain_diverges (rem : ℚ → ℚ → ℚ) :
    (∀ (fuel : Nat) (self : CongChainVisitor),
      CongChainVisitor.visit rem fuel self negatedConjunction = none) ∧
    (∀ (op : String) (fuel : Nat) (self : CongChainVisitor),
      CongChainVisitor.visit rem fuel self (.Op op [.Op "and" [predicateP, predicateQ]])
        = none) ∧
    (∃ self, CongChainVisitor.visit rem 1 CongChainVisitor.start
      (.Op "and" [predicateP, predicateQ])
        = some (.ok (.Op "and" [predicateP, predicateQ], self))) :=
  ⟨visit_over_conjunction rem "not", visit_over_conjunction rem,
    ⟨_, visit_and_predicates rem 0 CongChainVisitor.start⟩⟩

/-! ## The premises of the congruence chains -/

/-- C30, a counterexample in the code: the visit of `(> (+ 1 2) 2)` emits nine steps;
the `cong` step of the outer call has number 1 and the last step emitted while the
rebuilt term `(> 3 2)` is visited again has number 7, but the final `trans` step,
number 8, has the premises 6 and 7. The visit of `(>= (+ 1 2) 2)` emits six steps
and its final `trans` step has the premises 1 and 4, the number of the `cong` step
and the number of the last step of the second visit. In both chains every premise
is smaller than the number of its step. -/
theorem final_trans_premises (rem : ℚ → ℚ → ℚ) :
    traceOf (CongChainVisitor.visit rem 2 CongChainVisitor.start sumComparison) =
      some [(0, [], "sum_simplify"), (1, [0], "cong"), (2, [], "comp_simplify"),
        (3, [], "comp_simplify"), (4, [3], "cong"), (5, [], "not_simplify"),
        (6, [4, 5], "trans"), (7, [2, 6], "trans"), (8, [6, 7], "trans")] ∧
    traceOf (CongChainVisitor.visit rem 2 CongChainVisitor.start sumComparisonEq) =
      some [(0, [], "sum_simplify"), (1, [0], "cong"), (2, [], "comp_simplify"),
        (3, [], "comp_simplify"), (4, [2, 3], "trans"), (5, [1, 4], "trans")] := by
  constructor
  · with_unfolding_all rfl
  · with_unfolding_all rfl

/-! ## The loop that erases unused bound variables -/

/-- Past the end of the variables the loop stops. -/
theorem eraseLoop_of_length_le (varsInUse : List String) (fuel i : Nat)
    (vars sorts : List Term) (h : vars.length ≤ i) :
    RemoveUnusedVisitor.eraseLoop varsInUse fuel i vars sorts = (vars, sorts) := by
  cases fuel with
  | zero => rfl
  | succ fuel =>
    rw [RemoveUnusedVisitor.eraseLoop, List.get?_eq_none.mpr h]

/-- The variables that the loop leaves: started at position `pre.length` on the
variables `pre ++ rest`, it keeps `pre` and leaves of `rest` what `keptAfterErasing`
describes. -/
theorem eraseLoop_vars (varsInUse : List String) :
    ∀ (fuel : Nat) (pre rest sorts : List Term), rest.length ≤ fuel →
      (RemoveUnusedVisitor.eraseLoop varsInUse fuel pre.length (pre ++ rest) sorts).1
        = pre ++ keptAfterErasing varsInUse rest := by
  intro fuel
  induction fuel with
  | zero =>
    intro pre rest sorts h
    have : rest = [] := List.length_eq_zero.mp (by omega)
    subst this
    simp [RemoveUnusedVisitor.eraseLoop, keptAfterErasing]
  | succ fuel ih =>
    intro pre rest sorts h
    cases rest with
    | nil =>
      rw [eraseLoop_of_length_le _ _ _ _ _ (by simp)]
      simp [keptAfterErasing]
    | cons var rest =>
      rw [RemoveUnusedVisitor.eraseLoop]
      have hget : (pre ++ var :: rest).get? pre.length = some var := by
        rw [List.get?_eq_getElem?, List.getElem?_append_right (le_refl _)]
        simp
      rw [hget]
      simp only []
      by_cases hu : varsInUse.any (fun varInUse => printTerm var = varInUse) = true
      · simp only [hu, Bool.not_true, Bool.false_eq_true, if_false]
        have e : pre ++ var :: rest = (pre ++ [var]) ++ rest := by simp
        have hl : pre.length + 1 = (pre ++ [var]).length := by simp
        rw [e, hl, ih (pre ++ [var]) rest sorts (by simpa using h)]
        cases rest with
        | nil => simp [keptAfterErasing, hu]
        | cons next rest => simp [keptAfterErasing, hu]
      · have hu2 : varsInUse.any (fun varInUse => printTerm var = varInUse) = false :=
          Bool.eq_false_iff.mpr hu
        simp only [hu2, Bool.not_false, if_true]
        have herase : (pre ++ var :: rest).eraseIdx pre.length = pre ++ rest := by
          rw [List.eraseIdx_append_of_length_le (le_refl _)]
          simp
        rw [herase]
        cases rest with
        | nil =>
          rw [eraseLoop_of_length_le _ _ _ _ _ (by simp)]
          simp [keptAfterErasing, hu2]
        | cons next rest =>
          have e : pre ++ next :: rest = (pre ++ [next]) ++ rest := by simp
          have hl : pre.length + 1 = (pre ++ [next]).length := by simp
          rw [e, hl, ih (pre ++ [next]) rest _ (by simp at h; omega)]
          simp [keptAfterErasing, hu2]

/-- The variables bound by the result of the visit of a `Quant`. -/
theorem visitQuant_vars (vars sorts : List Term) (coreTerm : Term) :
    (RemoveUnusedVisitor.eraseLoop (RemoveUnusedVisitor.visit coreTerm []) vars.length 0
        vars sorts).1
      = keptAfterErasing (RemoveUnusedVisitor.visit coreTerm []) vars := by
  have := eraseLoop_vars (RemoveUnusedVisitor.visit coreTerm []) vars.length [] vars sorts
    (le_refl _)
  simpa using this

/-- C31, a counterexample in the code: a fresh `RemoveUnusedVisitor` on
`(forall ((x Int) (y Int)) (> 1 0))`, where no bound variable occurs in the core
term, returns `(forall ((y Int)) (> 1 0))` and not the core term; on
`(forall ((x Int) (y Int) (z Int)) (> z 0))` it returns the quantifier over `y` and
`z`, although `y` does not occur in the core term. In general the variables that the
result binds are those that `keptAfterErasing` describes: after a variable that is
erased the next one is kept without a test. -/
theorem remove_unused_skips_variable :
    (RemoveUnusedVisitor.accept [] unusedPair =
        some (.Quant "forall" [.Terminal "y" .VAR] [sortInt]
          (.Op ">" [.Terminal "1" .INT, .Terminal "0" .INT])) ∧
      removeUnusedSpec "forall" [.Terminal "x" .VAR, .Terminal "y" .VAR] [sortInt, sortInt]
          (.Op ">" [.Terminal "1" .INT, .Terminal "0" .INT])
        = .Op ">" [.Terminal "1" .INT, .Terminal "0" .INT]) ∧
    (RemoveUnusedVisitor.accept [] unusedBeforeUsed =
        some (.Quant "forall" [.Terminal "y" .VAR, .Terminal "z" .VAR] [sortInt, sortInt]
          (.Op ">" [.Terminal "z" .VAR, .Terminal "0" .INT])) ∧
      removeUnusedSpec "forall" [.Terminal "x" .VAR, .Terminal "y" .VAR, .Terminal "z" .VAR]
          [sortInt, sortInt, sortInt] (.Op ">" [.Terminal "z" .VAR, .Terminal "0" .INT])
        = .Quant "forall" [.Terminal "z" .VAR] [sortInt]
          (.Op ">" [.Terminal "z" .VAR, .Terminal "0" .INT])) ∧
    (∀ (quant : String) (vars sorts : List Term) (coreTerm : Term),
      ∃ sorts2, RemoveUnusedVisitor.accept [] (.Quant quant vars sorts coreTerm) =
        some (if (keptAfterErasing (RemoveUnusedVisitor.visit coreTerm []) vars).isEmpty
          then coreTerm
          else .Quant quant (keptAfterErasing (RemoveUnusedVisitor.visit coreTerm []) vars)
            sorts2 coreTerm)) := by
  refine ⟨by decide, by decide, fun quant vars sorts coreTerm => ?_⟩
  refine ⟨(RemoveUnusedVisitor.eraseLoop (RemoveUnusedVisitor.visit coreTerm []) vars.length 0
    vars sorts).2, ?_⟩
  simp only [RemoveUnusedVisitor.accept, RemoveUnusedVisitor.visitQuant,
    visitQuant_vars vars sorts coreTerm]

/-! ## Instantiation of variables -/

/-- The instance of a terminal is not a variable named by a pair. -/
theorem instantiate_terminal (instPairs : List (String × String)) (val : String)
    (type : terminalType) :
    (InstantiateVisitor.visit instPairs (.Terminal val type)).hasVarAmong
      (instPairs.map Prod.fst) = false := by
  rw [InstantiateVisitor.visit]
  by_cases ht : type = .VAR
  · subst ht
    simp only [ne_eq, not_true_eq_false, if_false]
    cases hf : instPairs.find? (fun pair => decide (val = pair.1)) with
    | some pair =>
      simp only []
      split
      · simp [Term.hasVarAmong]
      · split <;> simp [Term.hasVarAmong]
    | none =>
      simp only [Term.hasVarAmong, decide_True, Bool.true_and]
      rw [List.find?_eq_none] at hf
      rw [← Bool.not_eq_true, List.contains_iff_exists_mem_beq]
      rintro ⟨name, hname, heq⟩
      obtain ⟨pair, hp, rfl⟩ := List.mem_map.mp hname
      have := hf pair hp
      simp only [beq_iff_eq] at heq
      simp [heq] at this
  · simp [ht, Term.hasVarAmong]

mutual
/-- The instance of a term built without `Let` contains no variable named by a
pair. -/
theorem instantiate_letFree (instPairs : List (String × String)) :
    ∀ t : Term, t.letFree = true →
      (InstantiateVisitor.visit instPairs t).hasVarAmong (instPairs.map Prod.fst) = false
  | .Terminal val type, _ => instantiate_terminal instPairs val type
  | .Op op args, h => by
      rw [InstantiateVisitor.visit, Term.hasVarAmong]
      exact instantiateEach_letFree instPairs args (by simpa [Term.letFree] using h)
  | .App fn args, h => by
      rw [InstantiateVisitor.visit, Term.hasVarAmong]
      exact instantiateEach_letFree instPairs args (by simpa [Term.letFree] using h)
  | .Quant q vars sorts coreTerm, h => by
      rw [InstantiateVisitor.visit]
      simp only [Term.letFree, Bool.and_eq_true] at h
      exact instantiate_letFree instPairs coreTerm h.2
  | .Let _ _ _, h => by simp [Term.letFree] at h
theorem instantiateEach_letFree (instPairs : List (String × String)) :
    ∀ ts : List Term, Term.letFreeEach ts = true →
      Term.hasVarAmongEach (instPairs.map Prod.fst)
        (InstantiateVisitor.visitEach instPairs ts) = false
  | [], _ => rfl
  | t :: ts, h => by
      simp only [Term.letFreeEach, Bool.and_eq_true] at h
      rw [InstantiateVisitor.visitEach, Term.hasVarAmongEach,
        instantiate_letFree instPairs t h.1, instantiateEach_letFree instPairs ts h.2]
      rfl
end

/-- C32, a counterexample in the code: `InstantiateVisitor` with the pair `(x, 5)` on
`(let ((a x)) (+ a x))` returns `(let ((a 5)) (+ a x))`, in which the variable `x`
is still there: the application of a `Let` is returned as it is, for every `Let` and
every list of pairs. On a term built without `Let` the result contains no variable
named by a pair. -/
theorem instantiate_keeps_let_application :
    (InstantiateVisitor.visit [("x", "5")] letOverVariable =
        .Let ["a"] [.Terminal "5" .INT] (.Op "+" [.Terminal "a" .VAR, .Terminal "x" .VAR]) ∧
      (InstantiateVisitor.visit [("x", "5")] letOverVariable).hasVarAmong ["x"] = true) ∧
    (∀ (instPairs : List (String × String)) (termNames : List String)
        (declarations : List Term) (application : Term),
      InstantiateVisitor.visit instPairs (.Let termNames declarations application) =
        .Let termNames (InstantiateVisitor.visitEach instPairs declarations) application) ∧
    (∀ (instPairs : List (String × String)) (t : Term), t.letFree = true →
      (InstantiateVisitor.visit instPairs t).hasVarAmong (instPairs.map Prod.fst) = false) := by
  refine ⟨by decide, fun instPairs termNames declarations application => ?_,
    fun instPairs t h => instantiate_letFree instPairs t h⟩
  rw [InstantiateVisitor.visit]

theorem instantiate_keeps_let_application_witness :
    (InstantiateVisitor.visit [("x", "5")]
      (.Op "+" [.Terminal "x" .VAR, .Terminal "1" .INT])).hasVarAmong ["x"] = false :=
  instantiate_keeps_let_application.2.2 [("x", "5")]
    (.Op "+" [.Terminal "x" .VAR, .Terminal "1" .INT]) (by decide)

/-! ## Integer division on printed constants -/

/-- The floor of a negative number is negative. -/
theorem floor_neg_of_neg (q : ℚ) (h : q < 0) : Rat.floor q < 0 := by
  by_contra hc
  have h0 : (0 : Int) ≤ Rat.floor q := by omega
  have := Rat.le_floor.mp h0
  simp only [Int.cast_zero] at this
  exact absurd h (not_lt.mpr this)

/-- The floor of a number that is not negative is not negative. -/
theorem floor_nonneg_of_nonneg (q : ℚ) (h : ¬ q < 0) : 0 ≤ Rat.floor q :=
  Rat.le_floor.mpr (by simpa using h)

/-- The terminal written by the case `div` for the quotient `q` of the operands is
the terminal of the floor of `q`. -/
theorem div_terminal (q : ℚ) :
    (if q < 0 then
        Term.Terminal (String.mk ("(- ".data ++
          FastRational.get_str (FastRational.ceil (q * -1)) ++ ")".data)) .INT
      else .Terminal (String.mk (FastRational.get_str (FastRational.floor q))) .INT)
      = intTerminal (Rat.floor q) := by
  unfold intTerminal encodeInt FastRational.ceil FastRational.floor
  by_cases h : q < 0
  · have e : -(q * -1) = q := by ring
    rw [if_pos h, if_pos (floor_neg_of_neg q h), e, get_str_intCast]
  · rw [if_neg h, if_neg (by have := floor_nonneg_of_nonneg q h; omega), get_str_intCast]

/-- The case `div` on two integer constants returns the floor of their quotient. -/
theorem operate_div (rem : ℚ → ℚ → ℚ) (i j : Int) (hj : j ≠ 0) :
    OperateVisitor.visit rem "div" [intTerminal i, intTerminal j] =
      .ok (intTerminal (Rat.floor ((i : ℚ) / (j : ℚ)))) := by
  have ho := operands_integers "div" (intTerminal i) (intTerminal j) [] i j (by simp)
    (intTerminal_operand i) (intTerminal_operand j)
  have hq : ¬ ((j : ℚ) = 0) := by exact_mod_cast hj
  simp only [OperateVisitor.visit, ho, String.reduceEq, if_false, if_true,
    bind, Except.bind, pure, Except.pure, hq]
  rw [← div_terminal]
  split <;> rfl

/-- The floor of the quotient of two integers leaves a remainder between 0 and the
divisor. -/
theorem floor_div_remainder (a b : Int) :
    (0 < b → 0 ≤ a - b * Rat.floor ((a : ℚ) / (b : ℚ)) ∧
      a - b * Rat.floor ((a : ℚ) / (b : ℚ)) < b) ∧
    (b < 0 → b < a - b * Rat.floor ((a : ℚ) / (b : ℚ)) ∧
      a - b * Rat.floor ((a : ℚ) / (b : ℚ)) ≤ 0) := by
  have h1 : ((Rat.floor ((a : ℚ) / (b : ℚ)) : Int) : ℚ) ≤ (a : ℚ) / (b : ℚ) :=
    Rat.le_floor.mp (le_refl _)
  have h2 : (a : ℚ) / (b : ℚ) < ((Rat.floor ((a : ℚ) / (b : ℚ)) + 1 : Int) : ℚ) := by
    by_contra hc
    have := Rat.le_floor.mpr (not_lt.mp hc)
    omega
  generalize Rat.floor ((a : ℚ) / (b : ℚ)) = q at h1 h2
  constructor
  · intro hpos
    have hbq : (0 : ℚ) < (b : ℚ) := by exact_mod_cast hpos
    rw [le_div_iff₀ hbq] at h1
    rw [div_lt_iff₀ hbq] at h2
    have h1i : q * b ≤ a := by exact_mod_cast h1
    have h2i : a < (q + 1) * b := by exact_mod_cast h2
    constructor <;> nlinarith
  · intro hneg
    have hbq : (b : ℚ) < 0 := by exact_mod_cast hneg
    rw [le_div_iff_of_neg hbq] at h1
    rw [div_lt_iff_of_neg hbq] at h2
    have h1i : a ≤ q * b := by exact_mod_cast h1
    have h2i : (q + 1) * b < a := by exact_mod_cast h2
    constructor <;> nlinarith

/-- The floor of the quotient of two integers against their Euclidean quotient, which
leaves a remainder that is not negative: they agree for a positive divisor and for a
divisor that divides the dividend; otherwise the floor is one less. -/
theorem floor_div_euclidean (a b : Int) :
    (0 < b → Rat.floor ((a : ℚ) / (b : ℚ)) = a / b) ∧
    (b < 0 → b ∣ a → Rat.floor ((a : ℚ) / (b : ℚ)) = a / b) ∧
    (b < 0 → ¬ b ∣ a → Rat.floor ((a : ℚ) / (b : ℚ)) = a / b - 1) := by
  obtain ⟨hp, hn⟩ := floor_div_remainder a b
  generalize Rat.floor ((a : ℚ) / (b : ℚ)) = q at hp hn
  refine ⟨fun hpos => ?_, fun hneg hdvd => ?_, fun hneg hndvd => ?_⟩
  · obtain ⟨h1, h2⟩ := hp hpos
    exact ((Int.ediv_emod_unique hpos).mpr ⟨by ring, h1, h2⟩).1.symm
  · obtain ⟨h1, h2⟩ := hn hneg
    have hr : b ∣ a - b * q := Dvd.dvd.sub hdvd (Dvd.intro _ rfl)
    have h0 : a - b * q = 0 :=
      Int.eq_zero_of_abs_lt_dvd (Int.neg_dvd.mpr hr) (by rw [abs_lt]; constructor <;> omega)
    have ha : a = b * q := by omega
    rw [ha, Int.mul_ediv_cancel_left _ (by omega)]
  · obtain ⟨h1, h2⟩ := hn hneg
    have hne : a - b * q ≠ 0 := by
      intro h0
      exact hndvd ⟨q, by omega⟩
    have hu := (Int.ediv_emod_unique (a := a) (b := -b) (r := a - b * q + -b)
      (q := -q - 1) (by omega)).mpr ⟨by ring, by omega, by omega⟩
    have e : a / b = -(a / -b) := by rw [Int.ediv_neg, neg_neg]
    rw [e, hu.1]
    ring

/-- The case `div` on two integer constants, against the Euclidean quotient. -/
theorem operate_div_euclidean (rem : ℚ → ℚ → ℚ) (a b : Int) (hb : b ≠ 0) :
    ∃ q, OperateVisitor.visit rem "div" [intTerminal a, intTerminal b] = .ok (intTerminal q) ∧
      (0 < b → q = a / b) ∧ (b < 0 → b ∣ a → q = a / b) ∧
      (b < 0 → ¬ b ∣ a → q = a / b - 1) :=
  ⟨Rat.floor ((a : ℚ) / (b : ℚ)), operate_div rem a b hb, floor_div_euclidean a b⟩

/-- C33, a counterexample in the code: on `(div 7 (- 2))` the case `div` of
`OperateVisitor::visit(Op)` returns `(- 4)`, whereas the integer quotient of SMT-LIB
is `-3` (7 = -2 * -3 + 1); on `(div (- 7) (- 2))` it returns `3`, whereas the
quotient is `4` (-7 = -2 * 4 + 1). For integer constants `a` and `b` with `b` other
than 0 the result encodes the floor of `a / b`: it is the quotient of SMT-LIB when
`b` is positive or divides `a`, and one less than it otherwise. -/
theorem div_rounds_down (rem : ℚ → ℚ → ℚ) :
    (OperateVisitor.visit rem "div" [intTerminal 7, intTerminal (-2)]
        = .ok (.Terminal "(- 4)" .INT) ∧
      (7 : Int) / (-2) = -3 ∧ (7 : Int) % (-2) = 1) ∧
    (OperateVisitor.visit rem "div" [intTerminal (-7), intTerminal (-2)]
        = .ok (.Terminal "3" .INT) ∧
      (-7 : Int) / (-2) = 4 ∧ (-7 : Int) % (-2) = 1) ∧
    (∀ a b : Int, b ≠ 0 →
      ∃ q, OperateVisitor.visit rem "div" [intTerminal a, intTerminal b]
          = .ok (intTerminal q) ∧
        (0 < b → q = a / b) ∧ (b < 0 → b ∣ a → q = a / b) ∧
        (b < 0 → ¬ b ∣ a → q = a / b - 1)) := by
  refine ⟨⟨?_, by decide, by decide⟩, ⟨?_, by decide, by decide⟩,
    fun a b hb => operate_div_euclidean rem a b hb⟩
  · with_unfolding_all rfl
  · with_unfolding_all rfl

theorem div_rounds_down_witness :
    ∃ q, OperateVisitor.visit (fun _ _ => 0) "div" [intTerminal 7, intTerminal 2]
        = .ok (intTerminal q) ∧
      (0 < (2 : Int) → q = 7 / 2) ∧ ((2 : Int) < 0 → (2 : Int) ∣ 7 → q = 7 / 2) ∧
      ((2 : Int) < 0 → ¬ (2 : Int) ∣ 7 → q = 7 / 2 - 1) :=
  (div_rounds_down (fun _ _ => 0)).2.2 7 2 (by decide)

/-! ## Outcomes of trivial quantifier elimination -/

/-- Substituting a term without the variable for the variable eliminates it. -/
theorem varSubstitute_eliminates (var F T r : PTRef) (hvar : isVar var = true)
    (hT : var ∉ getVars T) (h : varSubstitute F [(var, T)] = .ok r) :
    var ∉ getVars r := by
  cases var <;> simp [isVar] at hvar
  rename_i n s
  have hT2 : PTRef.var n s ∉ collectVars T := by simpa [getVars] using hT
  have := substitute_removes n s T hT2 F r h
  simpa [getVars] using this

/-- On a variable, `eliminateVar` returns the formula after a substitution for the
variable by a term that a top-level equality gives, or the formula itself when no
such term is found. -/
theorem eliminateVar_outcome (tryGet : PTRef → PTRef → Option PTRef) (var F : PTRef)
    (hvar : isVar var = true) :
    ∃ r, eliminateVar tryGet var F = .ok r ∧
      ((∃ T,
          ((∃ lhs rhs,
              (getTopLevelConjuncts F isEquality).find? (isDefinitionOf var)
                = some (.eq lhs rhs) ∧
              (lhs = var ∨ rhs = var) ∧ T = if lhs = var then rhs else lhs) ∨
            (∃ e, (getTopLevelConjuncts F isEquality).find? (isDefinitionOf var) = none ∧
              (getTopLevelConjuncts F isEquality).find? (containsVar var) = some e ∧
              tryGet var e = some T)) ∧
          varSubstitute F [(var, T)] = .ok r ∧ (var ∉ getVars T → var ∉ getVars r)) ∨
        ((getTopLevelConjuncts F isEquality).find? (isDefinitionOf var) = none ∧
          (∀ e, (getTopLevelConjuncts F isEquality).find? (containsVar var) = some e →
            tryGet var e = none) ∧
          r = F)) := by
  rcases eliminateVar_cases tryGet var F hvar with
    ⟨l, r, hfind, hlr, hres⟩ | ⟨e, T, h1, h2, h3, hres⟩ | ⟨h1, h2, hres⟩
  · obtain ⟨res, hsub⟩ := varSubstitute_defined F [(var, if l = var then r else l)]
    exact ⟨res, by rw [hres, hsub], Or.inl ⟨_, Or.inl ⟨l, r, hfind, hlr, rfl⟩, hsub,
      fun hT => varSubstitute_eliminates var F _ res hvar hT hsub⟩⟩
  · obtain ⟨res, hsub⟩ := varSubstitute_defined F [(var, T)]
    exact ⟨res, by rw [hres, hsub], Or.inl ⟨T, Or.inr ⟨e, h1, h2, h3⟩, hsub,
      fun hT => varSubstitute_eliminates var F T res hvar hT hsub⟩⟩
  · exact ⟨F, hres, Or.inr ⟨h1, h2, rfl⟩⟩

/-- C11, the claim as stated fails: at the variable `x` and the formula `x < 7`, which
has no top-level equality, `eliminateVar` neither eliminates `x` nor throws: it
returns the formula unchanged, with `x` still occurring in it. -/
theorem eliminateVar_returns_with_variable :
    isVar x0 = true ∧
    eliminateVar noSubstitution x0 sampleInequality = .ok sampleInequality ∧
    x0 ∈ getVars sampleInequality :=
  ⟨rfl, eliminateVar_keeps_variable noSubstitution⟩

/-- C11, amended. For every variable `var` and formula `F`, `eliminateVar(var, F)` throws
nothing and returns a formula. Either it is `F` with `var` replaced by a term `T`,
which is the other side of the first top-level equality of `F` that has `var` as a
side or, when there is none, the substitution that the helper gets from the first
top-level equality that contains `var`; then `var` has been eliminated whenever it
does not occur in `T`. Or no such term is found, the function is unable to eliminate
`var`, and it returns `F` itself. -/
theorem eliminateVar_eliminates_or_returns (tryGet : PTRef → PTRef → Option PTRef)
    (var F : PTRef) (hvar : isVar var = true) :
    ∃ r, eliminateVar tryGet var F = .ok r ∧
      ((∃ T,
          ((∃ lhs rhs,
              (getTopLevelConjuncts F isEquality).find? (isDefinitionOf var)
                = some (.eq lhs rhs) ∧
              (lhs = var ∨ rhs = var) ∧ T = if lhs = var then rhs else lhs) ∨
            (∃ e, (getTopLevelConjuncts F isEquality).find? (isDefinitionOf var) = none ∧
              (getTopLevelConjuncts F isEquality).find? (containsVar var) = some e ∧
              tryGet var e = some T)) ∧
          varSubstitute F [(var, T)] = .ok r ∧ (var ∉ getVars T → var ∉ getVars r)) ∨
        ((getTopLevelConjuncts F isEquality).find? (isDefinitionOf var) = none ∧
          (∀ e, (getTopLevelConjuncts F isEquality).find? (containsVar var) = some e →
            tryGet var e = none) ∧
          r = F)) :=
  eliminateVar_outcome tryGet var F hvar

theorem eliminateVar_eliminates_or_returns_witness :
    ∃ r, eliminateVar noSubstitution x0 sampleFormula = .ok r ∧
      ((∃ T,
          ((∃ lhs rhs,
              (getTopLevelConjuncts sampleFormula isEquality).find? (isDefinitionOf x0)
                = some (.eq lhs rhs) ∧
              (lhs = x0 ∨ rhs = x0) ∧ T = if lhs = x0 then rhs else lhs) ∨
            (∃ e, (getTopLevelConjuncts sampleFormula isEquality).find? (isDefinitionOf x0)
                = none ∧
              (getTopLevelConjuncts sampleFormula isEquality).find? (containsVar x0) = some e ∧
              noSubstitution x0 e = some T)) ∧
          varSubstitute sampleFormula [(x0, T)] = .ok r ∧
          (x0 ∉ getVars T → x0 ∉ getVars r)) ∨
        ((getTopLevelConjuncts sampleFormula isEquality).find? (isDefinitionOf x0) = none ∧
          (∀ e, (getTopLevelConjuncts sampleFormula isEquality).find? (containsVar x0) = some e →
            noSubstitution x0 e = none) ∧
          r = sampleFormula)) :=
  eliminateVar_eliminates_or_returns noSubstitution x0 sampleFormula (by decide)

end Golem
